import Mathlib

/-!
Verification of the block-indexer ledger core.

A shallow embedding of the indexer's core (src/validation.ts, src/utxo.ts,
and the endpoint compositions from src/index.ts) and proofs of its stated
properties.

The persistent store is modelled as four relations held as lists in
insertion order; SQL statements become list operations: INSERT is an
append (prefixed by the schema's unique-constraint checks from
src/database.ts), UPDATE is an in-place map, DELETE is a filter, and a
SELECT with ORDER BY applies an explicit insertion sort. Each
atomic transaction (BEGIN/COMMIT/ROLLBACK) becomes an Except value: an
error leaves the caller's state untouched. Monetary values and heights
are Int (the store's BIGINT/INTEGER columns); the block-id digest is a
full executable SHA-256 over the UTF-8 bytes of the hash input string,
as produced by createHash("sha256").update(s).digest("hex").
-/

/-! ## SHA-256 (createHash("sha256"), lowercase hex digest) -/

def w32 : Nat := 4294967296

def rotr32 (x n : Nat) : Nat :=
  ((x >>> n) ||| (x <<< (32 - n))) &&& 0xFFFFFFFF

def shaK : List Nat :=
  [1116352408, 1899447441, 3049323471, 3921009573, 961987163, 1508970993,
   2453635748, 2870763221, 3624381080, 310598401, 607225278, 1426881987,
   1925078388, 2162078206, 2614888103, 3248222580, 3835390401, 4022224774,
   264347078, 604807628, 770255983, 1249150122, 1555081692, 1996064986,
   2554220882, 2821834349, 2952996808, 3210313671, 3336571891, 3584528711,
   113926993, 338241895, 666307205, 773529912, 1294757372, 1396182291,
   1695183700, 1986661051, 2177026350, 2456956037, 2730485921, 2820302411,
   3259730800, 3345764771, 3516065817, 3600352804, 4094571909, 275423344,
   430227734, 506948616, 659060556, 883997877, 958139571, 1322822218,
   1537002063, 1747873779, 1955562222, 2024104815, 2227730452, 2361852424,
   2428436474, 2756734187, 3204031479, 3329325298]

def shaH0 : List Nat :=
  [1779033703, 3144134277, 1013904242, 2773480762, 1359893119, 2600822924,
   528734635, 1541459225]

/-- UTF-8 encoding of a single code point. -/
def encodeChar (c : Char) : List Nat :=
  let v := c.toNat
  if v < 0x80 then [v]
  else if v < 0x800 then [0xC0 ||| (v >>> 6), 0x80 ||| (v &&& 0x3F)]
  else if v < 0x10000 then
    [0xE0 ||| (v >>> 12), 0x80 ||| ((v >>> 6) &&& 0x3F), 0x80 ||| (v &&& 0x3F)]
  else
    [0xF0 ||| (v >>> 18), 0x80 ||| ((v >>> 12) &&& 0x3F),
     0x80 ||| ((v >>> 6) &&& 0x3F), 0x80 ||| (v &&& 0x3F)]

def utf8Bytes (s : String) : List Nat :=
  s.toList.flatMap encodeChar

/-- SHA-256 padding: 0x80, zeros to 56 mod 64, then the 8-byte big-endian bit length. -/
def shaPad (msg : List Nat) : List Nat :=
  let bitLen := 8 * msg.length
  let zeros := (120 - ((msg.length + 1) % 64)) % 64
  msg ++ [0x80] ++ List.replicate zeros 0 ++
    [56, 48, 40, 32, 24, 16, 8, 0].map (fun i => (bitLen >>> i) &&& 0xFF)

def bytesToWords : List Nat → List Nat
  | b0 :: b1 :: b2 :: b3 :: rest =>
      ((b0 <<< 24) ||| (b1 <<< 16) ||| (b2 <<< 8) ||| b3) :: bytesToWords rest
  | _ => []

def wordChunks : List Nat → List (List Nat)
  | w0 :: w1 :: w2 :: w3 :: w4 :: w5 :: w6 :: w7 ::
    w8 :: w9 :: w10 :: w11 :: w12 :: w13 :: w14 :: w15 :: rest =>
      [w0, w1, w2, w3, w4, w5, w6, w7, w8, w9, w10, w11, w12, w13, w14, w15] ::
        wordChunks rest
  | _ => []

def scheduleExtend (w : List Nat) : Nat → List Nat
  | 0 => w
  | n + 1 =>
    let len := w.length
    let w15 := w.getD (len - 15) 0
    let w2 := w.getD (len - 2) 0
    let w16 := w.getD (len - 16) 0
    let w7 := w.getD (len - 7) 0
    let s0 := (rotr32 w15 7) ^^^ (rotr32 w15 18) ^^^ (w15 >>> 3)
    let s1 := (rotr32 w2 17) ^^^ (rotr32 w2 19) ^^^ (w2 >>> 10)
    scheduleExtend (w ++ [(w16 + s0 + w7 + s1) % w32]) n

def shaRound (state : List Nat) (kw : Nat × Nat) : List Nat :=
  match state with
  | [a, b, c, d, e, f, g, h] =>
    let s1 := (rotr32 e 6) ^^^ (rotr32 e 11) ^^^ (rotr32 e 25)
    let ch := (e &&& f) ^^^ ((0xFFFFFFFF ^^^ e) &&& g)
    let t1 := (h + s1 + ch + kw.1 + kw.2) % w32
    let s0 := (rotr32 a 2) ^^^ (rotr32 a 13) ^^^ (rotr32 a 22)
    let maj := (a &&& b) ^^^ (a &&& c) ^^^ (b &&& c)
    let t2 := (s0 + maj) % w32
    [(t1 + t2) % w32, a, b, c, (d + t1) % w32, e, f, g]
  | s => s

def shaCompress (hs : List Nat) (chunk : List Nat) : List Nat :=
  let ws := scheduleExtend chunk 48
  let final := (shaK.zip ws).foldl shaRound hs
  (hs.zip final).map (fun p => (p.1 + p.2) % w32)

def hexChar (n : Nat) : Char :=
  if n < 10 then Char.ofNat (48 + n) else Char.ofNat (87 + n)

def wordToHex (x : Nat) : List Char :=
  [28, 24, 20, 16, 12, 8, 4, 0].map (fun i => hexChar ((x >>> i) &&& 0xF))

/-- SHA-256 of the UTF-8 bytes of a string, as a lowercase hex digest. -/
def sha256hex (s : String) : String :=
  let padded := shaPad (utf8Bytes s)
  let hs := (wordChunks (bytesToWords padded)).foldl shaCompress shaH0
  String.mk (hs.flatMap wordToHex)

/-! ## Data model (src/types.ts) -/

structure Output where
  address : String
  value : Int
deriving DecidableEq

structure Input where
  txId : String
  index : Int
deriving DecidableEq

structure Transaction where
  id : String
  inputs : List Input
  outputs : List Output
deriving DecidableEq

structure Block where
  id : String
  height : Int
  transactions : List Transaction
deriving DecidableEq

/-! ## Store relations (src/database.ts) -/

/-- A row of the blocks table: id VARCHAR PRIMARY KEY, height INTEGER UNIQUE. -/
structure BlockRow where
  id : String
  height : Int
deriving DecidableEq

/-- A row of the transactions table: id PRIMARY KEY, block_id, block_height. -/
structure TxRow where
  id : String
  blockId : String
  blockHeight : Int
deriving DecidableEq

/-- A row of the utxos table, keyed by (tx_id, output_index). -/
structure UTXORow where
  txId : String
  outputIndex : Int
  address : String
  value : Int
  isSpent : Bool
  spentInTx : Option String
  blockHeight : Int
deriving DecidableEq

/-- The whole store. Lists hold rows in insertion order. -/
structure DB where
  blocks : List BlockRow
  transactions : List TxRow
  utxos : List UTXORow
  balances : List (String × Int)
deriving DecidableEq

def emptyDB : DB := ⟨[], [], [], []⟩

/-- Errors surfaced by the core: ValidationError (client fault),
a plain Error thrown by the ledger (spendUTXO), and errors raised by the
store itself (unique/not-null constraint violations). -/
inductive Err where
  | validationError (msg : String)
  | genericError (msg : String)
  | dbError (msg : String)
deriving DecidableEq

instance exceptDecEq {α β : Type} [DecidableEq α] [DecidableEq β] :
    DecidableEq (Except α β) := fun x y =>
  match x, y with
  | .error a, .error b =>
      match decEq a b with
      | isTrue h => isTrue (h ▸ rfl)
      | isFalse h => isFalse (fun hc => h (Except.error.inj hc))
  | .ok a, .ok b =>
      match decEq a b with
      | isTrue h => isTrue (h ▸ rfl)
      | isFalse h => isFalse (fun hc => h (Except.ok.inj hc))
  | .error a, .ok b => isFalse (fun hc => Except.noConfusion hc)
  | .ok a, .error b => isFalse (fun hc => Except.noConfusion hc)

/-! ## Ledger operations (src/utxo.ts UTXOManager) -/

/-- getAddressBalance: SELECT balance FROM address_balances WHERE address;
an absent row reads as 0 (parseFloat(rows[0]?.balance || 0)). -/
def getAddressBalance (db : DB) (address : String) : Int :=
  match db.balances.find? (fun p => p.1 == address) with
  | some p => p.2
  | none => 0

/-- updateAddressBalance: INSERT .. ON CONFLICT (address) DO UPDATE SET
balance = balance + delta. -/
def updateAddressBalance (db : DB) (address : String) (deltaValue : Int) : DB :=
  if db.balances.any (fun p => p.1 == address) then
    { db with balances :=
        db.balances.map (fun p => if p.1 == address then (p.1, p.2 + deltaValue) else p) }
  else
    { db with balances := db.balances ++ [(address, deltaValue)] }

/-- The WHERE tx_id = $1 AND output_index = $2 test shared by every
statement that addresses a UTXO row through an input reference. -/
def keyMatches (input : Input) (u : UTXORow) : Bool :=
  u.txId == input.txId && u.outputIndex == input.index

/-- The WHERE clause of the shared unspent-row SELECT. -/
def spendPred (input : Input) (u : UTXORow) : Bool :=
  keyMatches input u && !u.isSpent

/-- The SET is_spent = TRUE, spent_in_tx = $1 update applied to a row. -/
def markSpent (spendingTxId : String) (u : UTXORow) : UTXORow :=
  { u with isSpent := true, spentInTx := some spendingTxId }

/-- The SELECT shared by spendUTXO and getInputValue:
SELECT .. FROM utxos WHERE tx_id = $1 AND output_index = $2 AND is_spent = FALSE. -/
def resolveInput (db : DB) (input : Input) : Option UTXORow :=
  db.utxos.find? (spendPred input)

/-- spendUTXO: resolve the unspent UTXO, fail like the thrown Error when
absent, mark it spent with the spending transaction id, and subtract its
value from its owner's balance. -/
def spendUTXO (db : DB) (input : Input) (spendingTxId : String) : Except Err DB :=
  match resolveInput db input with
  | none =>
      let t := input.txId
      let i := input.index
      .error (.genericError (s!"UTXO {t}:{i} not found or already spent"))
  | some u =>
      .ok (updateAddressBalance
        { db with utxos := db.utxos.map (fun v =>
            if keyMatches input v then markSpent spendingTxId v else v) }
        u.address (-u.value))

/-- createUTXO: INSERT INTO utxos (primary key (tx_id, output_index)), then
add the received amount to the owner's balance. -/
def createUTXO (db : DB) (txId : String) (index : Int) (output : Output)
    (blockHeight : Int) : Except Err DB :=
  if db.utxos.any (fun u => u.txId == txId && u.outputIndex == index) then
    .error (.dbError ("duplicate key value violates unique constraint utxos_pkey"))
  else
    .ok (updateAddressBalance
      { db with utxos := db.utxos ++ [⟨txId, index, output.address, output.value, false, none, blockHeight⟩] }
      output.address output.value)

/-- Sequencing of store statements inside one atomic unit: a failure
aborts the unit, a success feeds the next statement. -/
def andThen (x : Except Err DB) (k : DB → Except Err DB) : Except Err DB :=
  match x with
  | .error e => .error e
  | .ok db => k db

/-- The inputs loop of processTransaction. -/
def spendInputs (db : DB) (inputs : List Input) (spendingTxId : String) : Except Err DB :=
  match inputs with
  | [] => .ok db
  | inp :: rest =>
      andThen (spendUTXO db inp spendingTxId) (fun db1 => spendInputs db1 rest spendingTxId)

/-- The outputs loop of processTransaction (index counts up from 0). -/
def createOutputs (db : DB) (txId : String) (index : Int) (outputs : List Output)
    (blockHeight : Int) : Except Err DB :=
  match outputs with
  | [] => .ok db
  | o :: rest =>
      andThen (createUTXO db txId index o blockHeight)
        (fun db1 => createOutputs db1 txId (index + 1) rest blockHeight)

/-- processTransaction: INSERT the transaction row (block_id resolved by the
subquery SELECT id FROM blocks WHERE height = $2; transactions.id is a
primary key), then spend the inputs, then create the outputs. -/
def processTransaction (db : DB) (t : Transaction) (blockHeight : Int) : Except Err DB :=
  match db.blocks.find? (fun r => r.height == blockHeight) with
  | none => .error (.dbError ("null value in column block_id violates not-null constraint"))
  | some blk =>
      if db.transactions.any (fun r => r.id == t.id) then
        .error (.dbError ("duplicate key value violates unique constraint transactions_pkey"))
      else
        andThen
          (spendInputs
            { db with transactions := db.transactions ++ [⟨t.id, blk.id, blockHeight⟩] }
            t.inputs t.id)
          (fun db2 => createOutputs db2 t.id 0 t.outputs blockHeight)

/-- The transactions loop of processBlock. -/
def processTransactions (db : DB) (ts : List Transaction) (blockHeight : Int) : Except Err DB :=
  match ts with
  | [] => .ok db
  | t :: rest =>
      andThen (processTransaction db t blockHeight)
        (fun db1 => processTransactions db1 rest blockHeight)

/-- processBlock: one atomic unit; INSERT the block row (blocks.id primary
key, blocks.height unique), then process each transaction in array order.
An error rolls the whole unit back: the caller keeps its old state. -/
def processBlock (db : DB) (b : Block) : Except Err DB :=
  if db.blocks.any (fun r => r.id == b.id || r.height == b.height) then
    .error (.dbError ("duplicate key value violates unique constraint blocks"))
  else
    let db1 := { db with blocks := db.blocks ++ [⟨b.id, b.height⟩] }
    processTransactions db1 b.transactions b.height

/-! ## Validation (src/validation.ts) -/

/-- The height SELECT MAX(height) FROM blocks, with the NULL-or-zero
coalescing of result.rows[0].max_height || 0. -/
def currentMaxHeight (db : DB) : Int :=
  match db.blocks.map (fun r => r.height) with
  | [] => 0
  | h :: t => t.foldl max h

/-- validateBlockHeight: the height must be exactly currentMaxHeight + 1. -/
def validateBlockHeight (db : DB) (height : Int) : Except Err Unit :=
  let expectedHeight := currentMaxHeight db + 1
  if height != expectedHeight then
    .error (.validationError (s!"Invalid block height. Expected {expectedHeight}, got {height}"))
  else
    .ok ()

/-- Code-point-wise lexicographic comparison of character lists, the order
JavaScript's default sort compares strings by. -/
def charListLe : List Char → List Char → Bool
  | [], _ => true
  | _ :: _, [] => false
  | c :: cs, d :: ds =>
      if c.toNat < d.toNat then true
      else if d.toNat < c.toNat then false
      else charListLe cs ds

/-- Lexicographic less-or-equal on strings. -/
def strLe (a b : String) : Bool := charListLe a.data b.data

/-- Ascending insertion of a string into a sorted list (Array.prototype.sort). -/
def insertAsc (x : String) : List String → List String
  | [] => [x]
  | y :: ys => if strLe x y then x :: y :: ys else y :: insertAsc x ys

/-- Ascending lexicographic sort, the model of JavaScript's default sort. -/
def sortAsc : List String → List String
  | [] => []
  | x :: xs => insertAsc x (sortAsc xs)

/-- The expected block id: sha256 over the decimal height concatenated with
the transaction ids sorted ascending and joined with no separator. -/
def expectedBlockId (height : Int) (transactions : List Transaction) : String :=
  let transactionIds := sortAsc (transactions.map (fun t => t.id))
  sha256hex (toString height ++ String.join transactionIds)

/-- validateBlockId: recompute the hash and compare with block.id. -/
def validateBlockId (b : Block) : Except Err Unit :=
  let expectedId := expectedBlockId b.height b.transactions
  if b.id != expectedId then
    let got := b.id
    .error (.validationError (s!"Invalid block ID. Expected {expectedId}, got {got}"))
  else
    .ok ()

/-- getInputValue: the value of the referenced unspent UTXO, or the
InputNotFound validation error. -/
def getInputValue (db : DB) (input : Input) : Except Err Int :=
  match resolveInput db input with
  | none =>
      let t := input.txId
      let i := input.index
      .error (.validationError (s!"Referenced input {t}:{i} not found or already spent"))
  | some u => .ok u.value

/-- The input-resolution loop of validateTransaction. -/
def getInputValues (db : DB) (inputs : List Input) : Except Err (List Int) :=
  match inputs with
  | [] => .ok []
  | inp :: rest =>
      match getInputValue db inp with
      | .error e => .error e
      | .ok v =>
          match getInputValues db rest with
          | .error e => .error e
          | .ok vs => .ok (v :: vs)

def sumInt (l : List Int) : Int := l.foldl (fun sum value => sum + value) 0

/-- validateTransaction: resolve every input, sum inputs and outputs,
exempt transactions with no inputs, otherwise require exact equality. -/
def validateTransaction (db : DB) (t : Transaction) : Except Err Unit :=
  match getInputValues db t.inputs with
  | .error e => .error e
  | .ok inputValues =>
      let outputValues := t.outputs.map (fun o => o.value)
      let totalInputs := sumInt inputValues
      let totalOutputs := sumInt outputValues
      if t.inputs.length == 0 then
        .ok ()
      else if totalInputs != totalOutputs then
        let n := t.id
        .error (.validationError
          (s!"Transaction {n} is invalid: input sum ({totalInputs}) does not equal output sum ({totalOutputs})"))
      else
        .ok ()

/-- The transactions loop of validateBlock. -/
def validateTransactions (db : DB) (ts : List Transaction) : Except Err Unit :=
  match ts with
  | [] => .ok ()
  | t :: rest =>
      match validateTransaction db t with
      | .error e => .error e
      | .ok _ => validateTransactions db rest

/-- validateBlock: height check, id check, then per-transaction checks,
all read-only against the current (pre-application) state. -/
def validateBlock (db : DB) (b : Block) : Except Err Unit :=
  match validateBlockHeight db b.height with
  | .error e => .error e
  | .ok _ =>
      match validateBlockId b with
      | .error e => .error e
      | .ok _ => validateTransactions db b.transactions

/-- validateRollbackHeight: 0 ≤ target ≤ current max height. -/
def validateRollbackHeight (db : DB) (targetHeight : Int) : Except Err Unit :=
  let currentHeight := currentMaxHeight db
  if targetHeight < 0 then
    .error (.validationError ("Rollback height cannot be negative"))
  else if targetHeight > currentHeight then
    .error (.validationError
      (s!"Cannot rollback to height {targetHeight} which is higher than current height {currentHeight}"))
  else
    .ok ()

/-! ## Rollback engine (src/utxo.ts) -/

/-- Phase 1 of rollbackTransaction: for every UTXO row the transaction
created, subtract its value from its owner's balance. -/
def subtractOutputs (db : DB) (transactionId : String) : DB :=
  (db.utxos.filter (fun u => u.txId == transactionId)).foldl
    (fun d o => updateAddressBalance d o.address (-o.value)) db

/-- Phase 2 of rollbackTransaction: DELETE FROM utxos WHERE tx_id = $1. -/
def deleteTxUtxos (db : DB) (transactionId : String) : DB :=
  { db with utxos := db.utxos.filter (fun u => !(u.txId == transactionId)) }

/-- One iteration of phase 3: mark the row unspent (clearing spent_in_tx)
and add its value back to its owner's balance. -/
def unspendRow (d : DB) (row : UTXORow) : DB :=
  updateAddressBalance
    { d with utxos := d.utxos.map (fun u =>
        if u.txId == row.txId && u.outputIndex == row.outputIndex then
          { u with isSpent := false, spentInTx := none }
        else u) }
    row.address row.value

/-- Phase 3 of rollbackTransaction: restore every UTXO this transaction
spent. -/
def restoreSpentInputs (db : DB) (transactionId : String) : DB :=
  (db.utxos.filter (fun u => u.spentInTx == some transactionId)).foldl unspendRow db

/-- Phase 4 of rollbackTransaction: DELETE FROM transactions WHERE id = $1. -/
def deleteTxRow (db : DB) (transactionId : String) : DB :=
  { db with transactions := db.transactions.filter (fun r => !(r.id == transactionId)) }

/-- rollbackTransaction: subtract and DELETE the UTXOs this transaction
created, then restore to unspent the UTXOs it spent (re-crediting their
owners), then DELETE the transaction row. -/
def rollbackTransaction (db : DB) (transactionId : String) : DB :=
  deleteTxRow
    (restoreSpentInputs (deleteTxUtxos (subtractOutputs db transactionId) transactionId)
      transactionId)
    transactionId

/-- The SELECT id FROM transactions WHERE block_id = $1 ORDER BY id of
rollbackBlock. -/
def undoTxIds (db : DB) (blockId : String) : List String :=
  sortAsc ((db.transactions.filter (fun r => r.blockId == blockId)).map (fun r => r.id))

/-- The per-block undo loop of rollbackBlock. -/
def rollbackTxList (db : DB) (ids : List String) : DB :=
  match ids with
  | [] => db
  | tid :: rest => rollbackTxList (rollbackTransaction db tid) rest

/-- rollbackBlock: undo every transaction recorded for the block, in the
order returned by ORDER BY id. -/
def rollbackBlock (db : DB) (blockId : String) : DB :=
  rollbackTxList db (undoTxIds db blockId)

/-- Descending insertion of a block row by height (ORDER BY height DESC). -/
def insertDescBlock (b : BlockRow) : List BlockRow → List BlockRow
  | [] => [b]
  | y :: ys => if y.height ≤ b.height then b :: y :: ys else y :: insertDescBlock b ys

def sortBlocksDesc : List BlockRow → List BlockRow
  | [] => []
  | x :: xs => insertDescBlock x (sortBlocksDesc xs)

/-- SELECT id, height FROM blocks WHERE height > $1 ORDER BY height DESC. -/
def blocksToRemove (db : DB) (targetHeight : Int) : List BlockRow :=
  sortBlocksDesc (db.blocks.filter (fun r => decide (targetHeight < r.height)))

/-- The per-rollback block loop. -/
def rollbackBlockList (db : DB) (blks : List BlockRow) : DB :=
  match blks with
  | [] => db
  | blk :: rest => rollbackBlockList (rollbackBlock db blk.id) rest

/-- rollbackToHeight: one atomic unit; undo all blocks above the target in
descending height order, then DELETE FROM blocks WHERE height > target. -/
def rollbackToHeight (db : DB) (targetHeight : Int) : DB :=
  let db1 := rollbackBlockList db (blocksToRemove db targetHeight)
  { db1 with blocks := db1.blocks.filter (fun r => !decide (targetHeight < r.height)) }

/-! ## Endpoint compositions (src/index.ts) -/

/-- POST /blocks: validateBlock then processBlock; a failure leaves the
store untouched. -/
def submitBlock (db : DB) (b : Block) : Except Err DB :=
  match validateBlock db b with
  | .error e => .error e
  | .ok _ => processBlock db b

/-- POST /rollback: validateRollbackHeight then rollbackToHeight. -/
def submitRollback (db : DB) (targetHeight : Int) : Except Err DB :=
  match validateRollbackHeight db targetHeight with
  | .error e => .error e
  | .ok _ => .ok (rollbackToHeight db targetHeight)

/-- Applying a sequence of blocks through the submission path. -/
def applyChain (db : DB) (bs : List Block) : Except Err DB :=
  match bs with
  | [] => .ok db
  | b :: rest => andThen (submitBlock db b) (fun db1 => applyChain db1 rest)

/-- Re-applying a sequence of blocks through processBlock alone. -/
def processBlocks (db : DB) (bs : List Block) : Except Err DB :=
  match bs with
  | [] => .ok db
  | b :: rest => andThen (processBlock db b) (fun db1 => processBlocks db1 rest)

/-- The states the service can be in: the empty store, extended by
successful block submissions and by validated rollbacks. -/
inductive Reachable : DB → Prop where
  | empty : Reachable emptyDB
  | submit {db db' : DB} {b : Block} :
      Reachable db → submitBlock db b = .ok db' → Reachable db'
  | rollback {db : DB} {k : Int} :
      Reachable db → validateRollbackHeight db k = .ok () → Reachable (rollbackToHeight db k)

/-! ## Specification-side helper definitions -/

/-- The sum of the values of the unspent UTXOs owned by an address. -/
def sumUnspent (db : DB) (address : String) : Int :=
  sumInt ((db.utxos.filter (fun u => u.address == address && !u.isSpent)).map (fun u => u.value))

/-- The application-order ids of the transactions stored for a block:
the rows in insertion order, which is the order processBlock applied them. -/
def appOrderTxIds (db : DB) (blockId : String) : List String :=
  (db.transactions.filter (fun r => r.blockId == blockId)).map (fun r => r.id)

/-- All input references of a block's transactions, in application order,
paired with the id of the spending transaction. -/
def refsOf (ts : List Transaction) : List (Input × String) :=
  ts.flatMap (fun t => t.inputs.map (fun i => (i, t.id)))

/-- The key (tx_id, output_index) of an input reference. -/
def inputKey (i : Input) : String × Int := (i.txId, i.index)

/-- The key (tx_id, output_index) of a UTXO row. -/
def utxoKey (u : UTXORow) : String × Int := (u.txId, u.outputIndex)

/-- Mark a UTXO row spent according to a spend association list. -/
def markBy (assoc : List (Input × String)) (u : UTXORow) : UTXORow :=
  match assoc.find? (fun p => keyMatches p.1 u) with
  | some p => markSpent p.2 u
  | none => u

/-- The UTXO rows a transaction's outputs create, indexes counting from a base. -/
def mkOutputRows (txId : String) (index : Int) (outputs : List Output)
    (blockHeight : Int) : List UTXORow :=
  match outputs with
  | [] => []
  | o :: rest =>
      ⟨txId, index, o.address, o.value, false, none, blockHeight⟩ ::
        mkOutputRows txId (index + 1) rest blockHeight

/-- All UTXO rows a list of transactions creates at a given height. -/
def newRowsOf (ts : List Transaction) (blockHeight : Int) : List UTXORow :=
  ts.flatMap (fun t => mkOutputRows t.id 0 t.outputs blockHeight)

/-- The transaction row recorded for a transaction of a block. -/
def txRowOf (b : Block) (t : Transaction) : TxRow := ⟨t.id, b.id, b.height⟩

/-- The sum a list of outputs pays to one address. -/
def outSumList (outs : List Output) (a : String) : Int :=
  sumInt ((outs.filter (fun o => o.address == a)).map (fun o => o.value))

/-- The sum a transaction's outputs pay to one address. -/
def outSumTo (t : Transaction) (a : String) : Int :=
  outSumList t.outputs a

/-- The sum a list of inputs takes from one address, resolved against a
fixed list of UTXO rows. -/
def inSumU (rows : List UTXORow) (inputs : List Input) (a : String) : Int :=
  sumInt ((inputs.filterMap (fun i => rows.find? (spendPred i))).filterMap
    (fun u => if u.address == a then some u.value else none))

/-- The sum a transaction's inputs take from one address, resolved against
a fixed pre-state. -/
def inSumFrom (db : DB) (t : Transaction) (a : String) : Int :=
  inSumU db.utxos t.inputs a

/-- The net balance change a list of transactions causes for one address. -/
def deltaOf (db : DB) (ts : List Transaction) (a : String) : Int :=
  sumInt (ts.map (fun t => outSumTo t a - inSumFrom db t a))

/-- Two stores equal in every relation, with balances compared as the
observable balance function (a missing row reads as 0). -/
structure SimEq (d e : DB) : Prop where
  blocks : d.blocks = e.blocks
  transactions : d.transactions = e.transactions
  utxos : d.utxos = e.utxos
  balances : ∀ a, getAddressBalance d a = getAddressBalance e a

/-- Two stores equal outside the blocks relation, balances pointwise. -/
structure CoreSim (d e : DB) : Prop where
  transactions : d.transactions = e.transactions
  utxos : d.utxos = e.utxos
  balances : ∀ a, getAddressBalance d a = getAddressBalance e a

/-- Clear the spent mark on a row when its key is listed. -/
def unmarkBy (ks : List (String × Int)) (u : UTXORow) : UTXORow :=
  if ks.contains (utxoKey u) then { u with isSpent := false, spentInTx := none } else u

/-- The total value a list of rows holds at one address. -/
def sumAddr (rows : List UTXORow) (a : String) : Int :=
  sumInt ((rows.filter (fun u => u.address == a)).map (fun u => u.value))

/-- The balances relation read as a total function (list level). -/
def lookupBal (l : List (String × Int)) (a : String) : Int :=
  match l.find? (fun p => p.1 == a) with
  | some p => p.2
  | none => 0

/-- The list-level effect of the balance upsert. -/
def updBal (l : List (String × Int)) (x : String) (δ : Int) : List (String × Int) :=
  if l.any (fun p => p.1 == x) then
    l.map (fun p => if p.1 == x then (p.1, p.2 + δ) else p)
  else
    l ++ [(x, δ)]

/-- Lift a relation on stores to the Except values the operations return:
both fail with the same error, or both succeed with related stores. -/
def RelExcept (R : DB → DB → Prop) : Except Err DB → Except Err DB → Prop
  | .error a, .error b => a = b
  | .ok a, .ok b => R a b
  | _, _ => False

/-- The keys of a spend association list. -/
def assocKeys (assoc : List (Input × String)) : List (String × Int) :=
  assoc.map (fun p => inputKey p.1)

/-- The well-formedness invariant of reachable stores. -/
structure Wf (db : DB) : Prop where
  blockIdsNodup : (db.blocks.map (fun r => r.id)).Nodup
  heightsNodup : (db.blocks.map (fun r => r.height)).Nodup
  heightsPos : ∀ r ∈ db.blocks, 1 ≤ r.height
  txIdsNodup : (db.transactions.map (fun r => r.id)).Nodup
  txBlockLink : ∀ t ∈ db.transactions, ∃ r ∈ db.blocks, t.blockId = r.id ∧ t.blockHeight = r.height
  utxoKeysNodup : (db.utxos.map utxoKey).Nodup
  utxoTxLink : ∀ u ∈ db.utxos, ∃ t ∈ db.transactions, u.txId = t.id ∧ u.blockHeight = t.blockHeight
  spentFlag : ∀ u ∈ db.utxos, u.spentInTx = none ↔ u.isSpent = false
  spenderLink : ∀ u ∈ db.utxos, ∀ s, u.spentInTx = some s →
    ∃ t ∈ db.transactions, s = t.id ∧ u.blockHeight < t.blockHeight
  balCorrect : ∀ a, getAddressBalance db a = sumUnspent db a

/-! ## Concrete fixtures used by witnesses and counterexamples -/

/-- A two-block chain: a mint, then a full spend. -/
def chainTx1 : Transaction := ⟨"t1", [], [⟨"x", 7⟩]⟩

def chainBlock1 : Block := ⟨expectedBlockId 1 [chainTx1], 1, [chainTx1]⟩

def chainTx2 : Transaction := ⟨"t2", [⟨"t1", 0⟩], [⟨"y", 7⟩]⟩

def chainBlock2 : Block := ⟨expectedBlockId 2 [chainTx2], 2, [chainTx2]⟩

def demoChain : List Block := [chainBlock1, chainBlock2]

def demoChainDB : DB :=
  match applyChain emptyDB demoChain with
  | .ok d => d
  | .error _ => emptyDB

/-- One block holding two mints whose ids are in ascending order. -/
def txA : Transaction := ⟨"a", [], [⟨"x", 10⟩]⟩

def txB : Transaction := ⟨"b", [], [⟨"y", 7⟩]⟩

def blockAB : Block := ⟨expectedBlockId 1 [txA, txB], 1, [txA, txB]⟩

def dbAB : DB :=
  match applyChain emptyDB [blockAB] with
  | .ok d => d
  | .error _ => emptyDB

/-- A mint and a same-block spend of it, in both orders. -/
def txBackMint : Transaction := ⟨"ta", [], [⟨"x", 5⟩]⟩

def txBackSpend : Transaction := ⟨"tb", [⟨"ta", 0⟩], [⟨"y", 5⟩]⟩

def blockBack : Block := ⟨expectedBlockId 1 [txBackMint, txBackSpend], 1, [txBackMint, txBackSpend]⟩

def blockFwd : Block := ⟨expectedBlockId 1 [txBackSpend, txBackMint], 1, [txBackSpend, txBackMint]⟩

/-- A mint, a spend, and two double-spend attempts on the same output. -/
def txMint10 : Transaction := ⟨"tx1", [], [⟨"A", 10⟩]⟩

def blockM1 : Block := ⟨expectedBlockId 1 [txMint10], 1, [txMint10]⟩

def dbM1 : DB :=
  match applyChain emptyDB [blockM1] with
  | .ok d => d
  | .error _ => emptyDB

def txSpend1 : Transaction := ⟨"tx2", [⟨"tx1", 0⟩], [⟨"B", 10⟩]⟩

def txSpend2 : Transaction := ⟨"tx3", [⟨"tx1", 0⟩], [⟨"C", 10⟩]⟩

def blockDSsame : Block := ⟨expectedBlockId 2 [txSpend1, txSpend2], 2, [txSpend1, txSpend2]⟩

def blockSpend : Block := ⟨expectedBlockId 2 [txSpend1], 2, [txSpend1]⟩

def dbM2 : DB :=
  match applyChain emptyDB [blockM1, blockSpend] with
  | .ok d => d
  | .error _ => emptyDB

def txSpendLater : Transaction := ⟨"tx4", [⟨"tx1", 0⟩], [⟨"D", 10⟩]⟩

def blockDSlater : Block := ⟨expectedBlockId 3 [txSpendLater], 3, [txSpendLater]⟩

/-- A mint paying a negative amount. -/
def txNeg : Transaction := ⟨"tn", [], [⟨"addrN", -5⟩]⟩

def blockNeg : Block := ⟨expectedBlockId 1 [txNeg], 1, [txNeg]⟩

def dbNeg : DB :=
  match submitBlock emptyDB blockNeg with
  | .ok d => d
  | .error _ => emptyDB

/-- The state after the first demo block alone. -/
def demoChain1DB : DB :=
  match applyChain emptyDB [chainBlock1] with
  | .ok d => d
  | .error _ => emptyDB

/-- A spend paying out less than it consumes. -/
def txMismatch : Transaction := ⟨"tz", [⟨"tx1", 0⟩], [⟨"Z", 7⟩]⟩

def blockMismatch : Block := ⟨expectedBlockId 2 [txMismatch], 2, [txMismatch]⟩

/-! ## Balance bookkeeping lemmas -/

theorem getAddressBalance_eq_lookupBal (db : DB) (a : String) :
    getAddressBalance db a = lookupBal db.balances a := rfl

theorem updateAddressBalance_blocks (db : DB) (x : String) (δ : Int) :
    (updateAddressBalance db x δ).blocks = db.blocks := by
  unfold updateAddressBalance; split <;> rfl

theorem updateAddressBalance_transactions (db : DB) (x : String) (δ : Int) :
    (updateAddressBalance db x δ).transactions = db.transactions := by
  unfold updateAddressBalance; split <;> rfl

theorem updateAddressBalance_utxos (db : DB) (x : String) (δ : Int) :
    (updateAddressBalance db x δ).utxos = db.utxos := by
  unfold updateAddressBalance; split <;> rfl

theorem updateAddressBalance_balances (db : DB) (x : String) (δ : Int) :
    (updateAddressBalance db x δ).balances = updBal db.balances x δ := by
  unfold updateAddressBalance updBal; split <;> rfl

theorem fst_balUpd (x : String) (δ : Int) (q : String × Int) :
    ((if q.1 == x then (q.1, q.2 + δ) else q) : String × Int).1 = q.1 := by
  split <;> rfl

theorem lookupBal_cons (p : String × Int) (l : List (String × Int)) (a : String) :
    lookupBal (p :: l) a = if p.1 == a then p.2 else lookupBal l a := by
  rw [lookupBal, List.find?_cons]
  by_cases h : (p.1 == a) = true
  · simp [h]
  · simp only [Bool.not_eq_true] at h
    simp [h, lookupBal]

theorem lookupBal_map_ne (l : List (String × Int)) (x a : String) (δ : Int)
    (hxa : x ≠ a) :
    lookupBal (l.map (fun p => if p.1 == x then (p.1, p.2 + δ) else p)) a =
      lookupBal l a := by
  induction l with
  | nil => rfl
  | cons p rest ih =>
      rw [List.map_cons, lookupBal_cons, lookupBal_cons, fst_balUpd, ih]
      by_cases hpa : p.1 = a
      · have hpx : (p.1 == x) = false := by
          simp only [beq_eq_false_iff_ne, ne_eq, hpa]
          exact fun h => hxa h.symm
        have hax : ¬ a = x := fun h => hxa h.symm
        simp [hpa, hpx, hax]
      · simp [hpa]

theorem lookupBal_map_eq (l : List (String × Int)) (a : String) (δ : Int) :
    lookupBal (l.map (fun p => if p.1 == a then (p.1, p.2 + δ) else p)) a =
      if l.any (fun p => p.1 == a) then lookupBal l a + δ else lookupBal l a := by
  induction l with
  | nil => rfl
  | cons p rest ih =>
      rw [List.map_cons, lookupBal_cons, lookupBal_cons, fst_balUpd, List.any_cons]
      by_cases hpa : p.1 = a
      · simp [hpa]
      · have hb : (p.1 == a) = false := by simp [hpa]
        simp only [hb, if_false, Bool.false_or]
        exact ih

theorem lookupBal_append_absent (l : List (String × Int)) (x a : String) (δ : Int)
    (habs : l.any (fun p => p.1 == x) = false) :
    lookupBal (l ++ [(x, δ)]) a =
      if x = a then lookupBal l a + δ else lookupBal l a := by
  rw [lookupBal, List.find?_append]
  by_cases hxa : x = a
  · subst hxa
    have hnone : l.find? (fun p => p.1 == x) = none := by
      rw [List.find?_eq_none]
      intro p hp
      rw [List.any_eq_false] at habs
      simpa using habs p hp
    have h0 : lookupBal l x = 0 := by rw [lookupBal, hnone]
    simp [hnone, h0, lookupBal, List.find?]
  · have hxab : (x == a) = false := by simp [hxa]
    have hsingle : List.find? (fun p => p.1 == a) [(x, δ)] = none := by
      simp [List.find?, hxab]
    cases hfind : l.find? (fun p => p.1 == a) with
    | none => simp [hsingle, lookupBal, hfind, hxa]
    | some q => simp [lookupBal, hfind, hxa]

theorem lookupBal_updBal (l : List (String × Int)) (x a : String) (δ : Int) :
    lookupBal (updBal l x δ) a =
      if x = a then lookupBal l a + δ else lookupBal l a := by
  unfold updBal
  by_cases hany : l.any (fun p => p.1 == x)
  · simp only [hany, if_true]
    by_cases hxa : x = a
    · subst hxa
      rw [lookupBal_map_eq l x δ, hany]
      simp
    · rw [lookupBal_map_ne l x a δ hxa]
      simp [hxa]
  · simp only [Bool.not_eq_true] at hany
    simp only [hany, Bool.false_eq_true, if_false]
    exact lookupBal_append_absent l x a δ hany

theorem getAddressBalance_update (db : DB) (x a : String) (δ : Int) :
    getAddressBalance (updateAddressBalance db x δ) a =
      if x = a then getAddressBalance db a + δ else getAddressBalance db a := by
  rw [getAddressBalance_eq_lookupBal, updateAddressBalance_balances,
    getAddressBalance_eq_lookupBal]
  exact lookupBal_updBal db.balances x a δ

/-! ## Sequencing lemmas -/

theorem andThen_ok {x : Except Err DB} {k : DB → Except Err DB} {d' : DB} :
    andThen x k = .ok d' ↔ ∃ a, x = .ok a ∧ k a = .ok d' := by
  cases x with
  | error e => simp [andThen]
  | ok a => simp [andThen]

theorem relExcept_andThen {R Q : DB → DB → Prop} {x y : Except Err DB}
    (hxy : RelExcept R x y) {k1 k2 : DB → Except Err DB}
    (hk : ∀ a b, R a b → x = .ok a → y = .ok b → RelExcept Q (k1 a) (k2 b)) :
    RelExcept Q (andThen x k1) (andThen y k2) := by
  cases x with
  | error a =>
      cases y with
      | error b => exact hxy ▸ rfl
      | ok b => cases hxy
  | ok a =>
      cases y with
      | error b => cases hxy
      | ok b => exact hk a b hxy rfl rfl

/-! ## Frame lemmas: which relations each operation can touch -/

theorem spendUTXO_ok_blocks {d d' : DB} {i : Input} {s : String}
    (h : spendUTXO d i s = .ok d') : d'.blocks = d.blocks := by
  unfold spendUTXO at h
  cases hr : resolveInput d i with
  | none => rw [hr] at h; cases h
  | some u =>
      rw [hr] at h
      simp only [Except.ok.injEq] at h
      subst h
      rw [updateAddressBalance_blocks]

theorem spendUTXO_ok_transactions {d d' : DB} {i : Input} {s : String}
    (h : spendUTXO d i s = .ok d') : d'.transactions = d.transactions := by
  unfold spendUTXO at h
  cases hr : resolveInput d i with
  | none => rw [hr] at h; cases h
  | some u =>
      rw [hr] at h
      simp only [Except.ok.injEq] at h
      subst h
      rw [updateAddressBalance_transactions]

theorem createUTXO_ok_blocks {d d' : DB} {t : String} {i : Int} {o : Output} {bh : Int}
    (h : createUTXO d t i o bh = .ok d') : d'.blocks = d.blocks := by
  unfold createUTXO at h
  split at h
  · cases h
  · simp only [Except.ok.injEq] at h
    subst h
    rw [updateAddressBalance_blocks]

theorem createUTXO_ok_transactions {d d' : DB} {t : String} {i : Int} {o : Output} {bh : Int}
    (h : createUTXO d t i o bh = .ok d') : d'.transactions = d.transactions := by
  unfold createUTXO at h
  split at h
  · cases h
  · simp only [Except.ok.injEq] at h
    subst h
    rw [updateAddressBalance_transactions]

theorem spendInputs_ok_blocks {inputs : List Input} {d d' : DB} {s : String}
    (h : spendInputs d inputs s = .ok d') : d'.blocks = d.blocks := by
  induction inputs generalizing d with
  | nil => cases h; rfl
  | cons inp rest ih =>
      unfold spendInputs at h
      obtain ⟨d1, h1, h2⟩ := andThen_ok.mp h
      rw [ih h2, spendUTXO_ok_blocks h1]

theorem spendInputs_ok_transactions {inputs : List Input} {d d' : DB} {s : String}
    (h : spendInputs d inputs s = .ok d') : d'.transactions = d.transactions := by
  induction inputs generalizing d with
  | nil => cases h; rfl
  | cons inp rest ih =>
      unfold spendInputs at h
      obtain ⟨d1, h1, h2⟩ := andThen_ok.mp h
      rw [ih h2, spendUTXO_ok_transactions h1]

theorem createOutputs_ok_blocks {outputs : List Output} {d d' : DB} {t : String}
    {i : Int} {bh : Int}
    (h : createOutputs d t i outputs bh = .ok d') : d'.blocks = d.blocks := by
  induction outputs generalizing d i with
  | nil => cases h; rfl
  | cons o rest ih =>
      unfold createOutputs at h
      obtain ⟨d1, h1, h2⟩ := andThen_ok.mp h
      rw [ih h2, createUTXO_ok_blocks h1]

theorem createOutputs_ok_transactions {outputs : List Output} {d d' : DB} {t : String}
    {i : Int} {bh : Int}
    (h : createOutputs d t i outputs bh = .ok d') : d'.transactions = d.transactions := by
  induction outputs generalizing d i with
  | nil => cases h; rfl
  | cons o rest ih =>
      unfold createOutputs at h
      obtain ⟨d1, h1, h2⟩ := andThen_ok.mp h
      rw [ih h2, createUTXO_ok_transactions h1]

theorem processTransaction_ok_blocks {d d' : DB} {t : Transaction} {bh : Int}
    (h : processTransaction d t bh = .ok d') : d'.blocks = d.blocks := by
  unfold processTransaction at h
  split at h
  · cases h
  · split at h
    · cases h
    · obtain ⟨d2, h1, h2⟩ := andThen_ok.mp h
      rw [createOutputs_ok_blocks h2]
      have h3 := spendInputs_ok_blocks h1
      exact h3

theorem processTransactions_ok_blocks {ts : List Transaction} {d d' : DB} {bh : Int}
    (h : processTransactions d ts bh = .ok d') : d'.blocks = d.blocks := by
  induction ts generalizing d with
  | nil => cases h; rfl
  | cons t rest ih =>
      unfold processTransactions at h
      obtain ⟨d1, h1, h2⟩ := andThen_ok.mp h
      rw [ih h2, processTransaction_ok_blocks h1]

theorem foldUpdNeg_blocks (rows : List UTXORow) (st : DB) :
    (rows.foldl (fun d o => updateAddressBalance d o.address (-o.value)) st).blocks = st.blocks := by
  induction rows generalizing st with
  | nil => rfl
  | cons r rest ih => rw [List.foldl_cons, ih, updateAddressBalance_blocks]

theorem foldUnspend_blocks (rows : List UTXORow) (st : DB) :
    (rows.foldl unspendRow st).blocks = st.blocks := by
  induction rows generalizing st with
  | nil => rfl
  | cons r rest ih =>
      rw [List.foldl_cons, ih]
      unfold unspendRow
      rw [updateAddressBalance_blocks]

theorem rollbackTransaction_blocks (d : DB) (tid : String) :
    (rollbackTransaction d tid).blocks = d.blocks := by
  unfold rollbackTransaction deleteTxRow restoreSpentInputs deleteTxUtxos subtractOutputs
  simp only [foldUnspend_blocks, foldUpdNeg_blocks]

theorem rollbackTxList_blocks (d : DB) (ids : List String) :
    (rollbackTxList d ids).blocks = d.blocks := by
  induction ids generalizing d with
  | nil => rfl
  | cons tid rest ih =>
      unfold rollbackTxList
      rw [ih, rollbackTransaction_blocks]

theorem rollbackBlock_blocks (d : DB) (bid : String) :
    (rollbackBlock d bid).blocks = d.blocks := by
  unfold rollbackBlock
  exact rollbackTxList_blocks d _

theorem rollbackBlockList_blocks (d : DB) (blks : List BlockRow) :
    (rollbackBlockList d blks).blocks = d.blocks := by
  induction blks generalizing d with
  | nil => rfl
  | cons blk rest ih =>
      unfold rollbackBlockList
      rw [ih, rollbackBlock_blocks]

/-! ## Simulation lemmas: operations respect balance-function equivalence -/

theorem simEq_refl (d : DB) : SimEq d d := ⟨rfl, rfl, rfl, fun _ => rfl⟩

theorem simEq_trans {d e f : DB} (h1 : SimEq d e) (h2 : SimEq e f) : SimEq d f :=
  ⟨h1.blocks.trans h2.blocks, h1.transactions.trans h2.transactions,
   h1.utxos.trans h2.utxos, fun a => (h1.balances a).trans (h2.balances a)⟩

theorem simEq_coreSim {d e : DB} (h : SimEq d e) : CoreSim d e :=
  ⟨h.transactions, h.utxos, h.balances⟩

theorem updateAddressBalance_coreSim {d e : DB} (h : CoreSim d e) (x : String) (δ : Int) :
    CoreSim (updateAddressBalance d x δ) (updateAddressBalance e x δ) := by
  refine ⟨?_, ?_, ?_⟩
  · rw [updateAddressBalance_transactions, updateAddressBalance_transactions]
    exact h.transactions
  · rw [updateAddressBalance_utxos, updateAddressBalance_utxos]
    exact h.utxos
  · intro a
    rw [getAddressBalance_update, getAddressBalance_update, h.balances a]

theorem resolveInput_congr {d e : DB} (h : d.utxos = e.utxos) (i : Input) :
    resolveInput d i = resolveInput e i := by
  unfold resolveInput; rw [h]

theorem spendUTXO_coreSim {d e : DB} (h : CoreSim d e) (i : Input) (s : String) :
    RelExcept CoreSim (spendUTXO d i s) (spendUTXO e i s) := by
  unfold spendUTXO
  rw [resolveInput_congr h.utxos]
  cases hr : resolveInput e i with
  | none => exact rfl
  | some u =>
      show CoreSim _ _
      refine ⟨?_, ?_, ?_⟩
      · rw [updateAddressBalance_transactions, updateAddressBalance_transactions]
        exact h.transactions
      · rw [updateAddressBalance_utxos, updateAddressBalance_utxos]
        show d.utxos.map _ = e.utxos.map _
        rw [h.utxos]
      · intro a
        rw [getAddressBalance_update, getAddressBalance_update]
        have hb : getAddressBalance d a = getAddressBalance e a := h.balances a
        have h1 : getAddressBalance
            { d with utxos := d.utxos.map (fun v =>
                if keyMatches i v then markSpent s v else v) } a =
              getAddressBalance d a := rfl
        have h2 : getAddressBalance
            { e with utxos := e.utxos.map (fun v =>
                if keyMatches i v then markSpent s v else v) } a =
              getAddressBalance e a := rfl
        rw [h1, h2, hb]

theorem createUTXO_coreSim {d e : DB} (h : CoreSim d e) (t : String) (i : Int)
    (o : Output) (bh : Int) :
    RelExcept CoreSim (createUTXO d t i o bh) (createUTXO e t i o bh) := by
  unfold createUTXO
  have hcond : (d.utxos.any fun u => u.txId == t && u.outputIndex == i) =
      (e.utxos.any fun u => u.txId == t && u.outputIndex == i) := by rw [h.utxos]
  rw [hcond]
  by_cases hc : (e.utxos.any fun u => u.txId == t && u.outputIndex == i) = true
  · rw [if_pos hc, if_pos hc]; exact rfl
  · rw [if_neg hc, if_neg hc]
    show CoreSim _ _
    refine ⟨?_, ?_, ?_⟩
    · rw [updateAddressBalance_transactions, updateAddressBalance_transactions]
      exact h.transactions
    · rw [updateAddressBalance_utxos, updateAddressBalance_utxos]
      show d.utxos ++ _ = e.utxos ++ _
      rw [h.utxos]
    · intro a
      rw [getAddressBalance_update, getAddressBalance_update]
      have h1 : getAddressBalance
          { d with utxos := d.utxos ++ [⟨t, i, o.address, o.value, false, none, bh⟩] } a =
            getAddressBalance d a := rfl
      have h2 : getAddressBalance
          { e with utxos := e.utxos ++ [⟨t, i, o.address, o.value, false, none, bh⟩] } a =
            getAddressBalance e a := rfl
      rw [h1, h2, h.balances a]

theorem spendInputs_coreSim {inputs : List Input} {d e : DB} (h : CoreSim d e) (s : String) :
    RelExcept CoreSim (spendInputs d inputs s) (spendInputs e inputs s) := by
  induction inputs generalizing d e with
  | nil => exact h
  | cons inp rest ih =>
      unfold spendInputs
      exact relExcept_andThen (spendUTXO_coreSim h inp s)
        (fun a b hab _ _ => ih hab)

theorem createOutputs_coreSim {outputs : List Output} {d e : DB} (h : CoreSim d e)
    (t : String) (i : Int) (bh : Int) :
    RelExcept CoreSim (createOutputs d t i outputs bh) (createOutputs e t i outputs bh) := by
  induction outputs generalizing d e i with
  | nil => exact h
  | cons o rest ih =>
      unfold createOutputs
      exact relExcept_andThen (createUTXO_coreSim h t i o bh)
        (fun a b hab _ _ => ih hab (i + 1))

theorem processTransaction_simEq {d e : DB} (h : SimEq d e) (t : Transaction) (bh : Int) :
    RelExcept SimEq (processTransaction d t bh) (processTransaction e t bh) := by
  unfold processTransaction
  rw [h.blocks, h.transactions]
  split
  · exact rfl
  · split
    · exact rfl
    · apply relExcept_andThen (R := CoreSim)
      case hxy =>
        refine spendInputs_coreSim ?_ t.id
        exact ⟨rfl, h.utxos, h.balances⟩
      intro a b hab h1 h2
      have hco := @createOutputs_coreSim t.outputs a b hab t.id 0 bh
      cases h3 : createOutputs a t.id 0 t.outputs bh with
      | error x =>
          cases h4 : createOutputs b t.id 0 t.outputs bh with
          | error y => rw [h3, h4] at hco; exact hco ▸ rfl
          | ok v => rw [h3, h4] at hco; cases hco
      | ok u =>
          cases h4 : createOutputs b t.id 0 t.outputs bh with
          | error y => rw [h3, h4] at hco; cases hco
          | ok v =>
              rw [h3, h4] at hco
              show SimEq u v
              have hbu := createOutputs_ok_blocks h3
              have hba := spendInputs_ok_blocks h1
              have hbv := createOutputs_ok_blocks h4
              have hbb := spendInputs_ok_blocks h2
              refine ⟨?_, hco.transactions, hco.utxos, hco.balances⟩
              rw [hbu, hbv, hba, hbb]

theorem processTransactions_simEq {ts : List Transaction} {d e : DB} (h : SimEq d e) (bh : Int) :
    RelExcept SimEq (processTransactions d ts bh) (processTransactions e ts bh) := by
  induction ts generalizing d e with
  | nil => exact h
  | cons t rest ih =>
      unfold processTransactions
      exact relExcept_andThen (processTransaction_simEq h t bh)
        (fun a b hab _ _ => ih hab)

theorem processBlock_simEq {d e : DB} (h : SimEq d e) (b : Block) :
    RelExcept SimEq (processBlock d b) (processBlock e b) := by
  unfold processBlock
  rw [h.blocks]
  by_cases hc : (e.blocks.any fun r => r.id == b.id || r.height == b.height) = true
  · rw [if_pos hc, if_pos hc]; exact rfl
  · rw [if_neg hc, if_neg hc]
    have hse : SimEq { d with blocks := e.blocks ++ [⟨b.id, b.height⟩] }
        { e with blocks := e.blocks ++ [⟨b.id, b.height⟩] } :=
      ⟨rfl, h.transactions, h.utxos, h.balances⟩
    exact processTransactions_simEq hse b.height

theorem currentMaxHeight_congr {d e : DB} (h : d.blocks = e.blocks) :
    currentMaxHeight d = currentMaxHeight e := by
  unfold currentMaxHeight; rw [h]

theorem validateBlock_congr {d e : DB} (hb : d.blocks = e.blocks) (hu : d.utxos = e.utxos)
    (b : Block) : validateBlock d b = validateBlock e b := by
  have h1 : validateBlockHeight d b.height = validateBlockHeight e b.height := by
    unfold validateBlockHeight
    rw [currentMaxHeight_congr hb]
  have h2 : ∀ i, getInputValue d i = getInputValue e i := by
    intro i
    unfold getInputValue
    rw [resolveInput_congr hu]
  have h3 : ∀ inputs, getInputValues d inputs = getInputValues e inputs := by
    intro inputs
    induction inputs with
    | nil => rfl
    | cons inp rest ih =>
        unfold getInputValues
        rw [h2 inp, ih]
  have h4 : ∀ t, validateTransaction d t = validateTransaction e t := by
    intro t
    unfold validateTransaction
    rw [h3 t.inputs]
  have h5 : ∀ ts, validateTransactions d ts = validateTransactions e ts := by
    intro ts
    induction ts with
    | nil => rfl
    | cons t rest ih =>
        unfold validateTransactions
        rw [h4 t, ih]
  unfold validateBlock
  rw [h1, h5 b.transactions]

theorem submitBlock_simEq {d e : DB} (h : SimEq d e) (b : Block) :
    RelExcept SimEq (submitBlock d b) (submitBlock e b) := by
  unfold submitBlock
  rw [validateBlock_congr h.blocks h.utxos b]
  cases hv : validateBlock e b with
  | error a => exact rfl
  | ok _ => exact processBlock_simEq h b

theorem foldUpdNeg_coreSim {rows : List UTXORow} {d e : DB} (h : CoreSim d e) :
    CoreSim (rows.foldl (fun d o => updateAddressBalance d o.address (-o.value)) d)
      (rows.foldl (fun d o => updateAddressBalance d o.address (-o.value)) e) := by
  induction rows generalizing d e with
  | nil => exact h
  | cons r rest ih =>
      rw [List.foldl_cons, List.foldl_cons]
      exact ih (updateAddressBalance_coreSim h r.address (-r.value))

theorem subtractOutputs_coreSim {d e : DB} (h : CoreSim d e) (tid : String) :
    CoreSim (subtractOutputs d tid) (subtractOutputs e tid) := by
  unfold subtractOutputs
  rw [h.utxos]
  exact foldUpdNeg_coreSim h

theorem deleteTxUtxos_coreSim {d e : DB} (h : CoreSim d e) (tid : String) :
    CoreSim (deleteTxUtxos d tid) (deleteTxUtxos e tid) := by
  refine ⟨h.transactions, ?_, h.balances⟩
  show d.utxos.filter _ = e.utxos.filter _
  rw [h.utxos]

theorem unspendRow_coreSim {d e : DB} (h : CoreSim d e) (row : UTXORow) :
    CoreSim (unspendRow d row) (unspendRow e row) := by
  unfold unspendRow
  have h1 : CoreSim
      { d with utxos := d.utxos.map (fun u =>
          if u.txId == row.txId && u.outputIndex == row.outputIndex then
            { u with isSpent := false, spentInTx := none }
          else u) }
      { e with utxos := e.utxos.map (fun u =>
          if u.txId == row.txId && u.outputIndex == row.outputIndex then
            { u with isSpent := false, spentInTx := none }
          else u) } := by
    refine ⟨h.transactions, ?_, h.balances⟩
    show d.utxos.map _ = e.utxos.map _
    rw [h.utxos]
  exact updateAddressBalance_coreSim h1 row.address row.value

theorem restoreSpentInputs_coreSim {d e : DB} (h : CoreSim d e) (tid : String) :
    CoreSim (restoreSpentInputs d tid) (restoreSpentInputs e tid) := by
  unfold restoreSpentInputs
  rw [h.utxos]
  generalize e.utxos.filter (fun u => u.spentInTx == some tid) = rows
  induction rows generalizing d e with
  | nil => exact h
  | cons r rest ih =>
      rw [List.foldl_cons, List.foldl_cons]
      exact ih (unspendRow_coreSim h r)

theorem deleteTxRow_coreSim {d e : DB} (h : CoreSim d e) (tid : String) :
    CoreSim (deleteTxRow d tid) (deleteTxRow e tid) := by
  refine ⟨?_, h.utxos, h.balances⟩
  show d.transactions.filter _ = e.transactions.filter _
  rw [h.transactions]

theorem rollbackTransaction_coreSim {d e : DB} (h : CoreSim d e) (tid : String) :
    CoreSim (rollbackTransaction d tid) (rollbackTransaction e tid) := by
  unfold rollbackTransaction
  exact deleteTxRow_coreSim
    (restoreSpentInputs_coreSim
      (deleteTxUtxos_coreSim (subtractOutputs_coreSim h tid) tid) tid) tid

theorem rollbackTxList_coreSim {ids : List String} {d e : DB} (h : CoreSim d e) :
    CoreSim (rollbackTxList d ids) (rollbackTxList e ids) := by
  induction ids generalizing d e with
  | nil => exact h
  | cons tid rest ih =>
      unfold rollbackTxList
      exact ih (rollbackTransaction_coreSim h tid)

theorem undoTxIds_congr {d e : DB} (h : d.transactions = e.transactions) (bid : String) :
    undoTxIds d bid = undoTxIds e bid := by
  unfold undoTxIds
  rw [h]

theorem rollbackBlock_coreSim {d e : DB} (h : CoreSim d e) (bid : String) :
    CoreSim (rollbackBlock d bid) (rollbackBlock e bid) := by
  unfold rollbackBlock
  rw [undoTxIds_congr h.transactions]
  exact rollbackTxList_coreSim h

theorem rollbackBlockList_coreSim {blks : List BlockRow} {d e : DB} (h : CoreSim d e) :
    CoreSim (rollbackBlockList d blks) (rollbackBlockList e blks) := by
  induction blks generalizing d e with
  | nil => exact h
  | cons blk rest ih =>
      unfold rollbackBlockList
      exact ih (rollbackBlock_coreSim h blk.id)

theorem blocksToRemove_congr {d e : DB} (h : d.blocks = e.blocks) (k : Int) :
    blocksToRemove d k = blocksToRemove e k := by
  unfold blocksToRemove
  rw [h]

theorem rollbackToHeight_simEq {d e : DB} (h : SimEq d e) (k : Int) :
    SimEq (rollbackToHeight d k) (rollbackToHeight e k) := by
  unfold rollbackToHeight
  rw [blocksToRemove_congr h.blocks]
  have hc : CoreSim (rollbackBlockList d (blocksToRemove e k))
      (rollbackBlockList e (blocksToRemove e k)) :=
    rollbackBlockList_coreSim (simEq_coreSim h)
  refine ⟨?_, hc.transactions, hc.utxos, hc.balances⟩
  show (rollbackBlockList d (blocksToRemove e k)).blocks.filter _ =
    (rollbackBlockList e (blocksToRemove e k)).blocks.filter _
  rw [rollbackBlockList_blocks, rollbackBlockList_blocks, h.blocks]

/-! ## Sorting lemmas -/

theorem charListLe_refl : ∀ l, charListLe l l = true := by
  intro l
  induction l with
  | nil => rfl
  | cons c cs ih =>
      unfold charListLe
      rw [if_neg (show ¬ c.toNat < c.toNat by omega),
        if_neg (show ¬ c.toNat < c.toNat by omega)]
      exact ih

theorem charListLe_total : ∀ l1 l2, charListLe l1 l2 = true ∨ charListLe l2 l1 = true := by
  intro l1
  induction l1 with
  | nil => intro l2; exact Or.inl rfl
  | cons c cs ih =>
      intro l2
      cases l2 with
      | nil => exact Or.inr rfl
      | cons d ds =>
          unfold charListLe
          by_cases h1 : c.toNat < d.toNat
          · left
            rw [if_pos h1]
          · by_cases h2 : d.toNat < c.toNat
            · right
              rw [if_pos h2]
            · rw [if_neg h1, if_neg h2, if_neg h2, if_neg h1]
              exact ih ds

theorem charListLe_antisymm : ∀ l1 l2, charListLe l1 l2 = true →
    charListLe l2 l1 = true → l1 = l2 := by
  intro l1
  induction l1 with
  | nil =>
      intro l2 h1 h2
      cases l2 with
      | nil => rfl
      | cons d ds => cases h2
  | cons c cs ih =>
      intro l2 h1 h2
      cases l2 with
      | nil => cases h1
      | cons d ds =>
          unfold charListLe at h1 h2
          by_cases hcd : c.toNat < d.toNat
          · rw [if_neg (show ¬ d.toNat < c.toNat by omega), if_pos hcd] at h2
            cases h2
          · by_cases hdc : d.toNat < c.toNat
            · rw [if_neg hcd, if_pos hdc] at h1
              cases h1
            · rw [if_neg hcd, if_neg hdc] at h1
              rw [if_neg hdc, if_neg hcd] at h2
              have hc : c = d := by
                refine Char.eq_of_val_eq (UInt32.eq_of_toBitVec_eq ?_)
                have h4 : c.toNat = d.toNat := by omega
                have h3 : c.val.toNat = d.val.toNat := h4
                exact BitVec.eq_of_toNat_eq h3
              rw [hc, ih ds h1 h2]

theorem charListLe_trans : ∀ l1 l2 l3, charListLe l1 l2 = true →
    charListLe l2 l3 = true → charListLe l1 l3 = true := by
  intro l1
  induction l1 with
  | nil => intro l2 l3 h1 h2; rfl
  | cons c cs ih =>
      intro l2 l3 h1 h2
      cases l2 with
      | nil => cases h1
      | cons d ds =>
          cases l3 with
          | nil => cases h2
          | cons e es =>
              unfold charListLe at h1 h2 ⊢
              by_cases hcd : c.toNat < d.toNat
              · by_cases hde : d.toNat < e.toNat
                · rw [if_pos (show c.toNat < e.toNat by omega)]
                · rw [if_neg hde] at h2
                  by_cases hed : e.toNat < d.toNat
                  · rw [if_pos hed] at h2
                    cases h2
                  · rw [if_pos (show c.toNat < e.toNat by omega)]
              · by_cases hdc : d.toNat < c.toNat
                · rw [if_neg hcd, if_pos hdc] at h1
                  cases h1
                · rw [if_neg hcd, if_neg hdc] at h1
                  by_cases hde : d.toNat < e.toNat
                  · rw [if_pos (show c.toNat < e.toNat by omega)]
                  · rw [if_neg hde] at h2
                    by_cases hed : e.toNat < d.toNat
                    · rw [if_pos hed] at h2
                      cases h2
                    · rw [if_neg hed] at h2
                      rw [if_neg (show ¬ c.toNat < e.toNat by omega),
                        if_neg (show ¬ e.toNat < c.toNat by omega)]
                      exact ih ds es h1 h2

theorem strLe_total (a b : String) : strLe a b = true ∨ strLe b a = true :=
  charListLe_total a.data b.data

theorem strLe_antisymm {a b : String} (h1 : strLe a b = true) (h2 : strLe b a = true) :
    a = b := by
  have h3 : a.data = b.data := charListLe_antisymm a.data b.data h1 h2
  cases a
  cases b
  exact congrArg String.mk h3

theorem strLe_trans {a b c : String} (h1 : strLe a b = true) (h2 : strLe b c = true) :
    strLe a c = true :=
  charListLe_trans a.data b.data c.data h1 h2

theorem strLe_of_not_strLe {a b : String} (h : ¬ strLe a b = true) : strLe b a = true := by
  rcases strLe_total a b with h1 | h1
  · exact absurd h1 h
  · exact h1

theorem insertAsc_perm (x : String) (l : List String) : (insertAsc x l).Perm (x :: l) := by
  induction l with
  | nil => exact List.Perm.refl _
  | cons y ys ih =>
      unfold insertAsc
      by_cases h : strLe x y = true
      · rw [if_pos h]
      · rw [if_neg h]
        exact (ih.cons y).trans (List.Perm.swap x y ys)

theorem sortAsc_perm (l : List String) : (sortAsc l).Perm l := by
  induction l with
  | nil => exact List.Perm.refl _
  | cons x xs ih =>
      unfold sortAsc
      exact (insertAsc_perm x (sortAsc xs)).trans (ih.cons x)

theorem mem_insertAsc {x y : String} {l : List String} :
    y ∈ insertAsc x l ↔ y = x ∨ y ∈ l := by
  rw [(insertAsc_perm x l).mem_iff, List.mem_cons]

theorem insertAsc_sorted {x : String} {l : List String}
    (h : l.Sorted (fun a b => strLe a b = true)) :
    (insertAsc x l).Sorted (fun a b => strLe a b = true) := by
  induction l with
  | nil => simp [insertAsc]
  | cons y ys ih =>
      unfold insertAsc
      by_cases hxy : strLe x y = true
      · rw [if_pos hxy]
        refine List.sorted_cons.mpr ⟨?_, h⟩
        intro b hb
        rcases List.mem_cons.mp hb with rfl | hb
        · exact hxy
        · exact strLe_trans hxy ((List.sorted_cons.mp h).1 b hb)
      · rw [if_neg hxy]
        have hyx : strLe y x = true := strLe_of_not_strLe hxy
        refine List.sorted_cons.mpr ⟨?_, ih (List.sorted_cons.mp h).2⟩
        intro b hb
        rcases mem_insertAsc.mp hb with rfl | hb
        · exact hyx
        · exact (List.sorted_cons.mp h).1 b hb

theorem sortAsc_sorted (l : List String) : (sortAsc l).Sorted (fun a b => strLe a b = true) := by
  induction l with
  | nil => exact List.sorted_nil
  | cons x xs ih =>
      unfold sortAsc
      exact insertAsc_sorted ih

theorem sortAsc_eq_of_perm {l1 l2 : List String} (h : l1.Perm l2) :
    sortAsc l1 = sortAsc l2 := by
  haveI : IsAntisymm String (fun a b => strLe a b = true) :=
    ⟨fun a b h1 h2 => strLe_antisymm h1 h2⟩
  refine List.eq_of_perm_of_sorted ?_ (sortAsc_sorted l1) (sortAsc_sorted l2)
  exact (sortAsc_perm l1).trans (h.trans (sortAsc_perm l2).symm)

theorem insertDescBlock_perm (x : BlockRow) (l : List BlockRow) :
    (insertDescBlock x l).Perm (x :: l) := by
  induction l with
  | nil => exact List.Perm.refl _
  | cons y ys ih =>
      unfold insertDescBlock
      by_cases h : y.height ≤ x.height
      · rw [if_pos h]
      · rw [if_neg h]
        exact (ih.cons y).trans (List.Perm.swap x y ys)

theorem sortBlocksDesc_perm (l : List BlockRow) : (sortBlocksDesc l).Perm l := by
  induction l with
  | nil => exact List.Perm.refl _
  | cons x xs ih =>
      unfold sortBlocksDesc
      exact (insertDescBlock_perm x (sortBlocksDesc xs)).trans (ih.cons x)

theorem mem_insertDescBlock {x y : BlockRow} {l : List BlockRow} :
    y ∈ insertDescBlock x l ↔ y = x ∨ y ∈ l := by
  rw [(insertDescBlock_perm x l).mem_iff, List.mem_cons]

theorem insertDescBlock_sorted {x : BlockRow} {l : List BlockRow}
    (h : l.Sorted (fun a b => b.height ≤ a.height)) :
    (insertDescBlock x l).Sorted (fun a b => b.height ≤ a.height) := by
  induction l with
  | nil => simp [insertDescBlock]
  | cons y ys ih =>
      unfold insertDescBlock
      by_cases hxy : y.height ≤ x.height
      · rw [if_pos hxy]
        refine List.sorted_cons.mpr ⟨?_, h⟩
        intro b hb
        rcases List.mem_cons.mp hb with rfl | hb
        · exact hxy
        · exact le_trans ((List.sorted_cons.mp h).1 b hb) hxy
      · rw [if_neg hxy]
        have hyx : x.height ≤ y.height := le_of_not_le hxy
        refine List.sorted_cons.mpr ⟨?_, ih (List.sorted_cons.mp h).2⟩
        intro b hb
        rcases mem_insertDescBlock.mp hb with rfl | hb
        · exact hyx
        · exact (List.sorted_cons.mp h).1 b hb

theorem sortBlocksDesc_sorted (l : List BlockRow) :
    (sortBlocksDesc l).Sorted (fun a b => b.height ≤ a.height) := by
  induction l with
  | nil => exact List.sorted_nil
  | cons x xs ih =>
      unfold sortBlocksDesc
      exact insertDescBlock_sorted ih

theorem sortBlocksDesc_append_max {l : List BlockRow} {x : BlockRow}
    (h : ∀ y ∈ l, y.height < x.height) :
    sortBlocksDesc (l ++ [x]) = x :: sortBlocksDesc l := by
  induction l with
  | nil => rfl
  | cons a l2 ih =>
      have hax : a.height < x.height := h a (List.mem_cons_self a l2)
      rw [List.cons_append]
      unfold sortBlocksDesc
      rw [ih (fun y hy => h y (List.mem_cons_of_mem a hy))]
      rw [show insertDescBlock a (x :: sortBlocksDesc l2) =
            if x.height ≤ a.height then a :: x :: sortBlocksDesc l2
            else x :: insertDescBlock a (sortBlocksDesc l2) from rfl,
          if_neg (not_le.mpr hax)]

/-! ## Validation characterization -/

theorem mem_le_foldl_max (t : List Int) : ∀ (h : Int), ∀ x ∈ h :: t, x ≤ t.foldl max h := by
  induction t with
  | nil =>
      intro h x hx
      rcases List.mem_singleton.mp hx with rfl
      exact le_refl x
  | cons y t2 ih =>
      intro h x hx
      rw [List.foldl_cons]
      rcases List.mem_cons.mp hx with rfl | hx2
      · exact le_trans (le_max_left x y) (ih (max x y) _ (List.mem_cons_self _ _))
      · rcases List.mem_cons.mp hx2 with rfl | hx3
        · exact le_trans (le_max_right h x) (ih (max h x) _ (List.mem_cons_self _ _))
        · exact ih (max h y) x (List.mem_cons_of_mem _ hx3)

theorem foldl_max_mem (t : List Int) : ∀ (h : Int), t.foldl max h ∈ h :: t := by
  induction t with
  | nil => intro h; exact List.mem_singleton.mpr rfl
  | cons y t2 ih =>
      intro h
      rw [List.foldl_cons]
      have := ih (max h y)
      rcases List.mem_cons.mp this with heq | hmem
      · rw [heq]
        rcases max_choice h y with h1 | h1
        · rw [h1]; exact List.mem_cons_self _ _
        · rw [h1]; exact List.mem_cons_of_mem _ (List.mem_cons_self _ _)
      · exact List.mem_cons_of_mem _ (List.mem_cons_of_mem _ hmem)

theorem height_le_currentMaxHeight (db : DB) : ∀ r ∈ db.blocks, r.height ≤ currentMaxHeight db := by
  intro r hr
  unfold currentMaxHeight
  cases hb : db.blocks.map (fun r => r.height) with
  | nil =>
      rw [List.map_eq_nil_iff] at hb
      rw [hb] at hr
      cases hr
  | cons h t =>
      have hmem : r.height ∈ db.blocks.map (fun r => r.height) :=
        List.mem_map_of_mem _ hr
      rw [hb] at hmem
      exact mem_le_foldl_max t h r.height hmem

theorem currentMaxHeight_mem_or_zero (db : DB) :
    currentMaxHeight db = 0 ∨ ∃ r ∈ db.blocks, currentMaxHeight db = r.height := by
  unfold currentMaxHeight
  cases hb : db.blocks.map (fun r => r.height) with
  | nil => exact Or.inl rfl
  | cons h t =>
      right
      have hmem : t.foldl max h ∈ h :: t := foldl_max_mem t h
      rw [← hb] at hmem
      rcases List.mem_map.mp hmem with ⟨r, hr, hrh⟩
      exact ⟨r, hr, hrh.symm⟩

theorem validateBlockHeight_ok_iff (db : DB) (h : Int) :
    validateBlockHeight db h = .ok () ↔ h = currentMaxHeight db + 1 := by
  unfold validateBlockHeight
  by_cases he : h = currentMaxHeight db + 1
  · simp [he]
  · simp [he, bne_iff_ne]

theorem validateBlockHeight_err (db : DB) (h : Int) (hne : h ≠ currentMaxHeight db + 1) :
    ∃ m, validateBlockHeight db h = .error (.validationError m) := by
  unfold validateBlockHeight
  simp [hne, bne_iff_ne]

theorem validateBlockId_ok_iff (b : Block) :
    validateBlockId b = .ok () ↔ b.id = expectedBlockId b.height b.transactions := by
  unfold validateBlockId
  by_cases he : b.id = expectedBlockId b.height b.transactions
  · simp [he]
  · simp [he, bne_iff_ne]

theorem validateBlockId_err (b : Block) (hne : b.id ≠ expectedBlockId b.height b.transactions) :
    ∃ m, validateBlockId b = .error (.validationError m) := by
  unfold validateBlockId
  simp [hne, bne_iff_ne]

theorem getInputValue_ok_iff (db : DB) (i : Input) (v : Int) :
    getInputValue db i = .ok v ↔ ∃ u, resolveInput db i = some u ∧ u.value = v := by
  unfold getInputValue
  cases hr : resolveInput db i with
  | none => simp
  | some u => simp [eq_comm]

theorem getInputValues_ok_char {inputs : List Input} {db : DB} {vs : List Int}
    (h : getInputValues db inputs = .ok vs) :
    (∀ inp ∈ inputs, (resolveInput db inp).isSome) ∧
      vs = inputs.filterMap (fun i => (resolveInput db i).map (fun u => u.value)) := by
  induction inputs generalizing vs with
  | nil =>
      cases h
      exact ⟨fun inp hi => absurd hi (List.not_mem_nil inp), rfl⟩
  | cons inp rest ih =>
      unfold getInputValues at h
      cases hg : getInputValue db inp with
      | error e => rw [hg] at h; cases h
      | ok v =>
          rw [hg] at h
          cases hr : getInputValues db rest with
          | error e => rw [hr] at h; cases h
          | ok vs2 =>
              rw [hr] at h
              cases h
              obtain ⟨hall, hvs⟩ := ih hr
              obtain ⟨u, hu, huv⟩ := (getInputValue_ok_iff db inp v).mp hg
              constructor
              · intro j hj
                rcases List.mem_cons.mp hj with rfl | hj2
                · rw [hu]; rfl
                · exact hall j hj2
              · rw [List.filterMap_cons, hu]
                show v :: vs2 = u.value :: _
                rw [huv, hvs]

theorem getInputValues_ok_of_resolves {inputs : List Input} {db : DB}
    (h : ∀ inp ∈ inputs, (resolveInput db inp).isSome) :
    getInputValues db inputs =
      .ok (inputs.filterMap (fun i => (resolveInput db i).map (fun u => u.value))) := by
  induction inputs with
  | nil => rfl
  | cons inp rest ih =>
      unfold getInputValues
      have hs := h inp (List.mem_cons_self _ _)
      cases hr : resolveInput db inp with
      | none => rw [hr] at hs; cases hs
      | some u =>
          have hg : getInputValue db inp = .ok u.value := by
            unfold getInputValue; rw [hr]
          rw [hg, ih (fun j hj => h j (List.mem_cons_of_mem _ hj))]
          rw [List.filterMap_cons, hr]
          rfl

theorem validateTransaction_empty (db : DB) (t : Transaction) (h : t.inputs = []) :
    validateTransaction db t = .ok () := by
  unfold validateTransaction
  rw [h]
  rfl

theorem validateTransaction_ok_resolves {db : DB} {t : Transaction}
    (h : validateTransaction db t = .ok ()) :
    ∀ inp ∈ t.inputs, (resolveInput db inp).isSome := by
  unfold validateTransaction at h
  cases hg : getInputValues db t.inputs with
  | error e => rw [hg] at h; cases h
  | ok vs => exact (getInputValues_ok_char hg).1

theorem validateTransaction_char {db : DB} {t : Transaction} {vs : List Int}
    (hg : getInputValues db t.inputs = .ok vs) (hne : t.inputs ≠ []) :
    validateTransaction db t =
      (if sumInt vs = sumInt (t.outputs.map (fun o => o.value)) then .ok ()
       else
        let n := t.id
        let totalInputs := sumInt vs
        let totalOutputs := sumInt (t.outputs.map (fun o => o.value))
        .error (.validationError
          (s!"Transaction {n} is invalid: input sum ({totalInputs}) does not equal output sum ({totalOutputs})"))) := by
  unfold validateTransaction
  rw [hg]
  have hlen : (t.inputs.length == 0) = false := by
    cases hi : t.inputs with
    | nil => exact absurd hi hne
    | cons a l => simp
  rw [hlen]
  by_cases hs : sumInt vs = sumInt (t.outputs.map (fun o => o.value))
  · simp [hs]
  · simp [hs, bne_iff_ne]

theorem validateTransactions_ok_all {ts : List Transaction} {db : DB}
    (h : validateTransactions db ts = .ok ()) :
    ∀ t ∈ ts, validateTransaction db t = .ok () := by
  induction ts with
  | nil => intro t ht; cases ht
  | cons t rest ih =>
      unfold validateTransactions at h
      cases hv : validateTransaction db t with
      | error e => rw [hv] at h; cases h
      | ok u =>
          rw [hv] at h
          intro s hs
          rcases List.mem_cons.mp hs with rfl | hs2
          · cases u; exact hv
          · exact ih h s hs2

theorem validateTransactions_all_ok {ts : List Transaction} {db : DB}
    (h : ∀ t ∈ ts, validateTransaction db t = .ok ()) :
    validateTransactions db ts = .ok () := by
  induction ts with
  | nil => rfl
  | cons t rest ih =>
      unfold validateTransactions
      rw [h t (List.mem_cons_self _ _)]
      exact ih (fun s hs => h s (List.mem_cons_of_mem _ hs))

theorem validateBlock_ok_parts {db : DB} {b : Block} (h : validateBlock db b = .ok ()) :
    b.height = currentMaxHeight db + 1 ∧
      b.id = expectedBlockId b.height b.transactions ∧
      ∀ t ∈ b.transactions, validateTransaction db t = .ok () := by
  unfold validateBlock at h
  cases h1 : validateBlockHeight db b.height with
  | error e => rw [h1] at h; cases h
  | ok u =>
      rw [h1] at h
      cases h2 : validateBlockId b with
      | error e => rw [h2] at h; cases h
      | ok v =>
          rw [h2] at h
          cases u; cases v
          exact ⟨(validateBlockHeight_ok_iff db b.height).mp h1,
            (validateBlockId_ok_iff b).mp h2,
            validateTransactions_ok_all h⟩

theorem submitBlock_ok_parts {db db' : DB} {b : Block} (h : submitBlock db b = .ok db') :
    validateBlock db b = .ok () ∧ processBlock db b = .ok db' := by
  unfold submitBlock at h
  cases hv : validateBlock db b with
  | error e => rw [hv] at h; cases h
  | ok u => rw [hv] at h; cases u; exact ⟨rfl, h⟩

/-! ## Marking and resolution lemmas -/

theorem keyMatches_iff {i : Input} {u : UTXORow} :
    keyMatches i u = true ↔ utxoKey u = inputKey i := by
  unfold keyMatches utxoKey inputKey
  rw [Bool.and_eq_true, beq_iff_eq, beq_iff_eq, Prod.mk.injEq]

theorem keyMatches_false {i : Input} {u : UTXORow} :
    keyMatches i u = false ↔ utxoKey u ≠ inputKey i := by
  rw [← Bool.not_eq_true, not_iff_not]
  exact keyMatches_iff

theorem markSpent_txId (s : String) (u : UTXORow) : (markSpent s u).txId = u.txId := rfl

theorem markSpent_outputIndex (s : String) (u : UTXORow) :
    (markSpent s u).outputIndex = u.outputIndex := rfl

theorem markSpent_key (s : String) (u : UTXORow) : utxoKey (markSpent s u) = utxoKey u := rfl

theorem markBy_key (σ : List (Input × String)) (u : UTXORow) :
    utxoKey (markBy σ u) = utxoKey u := by
  unfold markBy
  split <;> rfl

theorem markBy_address (σ : List (Input × String)) (u : UTXORow) :
    (markBy σ u).address = u.address := by
  unfold markBy
  split <;> rfl

theorem markBy_value (σ : List (Input × String)) (u : UTXORow) :
    (markBy σ u).value = u.value := by
  unfold markBy
  split <;> rfl

theorem markBy_blockHeight (σ : List (Input × String)) (u : UTXORow) :
    (markBy σ u).blockHeight = u.blockHeight := by
  unfold markBy
  split <;> rfl

theorem keyMatches_markBy (i : Input) (σ : List (Input × String)) (u : UTXORow) :
    keyMatches i (markBy σ u) = keyMatches i u := by
  unfold keyMatches markBy
  split <;> rfl

theorem markBy_nil (u : UTXORow) : markBy [] u = u := rfl

theorem markBy_eq_self_of_not_mem {σ : List (Input × String)} {u : UTXORow}
    (h : utxoKey u ∉ assocKeys σ) : markBy σ u = u := by
  unfold markBy
  have hnone : σ.find? (fun p => keyMatches p.1 u) = none := by
    rw [List.find?_eq_none]
    intro p hp hk
    exact h (by
      rw [keyMatches_iff] at hk
      rw [hk]
      exact List.mem_map_of_mem _ hp)
  rw [hnone]

theorem markBy_isSpent_of_mem {σ : List (Input × String)} {u : UTXORow}
    (h : utxoKey u ∈ assocKeys σ) : (markBy σ u).isSpent = true := by
  unfold markBy
  rcases List.mem_map.mp h with ⟨p, hp, hpk⟩
  have : σ.find? (fun p => keyMatches p.1 u) |>.isSome := by
    rw [List.find?_isSome]
    exact ⟨p, hp, keyMatches_iff.mpr hpk.symm⟩
  cases hf : σ.find? (fun p => keyMatches p.1 u) with
  | none => rw [hf] at this; cases this
  | some q => rfl

theorem markBy_append_right {σ1 σ2 : List (Input × String)} {u : UTXORow}
    (h : utxoKey u ∉ assocKeys σ1) : markBy (σ1 ++ σ2) u = markBy σ2 u := by
  unfold markBy
  have hnone : σ1.find? (fun p => keyMatches p.1 u) = none := by
    rw [List.find?_eq_none]
    intro p hp hk
    exact h (by
      rw [keyMatches_iff] at hk
      rw [hk]
      exact List.mem_map_of_mem _ hp)
  rw [List.find?_append, hnone]
  rfl

theorem markBy_step_row {σ : List (Input × String)} {i : Input} {tid : String}
    (hσ : inputKey i ∉ assocKeys σ) (u : UTXORow) :
    (if keyMatches i (markBy σ u) then markSpent tid (markBy σ u) else markBy σ u) =
      markBy (σ ++ [(i, tid)]) u := by
  rw [keyMatches_markBy]
  by_cases hk : keyMatches i u = true
  · have hku : utxoKey u = inputKey i := keyMatches_iff.mp hk
    have hself : markBy σ u = u := markBy_eq_self_of_not_mem (hku ▸ hσ)
    rw [hk, if_pos rfl, hself, markBy_append_right (hku ▸ hσ)]
    unfold markBy
    rw [show List.find? (fun p => keyMatches p.1 u) [(i, tid)] = some (i, tid) from
      List.find?_cons_of_pos [] hk]
  · have hk2 : keyMatches i u = false := by
      cases h : keyMatches i u
      · rfl
      · exact absurd h hk
    rw [hk2]
    simp only [Bool.false_eq_true, if_false]
    by_cases hmem : utxoKey u ∈ assocKeys σ
    · unfold markBy
      rw [List.find?_append]
      cases hf : σ.find? (fun p => keyMatches p.1 u) with
      | none =>
          rw [List.find?_eq_none] at hf
          rcases List.mem_map.mp hmem with ⟨p, hp, hpk⟩
          exact absurd (keyMatches_iff.mpr hpk.symm) (hf p hp)
      | some q => rfl
    · rw [markBy_append_right hmem, markBy_eq_self_of_not_mem hmem]
      unfold markBy
      rw [List.find?_cons_of_neg _ (by rw [hk2]; exact Bool.false_ne_true)]
      rfl

theorem map_markBy_step {U : List UTXORow} {σ : List (Input × String)} {i : Input}
    {tid : String} (hσ : inputKey i ∉ assocKeys σ) :
    (U.map (markBy σ)).map (fun v => if keyMatches i v then markSpent tid v else v) =
      U.map (markBy (σ ++ [(i, tid)])) := by
  rw [List.map_map]
  exact List.map_congr_left (fun u _ => markBy_step_row hσ u)

theorem find?_spendPred_map_markBy {U : List UTXORow} {σ : List (Input × String)} {i : Input}
    (hσ : inputKey i ∉ assocKeys σ) :
    (U.map (markBy σ)).find? (spendPred i) = U.find? (spendPred i) := by
  induction U with
  | nil => rfl
  | cons v rest ih =>
      rw [List.map_cons, List.find?_cons, List.find?_cons]
      by_cases hk : keyMatches i v = true
      · have hku : utxoKey v = inputKey i := keyMatches_iff.mp hk
        rw [markBy_eq_self_of_not_mem (hku ▸ hσ)]
        cases hp : spendPred i v
        · exact ih
        · rfl
      · have hk2 : keyMatches i v = false := by
          cases h : keyMatches i v
          · rfl
          · exact absurd h hk
        have hp1 : spendPred i (markBy σ v) = false := by
          unfold spendPred
          rw [keyMatches_markBy, hk2, Bool.false_and]
        have hp2 : spendPred i v = false := by
          unfold spendPred
          rw [hk2, Bool.false_and]
        rw [hp1, hp2]
        exact ih

theorem find?_spendPred_marked {U : List UTXORow} {σ : List (Input × String)} {i : Input}
    (hσ : inputKey i ∈ assocKeys σ) :
    (U.map (markBy σ)).find? (spendPred i) = none := by
  rw [List.find?_eq_none]
  intro w hw
  rcases List.mem_map.mp hw with ⟨v, hv, rfl⟩
  by_cases hk : keyMatches i v = true
  · have hku : utxoKey v = inputKey i := keyMatches_iff.mp hk
    have hspent : (markBy σ v).isSpent = true := markBy_isSpent_of_mem (hku ▸ hσ)
    unfold spendPred
    rw [hspent]
    simp
  · unfold spendPred
    rw [keyMatches_markBy]
    have hk2 : keyMatches i v = false := by
      cases h : keyMatches i v
      · rfl
      · exact absurd h hk
    rw [hk2, Bool.false_and]
    exact Bool.false_ne_true

theorem find?_spendPred_news_none {news : List UTXORow} {i : Input}
    (h : ∀ r ∈ news, keyMatches i r = false) :
    news.find? (spendPred i) = none := by
  rw [List.find?_eq_none]
  intro r hr
  unfold spendPred
  rw [h r hr, Bool.false_and]
  exact Bool.false_ne_true

/-! ## Sum lemmas -/

theorem foldl_add_init (l : List Int) (s : Int) :
    l.foldl (fun sum value => sum + value) s = s + sumInt l := by
  induction l generalizing s with
  | nil => unfold sumInt; simp
  | cons x xs ih =>
      rw [List.foldl_cons]
      unfold sumInt
      rw [List.foldl_cons, ih (s + x), ih (0 + x)]
      ring

theorem sumInt_cons (x : Int) (l : List Int) : sumInt (x :: l) = x + sumInt l := by
  unfold sumInt
  rw [List.foldl_cons, foldl_add_init]
  show 0 + x + sumInt l = x + sumInt l
  ring

theorem sumInt_append (l1 l2 : List Int) : sumInt (l1 ++ l2) = sumInt l1 + sumInt l2 := by
  unfold sumInt
  rw [List.foldl_append, foldl_add_init]
  rfl

theorem outSumList_cons (o : Output) (rest : List Output) (a : String) :
    outSumList (o :: rest) a = (if o.address = a then o.value else 0) + outSumList rest a := by
  unfold outSumList
  by_cases h : o.address = a
  · rw [List.filter_cons_of_pos (by simp [h]), List.map_cons, sumInt_cons, if_pos h]
  · rw [List.filter_cons_of_neg (by simp [h]), if_neg h]
    ring

theorem inSumU_nil (U : List UTXORow) (a : String) : inSumU U [] a = 0 := rfl

theorem inSumU_cons_some {U : List UTXORow} {i : Input} {u : UTXORow}
    (hu : U.find? (spendPred i) = some u) (rest : List Input) (a : String) :
    inSumU U (i :: rest) a = (if u.address = a then u.value else 0) + inSumU U rest a := by
  unfold inSumU
  rw [List.filterMap_cons, hu]
  show sumInt (List.filterMap _ (u :: _)) = _
  rw [List.filterMap_cons]
  by_cases h : u.address = a
  · rw [if_pos h]
    have : (if u.address == a then some u.value else none) = some u.value := by simp [h]
    rw [this, sumInt_cons]
  · rw [if_neg h]
    have : (if u.address == a then some u.value else none) = none := by simp [h]
    rw [this]
    ring

theorem nodup_append_singleton {α : Type} [DecidableEq α] {l : List α} {a : α}
    (ha : a ∉ l) (hl : l.Nodup) : (l ++ [a]).Nodup := by
  rw [List.nodup_append]
  refine ⟨hl, List.nodup_singleton a, ?_⟩
  intro x hx hxa
  rw [List.mem_singleton] at hxa
  exact ha (hxa ▸ hx)

theorem assocKeys_append (σ1 σ2 : List (Input × String)) :
    assocKeys (σ1 ++ σ2) = assocKeys σ1 ++ assocKeys σ2 := by
  unfold assocKeys
  rw [List.map_append]

/-! ## The spend phase of processTransaction, characterized -/

theorem spendUTXO_mid_ok {U news : List UTXORow} {σ : List (Input × String)}
    {i : Input} {tid : String} {s : DB} {u : UTXORow}
    (hs : s.utxos = U.map (markBy σ) ++ news)
    (hres : U.find? (spendPred i) = some u)
    (hnews : ∀ r ∈ news, keyMatches i r = false)
    (hσ : inputKey i ∉ assocKeys σ) :
    spendUTXO s i tid = .ok (updateAddressBalance
      { s with utxos := U.map (markBy (σ ++ [(i, tid)])) ++ news } u.address (-u.value)) := by
  unfold spendUTXO
  have h1 : resolveInput s i = some u := by
    unfold resolveInput
    rw [hs, List.find?_append, find?_spendPred_map_markBy hσ, hres]
    rfl
  rw [h1]
  have hutxo : s.utxos.map (fun v => if keyMatches i v then markSpent tid v else v) =
      U.map (markBy (σ ++ [(i, tid)])) ++ news := by
    rw [hs, List.map_append, map_markBy_step hσ]
    congr 1
    refine List.map_congr_left ?_ |>.trans (List.map_id news)
    intro r hr
    rw [hnews r hr]
    rfl
  rw [hutxo]

theorem spendUTXO_mid_err {U news : List UTXORow} {σ : List (Input × String)}
    {i : Input} {tid : String} {s : DB}
    (hs : s.utxos = U.map (markBy σ) ++ news)
    (hnews : ∀ r ∈ news, keyMatches i r = false)
    (hσ : inputKey i ∈ assocKeys σ) :
    ∃ m, spendUTXO s i tid = .error (.genericError m) := by
  unfold spendUTXO
  have h1 : resolveInput s i = none := by
    unfold resolveInput
    rw [hs, List.find?_append, find?_spendPred_marked hσ, find?_spendPred_news_none hnews]
    rfl
  rw [h1]
  exact ⟨_, rfl⟩

theorem spendInputs_mid {inputs : List Input} {U news : List UTXORow}
    {σ : List (Input × String)} {tid : String} {s s' : DB}
    (hs : s.utxos = U.map (markBy σ) ++ news)
    (hres : ∀ i ∈ inputs, ∃ u, U.find? (spendPred i) = some u)
    (hnews : ∀ i ∈ inputs, ∀ r ∈ news, keyMatches i r = false)
    (hσn : (assocKeys σ).Nodup)
    (hok : spendInputs s inputs tid = .ok s') :
    s'.utxos = U.map (markBy (σ ++ inputs.map (fun i => (i, tid)))) ++ news ∧
    s'.transactions = s.transactions ∧
    s'.blocks = s.blocks ∧
    (∀ a, getAddressBalance s' a = getAddressBalance s a - inSumU U inputs a) ∧
    (assocKeys (σ ++ inputs.map (fun i => (i, tid)))).Nodup := by
  induction inputs generalizing σ s with
  | nil =>
      cases hok
      refine ⟨by simp [hs], rfl, rfl, ?_, by simpa using hσn⟩
      intro a
      rw [inSumU_nil]
      ring
  | cons i rest ih =>
      obtain ⟨u, hu⟩ := hres i (List.mem_cons_self _ _)
      by_cases hσi : inputKey i ∈ assocKeys σ
      · exfalso
        obtain ⟨m, hm⟩ := spendUTXO_mid_err hs (hnews i (List.mem_cons_self _ _)) hσi
        unfold spendInputs at hok
        rw [hm] at hok
        cases hok
      · have hstep := @spendUTXO_mid_ok U news σ i tid s u hs hu
          (hnews i (List.mem_cons_self _ _)) hσi
        unfold spendInputs at hok
        rw [hstep] at hok
        replace hok : spendInputs
            (updateAddressBalance
              { s with utxos := U.map (markBy (σ ++ [(i, tid)])) ++ news }
              u.address (-u.value)) rest tid = .ok s' := hok
        have hs2 : (updateAddressBalance
            { s with utxos := U.map (markBy (σ ++ [(i, tid)])) ++ news }
            u.address (-u.value)).utxos = U.map (markBy (σ ++ [(i, tid)])) ++ news := by
          rw [updateAddressBalance_utxos]
        have hσn2 : (assocKeys (σ ++ [(i, tid)])).Nodup := by
          rw [assocKeys_append]
          exact nodup_append_singleton hσi hσn
        obtain ⟨hu2, ht2, hb2, hbal2, hn2⟩ := ih hs2
          (fun j hj => hres j (List.mem_cons_of_mem _ hj))
          (fun j hj => hnews j (List.mem_cons_of_mem _ hj)) hσn2 hok
        have hassoc : (σ ++ [(i, tid)]) ++ rest.map (fun i => (i, tid)) =
            σ ++ (i :: rest).map (fun i => (i, tid)) := by
          rw [List.map_cons, List.append_assoc]
          rfl
        refine ⟨by rw [hu2, hassoc], ?_, ?_, ?_, by rw [← hassoc]; exact hn2⟩
        · rw [ht2, updateAddressBalance_transactions]
        · rw [hb2, updateAddressBalance_blocks]
        · intro a
          rw [hbal2 a, getAddressBalance_update]
          have hbase : getAddressBalance
              { s with utxos := U.map (markBy (σ ++ [(i, tid)])) ++ news } a =
                getAddressBalance s a := rfl
          rw [inSumU_cons_some hu rest a]
          by_cases hua : u.address = a
          · rw [if_pos hua, if_pos hua, hbase]
            ring
          · rw [if_neg hua, if_neg hua, hbase]
            ring

/-! ## The create phase of processTransaction, characterized -/

theorem outSumList_nil (a : String) : outSumList [] a = 0 := rfl

theorem createOutputs_mid {outs : List Output} {tid : String} {idx : Int} {bh : Int}
    {s s' : DB} (hok : createOutputs s tid idx outs bh = .ok s') :
    s'.utxos = s.utxos ++ mkOutputRows tid idx outs bh ∧
    s'.transactions = s.transactions ∧
    s'.blocks = s.blocks ∧
    (∀ a, getAddressBalance s' a = getAddressBalance s a + outSumList outs a) ∧
    ((s.utxos.map utxoKey).Nodup → (s'.utxos.map utxoKey).Nodup) := by
  induction outs generalizing s idx with
  | nil =>
      cases hok
      refine ⟨by simp [mkOutputRows], rfl, rfl, ?_, fun h => h⟩
      intro a
      rw [outSumList_nil]
      ring
  | cons o rest ih =>
      unfold createOutputs at hok
      obtain ⟨s1, h1, h2⟩ := andThen_ok.mp hok
      unfold createUTXO at h1
      split at h1
      · cases h1
      · rename_i hfresh
        simp only [Except.ok.injEq] at h1
        subst h1
        obtain ⟨hu2, ht2, hb2, hbal2, hn2⟩ := ih h2
        have hrow : (updateAddressBalance
            { s with utxos := s.utxos ++ [⟨tid, idx, o.address, o.value, false, none, bh⟩] }
            o.address o.value).utxos =
              s.utxos ++ [⟨tid, idx, o.address, o.value, false, none, bh⟩] := by
          rw [updateAddressBalance_utxos]
        refine ⟨?_, ?_, ?_, ?_, ?_⟩
        · rw [hu2, hrow, List.append_assoc]
          rfl
        · rw [ht2, updateAddressBalance_transactions]
        · rw [hb2, updateAddressBalance_blocks]
        · intro a
          rw [hbal2 a, getAddressBalance_update, outSumList_cons]
          have hbase : getAddressBalance
              { s with utxos := s.utxos ++ [⟨tid, idx, o.address, o.value, false, none, bh⟩] } a =
                getAddressBalance s a := rfl
          by_cases hoa : o.address = a
          · rw [if_pos hoa, if_pos hoa, hbase]
            ring
          · rw [if_neg hoa, if_neg hoa, hbase]
            ring
        · intro hnd
          refine hn2 ?_
          rw [hrow, List.map_append]
          refine nodup_append_singleton ?_ hnd
          intro hmem
          rcases List.mem_map.mp hmem with ⟨v, hv, hvk⟩
          apply hfresh
          rw [List.any_eq_true]
          refine ⟨v, hv, ?_⟩
          unfold utxoKey at hvk
          rw [Prod.mk.injEq] at hvk
          simp [hvk.1, hvk.2]

/-! ## Per-transaction characterization -/

theorem refsOf_append (l1 l2 : List Transaction) :
    refsOf (l1 ++ l2) = refsOf l1 ++ refsOf l2 := by
  unfold refsOf
  rw [List.flatMap_append]

theorem refsOf_single (t : Transaction) :
    refsOf [t] = t.inputs.map (fun i => (i, t.id)) := by
  unfold refsOf
  rw [List.flatMap_cons]
  simp

theorem newRowsOf_append (l1 l2 : List Transaction) (h : Int) :
    newRowsOf (l1 ++ l2) h = newRowsOf l1 h ++ newRowsOf l2 h := by
  unfold newRowsOf
  rw [List.flatMap_append]

theorem newRowsOf_single (t : Transaction) (h : Int) :
    newRowsOf [t] h = mkOutputRows t.id 0 t.outputs h := by
  unfold newRowsOf
  rw [List.flatMap_cons]
  simp

theorem mkOutputRows_txId {tid : String} {idx : Int} {outs : List Output} {h : Int} :
    ∀ r ∈ mkOutputRows tid idx outs h, r.txId = tid := by
  induction outs generalizing idx with
  | nil => intro r hr; cases hr
  | cons o rest ih =>
      intro r hr
      unfold mkOutputRows at hr
      rcases List.mem_cons.mp hr with rfl | hr2
      · rfl
      · exact ih r hr2

theorem newRowsOf_txId {ts : List Transaction} {h : Int} :
    ∀ r ∈ newRowsOf ts h, r.txId ∈ ts.map Transaction.id := by
  intro r hr
  unfold newRowsOf at hr
  rcases List.mem_flatMap.mp hr with ⟨t, ht, hrt⟩
  rw [mkOutputRows_txId r hrt]
  exact List.mem_map_of_mem _ ht

theorem keys_map_markBy (U : List UTXORow) (σ : List (Input × String)) :
    (U.map (markBy σ)).map utxoKey = U.map utxoKey := by
  rw [List.map_map]
  exact List.map_congr_left (fun u _ => markBy_key σ u)

theorem find?_height_append {blocks : List BlockRow} {bid : String} {h : Int}
    (hne : ∀ r ∈ blocks, r.height ≠ h) :
    (blocks ++ [({ id := bid, height := h } : BlockRow)]).find?
        (fun r => r.height == h) = some { id := bid, height := h } := by
  rw [List.find?_append]
  have h1 : blocks.find? (fun r => r.height == h) = none := by
    rw [List.find?_eq_none]
    intro r hr
    simp [hne r hr]
  have h2 : List.find? (fun r => r.height == h) [({ id := bid, height := h } : BlockRow)] =
      some { id := bid, height := h } := by
    simp [List.find?]
  rw [h1, h2]
  rfl

theorem not_mem_ids_of_any_false {l : List TxRow} {x : String}
    (h : ¬ (l.any (fun r => r.id == x)) = true) : x ∉ l.map TxRow.id := by
  intro hmem
  apply h
  rw [List.any_eq_true]
  rcases List.mem_map.mp hmem with ⟨r, hr, hrx⟩
  exact ⟨r, hr, by simp [hrx]⟩

theorem processTransaction_mid {db : DB} {b : Block} {t : Transaction}
    {pre : List Transaction} {s s' : DB}
    (hfind : ∀ r ∈ db.blocks, r.height ≠ b.height)
    (hs_blocks : s.blocks = db.blocks ++ [⟨b.id, b.height⟩])
    (hs_tx : s.transactions = db.transactions ++ pre.map (txRowOf b))
    (hs_utxos : s.utxos = db.utxos.map (markBy (refsOf pre)) ++ newRowsOf pre b.height)
    (hres : ∀ i ∈ t.inputs, ∃ u, db.utxos.find? (spendPred i) = some u)
    (hnews : ∀ i ∈ t.inputs, ∀ r ∈ newRowsOf pre b.height, keyMatches i r = false)
    (hσn : (assocKeys (refsOf pre)).Nodup)
    (hok : processTransaction s t b.height = .ok s') :
    s'.blocks = db.blocks ++ [⟨b.id, b.height⟩] ∧
    s'.transactions = db.transactions ++ (pre ++ [t]).map (txRowOf b) ∧
    s'.utxos = db.utxos.map (markBy (refsOf (pre ++ [t]))) ++ newRowsOf (pre ++ [t]) b.height ∧
    (∀ a, getAddressBalance s' a =
      getAddressBalance s a + (outSumTo t a - inSumFrom db t a)) ∧
    (assocKeys (refsOf (pre ++ [t]))).Nodup ∧
    t.id ∉ db.transactions.map TxRow.id ∧
    t.id ∉ pre.map Transaction.id ∧
    ((s.utxos.map utxoKey).Nodup → (s'.utxos.map utxoKey).Nodup) := by
  unfold processTransaction at hok
  have hfres : s.blocks.find? (fun r => r.height == b.height) =
      some { id := b.id, height := b.height } := by
    rw [hs_blocks]
    exact find?_height_append hfind
  rw [hfres] at hok
  split at hok
  · cases hok
  · rename_i blk hblk
    injection hblk with hblkeq
    subst hblkeq
    split at hok
    · cases hok
    · rename_i hdup
      rw [hs_tx] at hdup
      have hfresh1 : t.id ∉ db.transactions.map TxRow.id := by
        have := not_mem_ids_of_any_false hdup
        rw [List.map_append] at this
        exact fun hmem => this (List.mem_append.mpr (Or.inl hmem))
      have hfresh2 : t.id ∉ pre.map Transaction.id := by
        have := not_mem_ids_of_any_false hdup
        rw [List.map_append] at this
        intro hmem
        apply this
        refine List.mem_append.mpr (Or.inr ?_)
        rcases List.mem_map.mp hmem with ⟨q, hq, hqid⟩
        rw [List.map_map]
        exact List.mem_map.mpr ⟨q, hq, hqid⟩
      obtain ⟨s2, hsp, hco⟩ := andThen_ok.mp hok
      have hsrow : ({ s with transactions :=
          s.transactions ++ [⟨t.id, b.id, b.height⟩] } : DB).utxos =
            db.utxos.map (markBy (refsOf pre)) ++ newRowsOf pre b.height := hs_utxos
      obtain ⟨hu2, ht2, hb2, hbal2, hn2⟩ := spendInputs_mid hsrow hres hnews hσn hsp
      obtain ⟨hu3, ht3, hb3, hbal3, hn3⟩ := createOutputs_mid hco
      have hrefs : refsOf (pre ++ [t]) = refsOf pre ++ t.inputs.map (fun i => (i, t.id)) := by
        rw [refsOf_append, refsOf_single]
      have hnewrows : newRowsOf (pre ++ [t]) b.height =
          newRowsOf pre b.height ++ mkOutputRows t.id 0 t.outputs b.height := by
        rw [newRowsOf_append, newRowsOf_single]
      refine ⟨?_, ?_, ?_, ?_, ?_, hfresh1, hfresh2, ?_⟩
      · rw [hb3, hb2, hs_blocks]
      · rw [ht3, ht2]
        show s.transactions ++ [⟨t.id, b.id, b.height⟩] = _
        rw [hs_tx, List.map_append, List.append_assoc]
        rfl
      · rw [hu3, hu2, hrefs, hnewrows, List.append_assoc]
      · intro a
        rw [hbal3 a, hbal2 a]
        have hbase : getAddressBalance
            ({ s with transactions := s.transactions ++ [⟨t.id, b.id, b.height⟩] } : DB) a =
              getAddressBalance s a := rfl
        rw [hbase]
        unfold outSumTo inSumFrom
        ring
      · rw [hrefs, assocKeys_append]
        have := hn2
        rw [assocKeys_append] at this
        exact this
      · intro hnd
        refine hn3 ?_
        rw [hu2, List.map_append, keys_map_markBy]
        rw [hs_utxos, List.map_append, keys_map_markBy] at hnd
        exact hnd

/-! ## Whole-block characterization -/

theorem deltaOf_cons (db : DB) (t : Transaction) (ts : List Transaction) (a : String) :
    deltaOf db (t :: ts) a = (outSumTo t a - inSumFrom db t a) + deltaOf db ts a := by
  unfold deltaOf
  rw [List.map_cons, sumInt_cons]

theorem deltaOf_nil (db : DB) (a : String) : deltaOf db [] a = 0 := rfl

theorem keyMatches_false_of_txId_ne {i : Input} {r : UTXORow} (h : r.txId ≠ i.txId) :
    keyMatches i r = false := by
  rw [keyMatches_false]
  unfold utxoKey inputKey
  intro hk
  rw [Prod.mk.injEq] at hk
  exact h hk.1

theorem processTransactions_mid {ts pre : List Transaction} {db : DB} {b : Block} {s s' : DB}
    (hfind : ∀ r ∈ db.blocks, r.height ≠ b.height)
    (hUtx : ∀ u ∈ db.utxos, u.txId ∈ db.transactions.map TxRow.id)
    (hres : ∀ t ∈ ts, ∀ i ∈ t.inputs, ∃ u, db.utxos.find? (spendPred i) = some u)
    (hs_blocks : s.blocks = db.blocks ++ [{ id := b.id, height := b.height }])
    (hs_tx : s.transactions = db.transactions ++ pre.map (txRowOf b))
    (hs_utxos : s.utxos = db.utxos.map (markBy (refsOf pre)) ++ newRowsOf pre b.height)
    (hσn : (assocKeys (refsOf pre)).Nodup)
    (hpre_fresh : ∀ t ∈ pre, t.id ∉ db.transactions.map TxRow.id)
    (hpren : (pre.map Transaction.id).Nodup)
    (hkeys : (s.utxos.map utxoKey).Nodup)
    (hok : processTransactions s ts b.height = .ok s') :
    s'.blocks = db.blocks ++ [{ id := b.id, height := b.height }] ∧
    s'.transactions = db.transactions ++ (pre ++ ts).map (txRowOf b) ∧
    s'.utxos = db.utxos.map (markBy (refsOf (pre ++ ts))) ++ newRowsOf (pre ++ ts) b.height ∧
    (∀ a, getAddressBalance s' a = getAddressBalance s a + deltaOf db ts a) ∧
    (assocKeys (refsOf (pre ++ ts))).Nodup ∧
    (∀ t ∈ ts, t.id ∉ db.transactions.map TxRow.id) ∧
    ((pre ++ ts).map Transaction.id).Nodup ∧
    (s'.utxos.map utxoKey).Nodup := by
  induction ts generalizing pre s with
  | nil =>
      cases hok
      refine ⟨hs_blocks, by rw [hs_tx, List.append_nil], by rw [hs_utxos, List.append_nil],
        ?_, by rw [List.append_nil]; exact hσn, fun t ht => absurd ht (List.not_mem_nil t),
        by rw [List.append_nil]; exact hpren, hkeys⟩
      intro a
      rw [deltaOf_nil]
      ring
  | cons t rest ih =>
      unfold processTransactions at hok
      obtain ⟨s2, h1, h2⟩ := andThen_ok.mp hok
      have hnews : ∀ i ∈ t.inputs, ∀ r ∈ newRowsOf pre b.height, keyMatches i r = false := by
        intro i hi r hr
        obtain ⟨u, hu⟩ := hres t (List.mem_cons_self _ _) i hi
        have humem : u ∈ db.utxos := List.mem_of_find?_eq_some hu
        have hup : spendPred i u = true := List.find?_some hu
        have hukey : utxoKey u = inputKey i := by
          unfold spendPred at hup
          rw [Bool.and_eq_true] at hup
          exact keyMatches_iff.mp hup.1
        have hutx : u.txId = i.txId := by
          unfold utxoKey inputKey at hukey
          rw [Prod.mk.injEq] at hukey
          exact hukey.1
        have hrtx : r.txId ∈ pre.map Transaction.id := newRowsOf_txId r hr
        refine keyMatches_false_of_txId_ne ?_
        intro hre
        rcases List.mem_map.mp hrtx with ⟨q, hq, hqid⟩
        have : q.id ∈ db.transactions.map TxRow.id := by
          rw [hqid, hre, ← hutx]
          exact hUtx u humem
        exact hpre_fresh q hq this
      obtain ⟨hb2, ht2, hu2, hbal2, hσ2, hfresh1, hfresh2, hkey2⟩ :=
        processTransaction_mid hfind hs_blocks hs_tx hs_utxos
          (hres t (List.mem_cons_self _ _)) hnews hσn h1
      have hpref2 : ∀ q ∈ pre ++ [t], q.id ∉ db.transactions.map TxRow.id := by
        intro q hq
        rcases List.mem_append.mp hq with hq1 | hq2
        · exact hpre_fresh q hq1
        · rw [List.mem_singleton] at hq2
          subst hq2
          exact hfresh1
      have hpren2 : ((pre ++ [t]).map Transaction.id).Nodup := by
        rw [List.map_append]
        exact nodup_append_singleton (by simpa using hfresh2) (by simpa using hpren)
      obtain ⟨hb3, ht3, hu3, hbal3, hσ3, hfr3, hnd3, hkey3⟩ :=
        ih (fun q hq => hres q (List.mem_cons_of_mem _ hq)) hb2 ht2 hu2 hσ2 hpref2 hpren2
          (hkey2 hkeys) h2
      have happ : (pre ++ [t]) ++ rest = pre ++ t :: rest := by
        rw [List.append_assoc, List.singleton_append]
      refine ⟨hb3, by rw [ht3, happ], by rw [hu3, happ], ?_, by rw [← happ]; exact hσ3,
        ?_, by rw [← happ]; exact hnd3, hkey3⟩
      · intro a
        rw [hbal3 a, hbal2 a, deltaOf_cons]
        ring
      · intro q hq
        rcases List.mem_cons.mp hq with rfl | hq2
        · exact hfresh1
        · exact hfr3 q hq2

theorem processBlock_char {db db' : DB} {b : Block}
    (hUkeys : (db.utxos.map utxoKey).Nodup)
    (hUtx : ∀ u ∈ db.utxos, u.txId ∈ db.transactions.map TxRow.id)
    (hval : validateBlock db b = .ok ())
    (hok : processBlock db b = .ok db') :
    db'.blocks = db.blocks ++ [{ id := b.id, height := b.height }] ∧
    db'.transactions = db.transactions ++ b.transactions.map (txRowOf b) ∧
    db'.utxos = db.utxos.map (markBy (refsOf b.transactions)) ++
      newRowsOf b.transactions b.height ∧
    (∀ a, getAddressBalance db' a = getAddressBalance db a + deltaOf db b.transactions a) ∧
    (assocKeys (refsOf b.transactions)).Nodup ∧
    (∀ t ∈ b.transactions, t.id ∉ db.transactions.map TxRow.id) ∧
    (b.transactions.map Transaction.id).Nodup ∧
    (db'.utxos.map utxoKey).Nodup ∧
    b.id ∉ db.blocks.map BlockRow.id ∧
    b.height ∉ db.blocks.map BlockRow.height ∧
    (∀ t ∈ b.transactions, ∀ i ∈ t.inputs, ∃ u, db.utxos.find? (spendPred i) = some u) := by
  obtain ⟨hh, hid, hts⟩ := validateBlock_ok_parts hval
  have hfind : ∀ r ∈ db.blocks, r.height ≠ b.height := by
    intro r hr
    have := height_le_currentMaxHeight db r hr
    rw [hh]
    omega
  have hres : ∀ t ∈ b.transactions, ∀ i ∈ t.inputs, ∃ u,
      db.utxos.find? (spendPred i) = some u := by
    intro t ht i hi
    have := validateTransaction_ok_resolves (hts t ht) i hi
    unfold resolveInput at this
    exact Option.isSome_iff_exists.mp this
  unfold processBlock at hok
  split at hok
  · cases hok
  · rename_i hexists
    have hbid : b.id ∉ db.blocks.map BlockRow.id := by
      intro hmem
      apply hexists
      rw [List.any_eq_true]
      rcases List.mem_map.mp hmem with ⟨r, hr, hrid⟩
      exact ⟨r, hr, by simp [hrid]⟩
    have hbh : b.height ∉ db.blocks.map BlockRow.height := by
      intro hmem
      apply hexists
      rw [List.any_eq_true]
      rcases List.mem_map.mp hmem with ⟨r, hr, hrh⟩
      exact ⟨r, hr, by simp [hrh]⟩
    have hs_utxos : ({ db with blocks := db.blocks ++ [{ id := b.id, height := b.height }] } : DB).utxos =
        db.utxos.map (markBy (refsOf [])) ++ newRowsOf [] b.height := by
      show db.utxos = db.utxos.map (markBy []) ++ []
      rw [List.append_nil]
      refine (List.map_congr_left ?_ |>.trans (List.map_id db.utxos)).symm
      intro u _
      exact markBy_nil u
    obtain ⟨hb3, ht3, hu3, hbal3, hσ3, hfr3, hnd3, hkey3⟩ :=
      @processTransactions_mid b.transactions [] db b _ db' hfind hUtx hres rfl
        (by simp) hs_utxos
        (by rw [show refsOf [] = [] from rfl]; exact List.nodup_nil)
        (fun t ht => absurd ht (List.not_mem_nil t)) List.nodup_nil
        (by rw [show ({ db with blocks := db.blocks ++ [{ id := b.id, height := b.height }] } : DB).utxos = db.utxos from rfl]; exact hUkeys) hok
    rw [List.nil_append] at ht3 hu3 hσ3 hnd3
    refine ⟨hb3, ht3, hu3, ?_, hσ3, hfr3, hnd3, hkey3, hbid, hbh, hres⟩
    intro a
    rw [hbal3 a]
    rfl

/-! ## Rollback characterization: generic helpers -/

theorem sublist_flatMap {α β : Type} (f : α → List β) {l1 l2 : List α}
    (h : l1.Sublist l2) : (l1.flatMap f).Sublist (l2.flatMap f) := by
  induction h with
  | slnil => exact List.Sublist.refl _
  | cons a hs ih =>
      rw [List.flatMap_cons]
      exact ih.trans (List.sublist_append_right _ _)
  | cons₂ a hs ih =>
      rw [List.flatMap_cons, List.flatMap_cons]
      exact ih.append_left _

theorem foldUpdNeg_utxos (rows : List UTXORow) (st : DB) :
    (rows.foldl (fun d o => updateAddressBalance d o.address (-o.value)) st).utxos = st.utxos := by
  induction rows generalizing st with
  | nil => rfl
  | cons r rest ih => rw [List.foldl_cons, ih, updateAddressBalance_utxos]

theorem foldUpdNeg_transactions (rows : List UTXORow) (st : DB) :
    (rows.foldl (fun d o => updateAddressBalance d o.address (-o.value)) st).transactions =
      st.transactions := by
  induction rows generalizing st with
  | nil => rfl
  | cons r rest ih => rw [List.foldl_cons, ih, updateAddressBalance_transactions]

theorem sumAddr_nil (a : String) : sumAddr [] a = 0 := rfl

theorem sumAddr_cons (r : UTXORow) (rows : List UTXORow) (a : String) :
    sumAddr (r :: rows) a = (if r.address = a then r.value else 0) + sumAddr rows a := by
  unfold sumAddr
  by_cases h : r.address = a
  · rw [List.filter_cons_of_pos (by simp [h]), List.map_cons, sumInt_cons, if_pos h]
  · rw [List.filter_cons_of_neg (by simp [h]), if_neg h]
    ring

theorem foldUpdNeg_bal (rows : List UTXORow) (st : DB) (a : String) :
    getAddressBalance
        (rows.foldl (fun d o => updateAddressBalance d o.address (-o.value)) st) a =
      getAddressBalance st a - sumAddr rows a := by
  induction rows generalizing st with
  | nil =>
      show getAddressBalance st a = _
      rw [sumAddr_nil]
      ring
  | cons r rest ih =>
      rw [List.foldl_cons, ih, getAddressBalance_update, sumAddr_cons]
      by_cases h : r.address = a
      · rw [if_pos h, if_pos h]; ring
      · rw [if_neg h, if_neg h]; ring

theorem sumAddr_mkOutputRows (tid : String) (idx : Int) (outs : List Output) (h : Int)
    (a : String) : sumAddr (mkOutputRows tid idx outs h) a = outSumList outs a := by
  induction outs generalizing idx with
  | nil => rfl
  | cons o rest ih =>
      unfold mkOutputRows
      rw [sumAddr_cons, outSumList_cons, ih]

theorem filter_txId_mk_eq (tid : String) (idx : Int) (outs : List Output) (h : Int) :
    (mkOutputRows tid idx outs h).filter (fun u => u.txId == tid) =
      mkOutputRows tid idx outs h :=
  List.filter_eq_self.mpr (fun r hr => by simp [mkOutputRows_txId r hr])

theorem filter_txId_mk_ne {tid tid2 : String} (hne : tid ≠ tid2) (idx : Int)
    (outs : List Output) (h : Int) :
    (mkOutputRows tid idx outs h).filter (fun u => u.txId == tid2) = [] := by
  rw [List.filter_eq_nil_iff]
  intro r hr
  simp [mkOutputRows_txId r hr, hne]

theorem newRowsOf_filter_eq {ts : List Transaction} {t : Transaction} {h : Int}
    (hnd : (ts.map Transaction.id).Nodup) (hmem : t ∈ ts) :
    (newRowsOf ts h).filter (fun u => u.txId == t.id) = mkOutputRows t.id 0 t.outputs h := by
  induction ts with
  | nil => cases hmem
  | cons q rest ih =>
      unfold newRowsOf
      rw [List.flatMap_cons, List.filter_append]
      rcases List.mem_cons.mp hmem with rfl | hmem2
      · rw [filter_txId_mk_eq]
        have hqrest : (newRowsOf rest h).filter (fun u => u.txId == t.id) = [] := by
          rw [List.filter_eq_nil_iff]
          intro r hr
          have := newRowsOf_txId r hr
          rw [List.map_cons, List.nodup_cons] at hnd
          intro hc
          rw [beq_iff_eq] at hc
          exact hnd.1 (hc ▸ this)
        show _ ++ (newRowsOf rest h).filter _ = _
        rw [hqrest, List.append_nil]
      · have hqt : q.id ≠ t.id := by
          rw [List.map_cons, List.nodup_cons] at hnd
          intro hc
          exact hnd.1 (hc ▸ List.mem_map_of_mem _ hmem2)
        rw [filter_txId_mk_ne hqt]
        show [] ++ (newRowsOf rest h).filter _ = _
        rw [List.nil_append]
        rw [List.map_cons, List.nodup_cons] at hnd
        exact ih hnd.2 hmem2

theorem newRowsOf_filter_ne (ts : List Transaction) (t : Transaction) (h : Int) :
    (newRowsOf ts h).filter (fun u => !(u.txId == t.id)) =
      newRowsOf (ts.filter (fun q => !(q.id == t.id))) h := by
  induction ts with
  | nil => rfl
  | cons q rest ih =>
      unfold newRowsOf
      rw [List.flatMap_cons, List.filter_append]
      by_cases hq : q.id = t.id
      · have h1 : (mkOutputRows q.id 0 q.outputs h).filter (fun u => !(u.txId == t.id)) = [] := by
          rw [List.filter_eq_nil_iff]
          intro r hr
          simp [mkOutputRows_txId r hr, hq]
        rw [h1, List.filter_cons_of_neg (by simp [hq]), List.nil_append]
        exact ih
      · have h1 : (mkOutputRows q.id 0 q.outputs h).filter (fun u => !(u.txId == t.id)) =
            mkOutputRows q.id 0 q.outputs h :=
          List.filter_eq_self.mpr (fun r hr => by simp [mkOutputRows_txId r hr, hq])
        rw [h1, List.filter_cons_of_pos (by simp [hq])]
        show mkOutputRows q.id 0 q.outputs h ++ _ = _
        rw [List.flatMap_cons]
        exact congrArg (fun l => mkOutputRows q.id 0 q.outputs h ++ l) ih

theorem find?_assoc_of_mem {σ : List (Input × String)} (hnd : (assocKeys σ).Nodup)
    {p : Input × String} (hp : p ∈ σ) {u : UTXORow} (hk : keyMatches p.1 u = true) :
    σ.find? (fun q => keyMatches q.1 u) = some p := by
  induction σ with
  | nil => cases hp
  | cons q rest ih =>
      rcases List.mem_cons.mp hp with rfl | hp2
      · exact List.find?_cons_of_pos rest hk
      · have hqk : keyMatches q.1 u = false := by
          cases hqc : keyMatches q.1 u
          · rfl
          · exfalso
            have h1 : utxoKey u = inputKey q.1 := keyMatches_iff.mp hqc
            have h2 : utxoKey u = inputKey p.1 := keyMatches_iff.mp hk
            unfold assocKeys at hnd
            rw [List.map_cons, List.nodup_cons] at hnd
            apply hnd.1
            rw [← h1, h2]
            exact List.mem_map_of_mem _ hp2
        rw [List.find?_cons_of_neg rest (by rw [hqk]; exact Bool.false_ne_true)]
        unfold assocKeys at hnd
        rw [List.map_cons, List.nodup_cons] at hnd
        exact ih hnd.2 hp2

theorem filter_keyMatch_single {U : List UTXORow} {i : Input} {u : UTXORow}
    (hUk : (U.map utxoKey).Nodup) (hu : u ∈ U) (hk : keyMatches i u = true) :
    U.filter (keyMatches i) = [u] := by
  induction U with
  | nil => cases hu
  | cons v rest ih =>
      rw [List.map_cons, List.nodup_cons] at hUk
      rcases List.mem_cons.mp hu with rfl | hu2
      · rw [List.filter_cons_of_pos hk]
        have hrest : rest.filter (keyMatches i) = [] := by
          rw [List.filter_eq_nil_iff]
          intro r hr hc
          apply hUk.1
          rw [keyMatches_iff.mp hk, ← keyMatches_iff.mp hc]
          exact List.mem_map_of_mem _ hr
        rw [hrest]
      · have hvk : keyMatches i v = false := by
          cases hvc : keyMatches i v
          · rfl
          · exfalso
            apply hUk.1
            rw [keyMatches_iff.mp hvc, ← keyMatches_iff.mp hk]
            exact List.mem_map_of_mem _ hu2
        rw [List.filter_cons_of_neg (by rw [hvk]; exact Bool.false_ne_true)]
        exact ih hUk.2 hu2

theorem sumAddr_filter_disjoint {U : List UTXORow} {p q : UTXORow → Bool}
    (hdisj : ∀ u ∈ U, ¬(p u = true ∧ q u = true)) (a : String) :
    sumAddr (U.filter (fun u => p u || q u)) a =
      sumAddr (U.filter p) a + sumAddr (U.filter q) a := by
  induction U with
  | nil => rfl
  | cons v rest ih =>
      have hrest := ih (fun u hu => hdisj u (List.mem_cons_of_mem _ hu))
      cases hp : p v with
      | true =>
          have hq : q v = false := by
            cases hq : q v
            · rfl
            · exact absurd ⟨hp, hq⟩ (hdisj v (List.mem_cons_self _ _))
          rw [List.filter_cons_of_pos (by rw [hp]; rfl), List.filter_cons_of_pos hp,
            List.filter_cons_of_neg (by rw [hq]; exact Bool.false_ne_true),
            sumAddr_cons, sumAddr_cons, hrest]
          ring
      | false =>
          cases hq : q v with
          | true =>
              rw [List.filter_cons_of_pos (by rw [hp, hq]; rfl),
                List.filter_cons_of_neg (by rw [hp]; exact Bool.false_ne_true),
                List.filter_cons_of_pos hq, sumAddr_cons, sumAddr_cons, hrest]
              ring
          | false =>
              rw [List.filter_cons_of_neg (by rw [hp, hq]; simp),
                List.filter_cons_of_neg (by rw [hp]; exact Bool.false_ne_true),
                List.filter_cons_of_neg (by rw [hq]; exact Bool.false_ne_true), hrest]

theorem sumAddr_marked_eq_inSum {U : List UTXORow} {L : List Input}
    (hUk : (U.map utxoKey).Nodup)
    (hres : ∀ i ∈ L, ∃ u, U.find? (spendPred i) = some u)
    (hLk : (L.map inputKey).Nodup) (a : String) :
    sumAddr (U.filter (fun u => L.any (fun i => keyMatches i u))) a = inSumU U L a := by
  induction L with
  | nil =>
      have : U.filter (fun u => List.any [] (fun i => keyMatches i u)) = [] := by
        rw [List.filter_eq_nil_iff]
        intro r hr
        simp
      rw [this]
      rfl
  | cons i L2 ih =>
      obtain ⟨u, hu⟩ := hres i (List.mem_cons_self _ _)
      have humem : u ∈ U := List.mem_of_find?_eq_some hu
      have hup : spendPred i u = true := List.find?_some hu
      have huk : keyMatches i u = true := by
        unfold spendPred at hup
        rw [Bool.and_eq_true] at hup
        exact hup.1
      rw [List.map_cons, List.nodup_cons] at hLk
      have hpred : ∀ v, (List.any (i :: L2) (fun j => keyMatches j v)) =
          (keyMatches i v || L2.any (fun j => keyMatches j v)) := by
        intro v
        rw [List.any_cons]
      rw [List.filter_congr (fun v _ => hpred v)]
      have hdisj : ∀ v ∈ U, ¬(keyMatches i v = true ∧ (L2.any fun j => keyMatches j v) = true) := by
        intro v hv ⟨h1, h2⟩
        rw [List.any_eq_true] at h2
        obtain ⟨j, hj, hjk⟩ := h2
        apply hLk.1
        rw [show inputKey i = utxoKey v from (keyMatches_iff.mp h1).symm,
          keyMatches_iff.mp hjk]
        exact List.mem_map_of_mem _ hj
      rw [sumAddr_filter_disjoint hdisj, filter_keyMatch_single hUk humem huk,
        ih (fun j hj => hres j (List.mem_cons_of_mem _ hj)) hLk.2,
        inSumU_cons_some hu, sumAddr_cons, sumAddr_nil]
      ring

/-! ## Unmarking machinery -/

theorem mkOutputRows_spentInTx {tid : String} {idx : Int} {outs : List Output} {h : Int} :
    ∀ r ∈ mkOutputRows tid idx outs h, r.spentInTx = none ∧ r.isSpent = false := by
  induction outs generalizing idx with
  | nil => intro r hr; cases hr
  | cons o rest ih =>
      intro r hr
      unfold mkOutputRows at hr
      rcases List.mem_cons.mp hr with rfl | hr2
      · exact ⟨rfl, rfl⟩
      · exact ih r hr2

theorem markBy_txId (σ : List (Input × String)) (u : UTXORow) :
    (markBy σ u).txId = u.txId := by
  unfold markBy
  split <;> rfl

theorem sumAddr_map_markBy (l : List UTXORow) (σ : List (Input × String)) (a : String) :
    sumAddr (l.map (markBy σ)) a = sumAddr l a := by
  induction l with
  | nil => rfl
  | cons u rest ih =>
      rw [List.map_cons, sumAddr_cons, sumAddr_cons, markBy_address, markBy_value, ih]

theorem unmarkBy_nil (u : UTXORow) : unmarkBy [] u = u := rfl

theorem unspend_compose_row (w : UTXORow) (ks : List (String × Int)) (u : UTXORow) :
    unmarkBy ks (if u.txId == w.txId && u.outputIndex == w.outputIndex then
      { u with isSpent := false, spentInTx := none } else u) =
      unmarkBy (utxoKey w :: ks) u := by
  by_cases hk : (u.txId == w.txId && u.outputIndex == w.outputIndex) = true
  · rw [if_pos hk]
    have hkey : utxoKey u = utxoKey w := by
      rw [Bool.and_eq_true, beq_iff_eq, beq_iff_eq] at hk
      unfold utxoKey
      rw [hk.1, hk.2]
    unfold unmarkBy
    have hc : (utxoKey w :: ks).contains (utxoKey u) = true := by
      rw [List.contains_cons]
      simp [hkey]
    rw [hc]
    simp only [if_true]
    split <;> rfl
  · rw [if_neg hk]
    have hkey : utxoKey u ≠ utxoKey w := by
      intro hc
      apply hk
      unfold utxoKey at hc
      rw [Prod.mk.injEq] at hc
      simp [hc.1, hc.2]
    unfold unmarkBy
    have hc : (utxoKey w :: ks).contains (utxoKey u) = ks.contains (utxoKey u) := by
      rw [List.contains_cons]
      have : (utxoKey u == utxoKey w) = false := by simp [hkey]
      rw [this, Bool.false_or]
    rw [hc]

theorem foldUnspend_utxos (W : List UTXORow) (s : DB) :
    (W.foldl unspendRow s).utxos = s.utxos.map (unmarkBy (W.map utxoKey)) := by
  induction W generalizing s with
  | nil =>
      show s.utxos = _
      refine (List.map_congr_left ?_ |>.trans (List.map_id s.utxos)).symm
      intro u _
      exact unmarkBy_nil u
  | cons w rest ih =>
      rw [List.foldl_cons, ih]
      show ((unspendRow s w).utxos).map _ = _
      have hu : (unspendRow s w).utxos = s.utxos.map (fun u =>
          if u.txId == w.txId && u.outputIndex == w.outputIndex then
            { u with isSpent := false, spentInTx := none } else u) := by
        unfold unspendRow
        rw [updateAddressBalance_utxos]
      rw [hu, List.map_map, List.map_cons]
      exact List.map_congr_left (fun u _ => unspend_compose_row w (rest.map utxoKey) u)

theorem foldUnspend_transactions (W : List UTXORow) (s : DB) :
    (W.foldl unspendRow s).transactions = s.transactions := by
  induction W generalizing s with
  | nil => rfl
  | cons w rest ih =>
      rw [List.foldl_cons, ih]
      unfold unspendRow
      rw [updateAddressBalance_transactions]

theorem foldUnspend_bal (W : List UTXORow) (s : DB) (a : String) :
    getAddressBalance (W.foldl unspendRow s) a = getAddressBalance s a + sumAddr W a := by
  induction W generalizing s with
  | nil => rw [sumAddr_nil]; show getAddressBalance s a = _; ring
  | cons w rest ih =>
      rw [List.foldl_cons, ih, sumAddr_cons]
      have hb : getAddressBalance (unspendRow s w) a =
          if w.address = a then getAddressBalance s a + w.value else getAddressBalance s a := by
        unfold unspendRow
        rw [getAddressBalance_update]
        rfl
      rw [hb]
      by_cases hw : w.address = a
      · rw [if_pos hw, if_pos hw]; ring
      · rw [if_neg hw, if_neg hw]; ring

/-! ## Marked-row characterization -/

theorem mem_refsOf {L : List Transaction} {p : Input × String} :
    p ∈ refsOf L ↔ ∃ q ∈ L, ∃ i ∈ q.inputs, p = (i, q.id) := by
  unfold refsOf
  rw [List.mem_flatMap]
  constructor
  · rintro ⟨q, hq, hp⟩
    rcases List.mem_map.mp hp with ⟨i, hi, hip⟩
    exact ⟨q, hq, i, hi, hip.symm⟩
  · rintro ⟨q, hq, i, hi, rfl⟩
    exact ⟨q, hq, List.mem_map_of_mem _ hi⟩

theorem refsOf_sublist {R ts : List Transaction} (h : R.Sublist ts) :
    (refsOf R).Sublist (refsOf ts) :=
  sublist_flatMap _ h

theorem assocKeys_sublist {R ts : List Transaction} (h : R.Sublist ts) :
    (assocKeys (refsOf R)).Sublist (assocKeys (refsOf ts)) :=
  (refsOf_sublist h).map _

theorem assoc_inj {σ : List (Input × String)} (hnd : (assocKeys σ).Nodup)
    {p1 p2 : Input × String} (h1 : p1 ∈ σ) (h2 : p2 ∈ σ)
    (hk : inputKey p1.1 = inputKey p2.1) : p1 = p2 := by
  unfold assocKeys at hnd
  exact List.inj_on_of_nodup_map hnd h1 h2 hk

theorem marked_spentInTx_iff {db : DB} {ts R : List Transaction} {t : Transaction}
    {u : UTXORow}
    (hSp : ∀ u ∈ db.utxos, ∀ x, u.spentInTx = some x → x ∈ db.transactions.map TxRow.id)
    (hFresh : ∀ q ∈ ts, q.id ∉ db.transactions.map TxRow.id)
    (hTsnd : (ts.map Transaction.id).Nodup)
    (hAσ : (assocKeys (refsOf ts)).Nodup)
    (hR : R.Sublist ts) (ht : t ∈ R) (hu : u ∈ db.utxos) :
    (markBy (refsOf R) u).spentInTx = some t.id ↔
      ∃ i ∈ t.inputs, utxoKey u = inputKey i := by
  have hRσ : (assocKeys (refsOf R)).Nodup := hAσ.sublist (assocKeys_sublist hR)
  constructor
  · intro hmark
    unfold markBy at hmark
    cases hf : (refsOf R).find? (fun p => keyMatches p.1 u) with
    | some p =>
        rw [hf] at hmark
        have hp2 : p.2 = t.id := by
          injection hmark
        have hpmem : p ∈ refsOf R := List.mem_of_find?_eq_some hf
        rcases mem_refsOf.mp hpmem with ⟨q, hq, j, hj, rfl⟩
        have hqt : q = t := by
          refine List.inj_on_of_nodup_map hTsnd (hR.subset hq) (hR.subset ht) ?_
          exact hp2
        subst hqt
        have hkm : keyMatches j u = true := by
          have h2 := List.find?_some hf
          exact h2
        exact ⟨j, hj, keyMatches_iff.mp hkm⟩
    | none =>
        rw [hf] at hmark
        exfalso
        have := hSp u hu t.id hmark
        exact hFresh t (hR.subset ht) this
  · rintro ⟨i, hi, hk⟩
    have hpmem : ((i, t.id) : Input × String) ∈ refsOf R :=
      mem_refsOf.mpr ⟨t, ht, i, hi, rfl⟩
    have hkm : keyMatches i u = true := keyMatches_iff.mpr hk
    have := find?_assoc_of_mem hRσ hpmem (u := u) hkm
    unfold markBy
    rw [this]
    rfl

theorem reset_markBy (σ : List (Input × String)) (u : UTXORow) :
    ({ markBy σ u with isSpent := false, spentInTx := none } : UTXORow) =
      { u with isSpent := false, spentInTx := none } := by
  unfold markBy
  split <;> rfl

theorem reset_eq_self {u : UTXORow} (h1 : u.isSpent = false) (h2 : u.spentInTx = none) :
    ({ u with isSpent := false, spentInTx := none } : UTXORow) = u := by
  cases u
  simp_all

theorem unmark_row_final {db : DB} {ts R : List Transaction} {t : Transaction}
    {u : UTXORow} {W : List UTXORow}
    (hUk : (db.utxos.map utxoKey).Nodup)
    (hSp : ∀ u ∈ db.utxos, ∀ x, u.spentInTx = some x → x ∈ db.transactions.map TxRow.id)
    (hFlag : ∀ u ∈ db.utxos, u.isSpent = false → u.spentInTx = none)
    (hFresh : ∀ q ∈ ts, q.id ∉ db.transactions.map TxRow.id)
    (hTsnd : (ts.map Transaction.id).Nodup)
    (hRes : ∀ q ∈ ts, ∀ i ∈ q.inputs, ∃ u, db.utxos.find? (spendPred i) = some u)
    (hAσ : (assocKeys (refsOf ts)).Nodup)
    (hR : R.Sublist ts) (ht : t ∈ R)
    (hW : W = (db.utxos.map (markBy (refsOf R))).filter
      (fun u => u.spentInTx == some t.id))
    (hu : u ∈ db.utxos) :
    unmarkBy (W.map utxoKey) (markBy (refsOf R) u) =
      markBy (refsOf (R.filter (fun q => !(q.id == t.id)))) u := by
  have hRfil : (R.filter (fun q => !(q.id == t.id))).Sublist ts :=
    (List.filter_sublist R).trans hR
  have hRσ : (assocKeys (refsOf R)).Nodup := hAσ.sublist (assocKeys_sublist hR)
  have hRσ2 : (assocKeys (refsOf (R.filter (fun q => !(q.id == t.id))))).Nodup :=
    hAσ.sublist (assocKeys_sublist hRfil)
  have hkeyW : utxoKey u ∈ W.map utxoKey ↔
      (markBy (refsOf R) u).spentInTx = some t.id := by
    constructor
    · intro hmem
      rcases List.mem_map.mp hmem with ⟨w, hwW, hwk⟩
      rw [hW, List.mem_filter] at hwW
      rcases List.mem_map.mp hwW.1 with ⟨v, hv, rfl⟩
      have hvu : v = u := by
        refine List.inj_on_of_nodup_map hUk hv hu ?_
        rw [← markBy_key (refsOf R) v, hwk]
      subst hvu
      exact beq_iff_eq.mp hwW.2
    · intro hmark
      refine List.mem_map.mpr ⟨markBy (refsOf R) u, ?_, markBy_key (refsOf R) u⟩
      rw [hW, List.mem_filter]
      exact ⟨List.mem_map_of_mem _ hu, beq_iff_eq.mpr hmark⟩
  by_cases hmarked : (markBy (refsOf R) u).spentInTx = some t.id
  · obtain ⟨i, hi, hk⟩ := (marked_spentInTx_iff hSp hFresh hTsnd hAσ hR ht hu).mp hmarked
    have hcont : (W.map utxoKey).contains (utxoKey (markBy (refsOf R) u)) = true := by
      rw [markBy_key]
      exact List.elem_iff.mpr (hkeyW.mpr hmarked)
    unfold unmarkBy
    rw [hcont]
    simp only [if_true]
    rw [reset_markBy]
    obtain ⟨v, hvfind⟩ := hRes t (hR.subset ht) i hi
    have hvu : u = v := by
      refine List.inj_on_of_nodup_map hUk hu (List.mem_of_find?_eq_some hvfind) ?_
      have hvp : spendPred i v = true := List.find?_some hvfind
      unfold spendPred at hvp
      rw [Bool.and_eq_true] at hvp
      rw [hk, keyMatches_iff.mp hvp.1]
    have huns : u.isSpent = false := by
      rw [hvu]
      have hvp : spendPred i v = true := List.find?_some hvfind
      unfold spendPred at hvp
      rw [Bool.and_eq_true] at hvp
      cases hvs : v.isSpent
      · rfl
      · rw [hvs] at hvp
        cases hvp.2
    have hnone : u.spentInTx = none := hFlag u hu huns
    rw [reset_eq_self huns hnone]
    refine (markBy_eq_self_of_not_mem ?_).symm
    intro hmem
    rcases List.mem_map.mp hmem with ⟨p, hp, hpk⟩
    rcases mem_refsOf.mp hp with ⟨q, hq, j, hj, rfl⟩
    rw [List.mem_filter] at hq
    have hqne : q.id ≠ t.id := by
      have := hq.2
      simp at this
      exact this
    have hpR : ((j, q.id) : Input × String) ∈ refsOf R :=
      mem_refsOf.mpr ⟨q, hq.1, j, hj, rfl⟩
    have hiR : ((i, t.id) : Input × String) ∈ refsOf R :=
      mem_refsOf.mpr ⟨t, ht, i, hi, rfl⟩
    have : ((j, q.id) : Input × String) = (i, t.id) := by
      refine assoc_inj hRσ hpR hiR ?_
      show inputKey j = inputKey i
      exact hpk.trans hk
    have := congrArg Prod.snd this
    exact hqne this
  · have hcont : (W.map utxoKey).contains (utxoKey (markBy (refsOf R) u)) = false := by
      rw [markBy_key]
      cases hc : (W.map utxoKey).contains (utxoKey u)
      · rfl
      · exfalso
        exact hmarked (hkeyW.mp (List.elem_iff.mp hc))
    unfold unmarkBy
    rw [hcont]
    simp only [Bool.false_eq_true, if_false]
    cases hf : (refsOf R).find? (fun p => keyMatches p.1 u) with
    | some p =>
        have hmark1 : markBy (refsOf R) u = markSpent p.2 u := by
          unfold markBy
          rw [hf]
        rcases mem_refsOf.mp (List.mem_of_find?_eq_some hf) with ⟨q, hq, j, hj, rfl⟩
        have hqne : q.id ≠ t.id := by
          intro hc
          apply hmarked
          rw [hmark1]
          show some q.id = some t.id
          rw [hc]
        have hpR2 : ((j, q.id) : Input × String) ∈
            refsOf (R.filter (fun q => !(q.id == t.id))) := by
          refine mem_refsOf.mpr ⟨q, ?_, j, hj, rfl⟩
          rw [List.mem_filter]
          exact ⟨hq, by simp [hqne]⟩
        have hkm2 : keyMatches ((j, q.id) : Input × String).1 u = true := by
          have h2 := List.find?_some hf
          exact h2
        have hf2 := find?_assoc_of_mem hRσ2 hpR2 (u := u) hkm2
        rw [hmark1]
        unfold markBy
        rw [hf2]
    | none =>
        have hmark1 : markBy (refsOf R) u = u := by
          unfold markBy
          rw [hf]
        have hf2 : (refsOf (R.filter (fun q => !(q.id == t.id)))).find?
            (fun p => keyMatches p.1 u) = none := by
          rw [List.find?_eq_none] at hf ⊢
          intro p hp
          refine hf p ?_
          rcases mem_refsOf.mp hp with ⟨q, hq, j, hj, rfl⟩
          rw [List.mem_filter] at hq
          exact mem_refsOf.mpr ⟨q, hq.1, j, hj, rfl⟩
        rw [hmark1]
        conv_rhs => unfold markBy
        rw [hf2]

theorem newRowsOf_spent_none {ts : List Transaction} {h : Int} :
    ∀ r ∈ newRowsOf ts h, r.spentInTx = none ∧ r.isSpent = false := by
  intro r hr
  unfold newRowsOf at hr
  rcases List.mem_flatMap.mp hr with ⟨t, h2, hrm⟩
  exact mkOutputRows_spentInTx r hrm

theorem rollbackTransaction_mid {db s : DB} {b : Block} {ts R : List Transaction}
    {t : Transaction}
    (hUk : (db.utxos.map utxoKey).Nodup)
    (hUtx : ∀ u ∈ db.utxos, u.txId ∈ db.transactions.map TxRow.id)
    (hSp : ∀ u ∈ db.utxos, ∀ x, u.spentInTx = some x → x ∈ db.transactions.map TxRow.id)
    (hFlag : ∀ u ∈ db.utxos, u.isSpent = false → u.spentInTx = none)
    (hFresh : ∀ q ∈ ts, q.id ∉ db.transactions.map TxRow.id)
    (hTsnd : (ts.map Transaction.id).Nodup)
    (hRes : ∀ q ∈ ts, ∀ i ∈ q.inputs, ∃ u, db.utxos.find? (spendPred i) = some u)
    (hAσ : (assocKeys (refsOf ts)).Nodup)
    (hR : R.Sublist ts) (ht : t ∈ R)
    (hsT : s.transactions = db.transactions ++ R.map (txRowOf b))
    (hsU : s.utxos = db.utxos.map (markBy (refsOf R)) ++ newRowsOf R b.height) :
    (rollbackTransaction s t.id).blocks = s.blocks ∧
    (rollbackTransaction s t.id).transactions =
      db.transactions ++ (R.filter (fun q => !(q.id == t.id))).map (txRowOf b) ∧
    (rollbackTransaction s t.id).utxos =
      db.utxos.map (markBy (refsOf (R.filter (fun q => !(q.id == t.id))))) ++
        newRowsOf (R.filter (fun q => !(q.id == t.id))) b.height ∧
    ∀ a, getAddressBalance (rollbackTransaction s t.id) a =
      getAddressBalance s a - outSumTo t a + inSumFrom db t a := by
  have htts : t ∈ ts := hR.subset ht
  have hfreshT : t.id ∉ db.transactions.map TxRow.id := hFresh t htts
  have hRnd : (R.map Transaction.id).Nodup := hTsnd.sublist (hR.map _)
  have hsingle : ([t] : List Transaction).Sublist ts := List.singleton_sublist.mpr htts
  have hLk : (t.inputs.map inputKey).Nodup := by
    have hLk0 := hAσ.sublist (assocKeys_sublist hsingle)
    have he : assocKeys (refsOf [t]) = t.inputs.map inputKey := by
      unfold assocKeys refsOf
      rw [List.flatMap_cons, List.flatMap_nil, List.append_nil, List.map_map]
      rfl
    rw [he] at hLk0
    exact hLk0
  have hfil1 : s.utxos.filter (fun u => u.txId == t.id) =
      mkOutputRows t.id 0 t.outputs b.height := by
    rw [hsU, List.filter_append]
    have hmap : (db.utxos.map (markBy (refsOf R))).filter (fun u => u.txId == t.id) = [] := by
      rw [List.filter_eq_nil_iff]
      intro r hr
      rcases List.mem_map.mp hr with ⟨u, hu, rfl⟩
      rw [markBy_txId, beq_iff_eq]
      intro hc
      exact hfreshT (hc ▸ hUtx u hu)
    rw [hmap, List.nil_append, newRowsOf_filter_eq hRnd ht]
  have hstep1 : subtractOutputs s t.id =
      (mkOutputRows t.id 0 t.outputs b.height).foldl
        (fun d o => updateAddressBalance d o.address (-o.value)) s := by
    unfold subtractOutputs
    rw [hfil1]
  have hs1U : (subtractOutputs s t.id).utxos = s.utxos := by
    rw [hstep1, foldUpdNeg_utxos]
  have hs1T : (subtractOutputs s t.id).transactions = s.transactions := by
    rw [hstep1, foldUpdNeg_transactions]
  have hs1B : (subtractOutputs s t.id).blocks = s.blocks := by
    rw [hstep1, foldUpdNeg_blocks]
  have hs1bal : ∀ a, getAddressBalance (subtractOutputs s t.id) a =
      getAddressBalance s a - outSumTo t a := by
    intro a
    rw [hstep1, foldUpdNeg_bal, sumAddr_mkOutputRows]
    rfl
  have hfil2 : s.utxos.filter (fun u => !(u.txId == t.id)) =
      db.utxos.map (markBy (refsOf R)) ++
        newRowsOf (R.filter (fun q => !(q.id == t.id))) b.height := by
    rw [hsU, List.filter_append, newRowsOf_filter_ne]
    congr 1
    refine List.filter_eq_self.mpr ?_
    intro r hr
    rcases List.mem_map.mp hr with ⟨u, hu, rfl⟩
    have hne : u.txId ≠ t.id := by
      intro hc
      exact hfreshT (hc ▸ hUtx u hu)
    rw [markBy_txId]
    simp [hne]
  have h2U : (deleteTxUtxos (subtractOutputs s t.id) t.id).utxos =
      db.utxos.map (markBy (refsOf R)) ++
        newRowsOf (R.filter (fun q => !(q.id == t.id))) b.height := by
    show (subtractOutputs s t.id).utxos.filter (fun u => !(u.txId == t.id)) = _
    rw [hs1U]
    exact hfil2
  have hnews : (newRowsOf (R.filter (fun q => !(q.id == t.id))) b.height).filter
      (fun u => u.spentInTx == some t.id) = [] := by
    rw [List.filter_eq_nil_iff]
    intro r hr
    rw [(newRowsOf_spent_none r hr).1]
    simp
  have hWfil : (deleteTxUtxos (subtractOutputs s t.id) t.id).utxos.filter
      (fun u => u.spentInTx == some t.id) =
      (db.utxos.map (markBy (refsOf R))).filter (fun u => u.spentInTx == some t.id) := by
    rw [h2U, List.filter_append, hnews, List.append_nil]
  have hstep3 : restoreSpentInputs (deleteTxUtxos (subtractOutputs s t.id) t.id) t.id =
      ((db.utxos.map (markBy (refsOf R))).filter
        (fun u => u.spentInTx == some t.id)).foldl unspendRow
        (deleteTxUtxos (subtractOutputs s t.id) t.id) := by
    unfold restoreSpentInputs
    rw [hWfil]
  have hnewskeep : ∀ r ∈ newRowsOf (R.filter (fun q => !(q.id == t.id))) b.height,
      unmarkBy (((db.utxos.map (markBy (refsOf R))).filter
        (fun u => u.spentInTx == some t.id)).map utxoKey) r = r := by
    intro r hr
    have hrt : r.txId ∈ (R.filter (fun q => !(q.id == t.id))).map Transaction.id :=
      newRowsOf_txId r hr
    have hfr : r.txId ∉ db.transactions.map TxRow.id := by
      rcases List.mem_map.mp hrt with ⟨q, hq, hqid⟩
      rw [← hqid]
      exact hFresh q (hR.subset (List.mem_of_mem_filter hq))
    have hc : (((db.utxos.map (markBy (refsOf R))).filter
        (fun u => u.spentInTx == some t.id)).map utxoKey).contains (utxoKey r) = false := by
      cases hcc : (((db.utxos.map (markBy (refsOf R))).filter
          (fun u => u.spentInTx == some t.id)).map utxoKey).contains (utxoKey r)
      · rfl
      · exfalso
        have hmem : utxoKey r ∈ ((db.utxos.map (markBy (refsOf R))).filter
            (fun u => u.spentInTx == some t.id)).map utxoKey := List.elem_iff.mp hcc
        rcases List.mem_map.mp hmem with ⟨w, hwW, hwk⟩
        have hwm := (List.mem_filter.mp hwW).1
        rcases List.mem_map.mp hwm with ⟨u, hu, rfl⟩
        have hku : utxoKey u = utxoKey r := by
          rw [← markBy_key (refsOf R) u, hwk]
        have htx : u.txId = r.txId := congrArg Prod.fst hku
        exact hfr (htx ▸ hUtx u hu)
    unfold unmarkBy
    rw [hc]
    simp only [Bool.false_eq_true, if_false]
  have h3U : (restoreSpentInputs (deleteTxUtxos (subtractOutputs s t.id) t.id) t.id).utxos =
      db.utxos.map (markBy (refsOf (R.filter (fun q => !(q.id == t.id))))) ++
        newRowsOf (R.filter (fun q => !(q.id == t.id))) b.height := by
    rw [hstep3, foldUnspend_utxos, h2U, List.map_append, List.map_map]
    congr 1
    · refine List.map_congr_left ?_
      intro u hu
      exact unmark_row_final hUk hSp hFlag hFresh hTsnd hRes hAσ hR ht rfl hu
    · refine (List.map_congr_left ?_).trans (List.map_id _)
      intro r hr
      exact hnewskeep r hr
  have h3T : (restoreSpentInputs (deleteTxUtxos (subtractOutputs s t.id) t.id)
      t.id).transactions = db.transactions ++ R.map (txRowOf b) := by
    rw [hstep3, foldUnspend_transactions]
    show (subtractOutputs s t.id).transactions = _
    rw [hs1T, hsT]
  have hsumW : ∀ a, sumAddr ((db.utxos.map (markBy (refsOf R))).filter
      (fun u => u.spentInTx == some t.id)) a = inSumFrom db t a := by
    intro a
    have hWmark : (db.utxos.map (markBy (refsOf R))).filter
        (fun u => u.spentInTx == some t.id) =
        (db.utxos.filter (fun u => t.inputs.any (fun i => keyMatches i u))).map
          (markBy (refsOf R)) := by
      rw [List.filter_map]
      refine congrArg (List.map (markBy (refsOf R))) ?_
      refine List.filter_congr ?_
      intro u hu
      show ((markBy (refsOf R) u).spentInTx == some t.id) =
        t.inputs.any (fun i => keyMatches i u)
      refine Bool.eq_iff_iff.mpr ?_
      rw [beq_iff_eq, List.any_eq_true]
      constructor
      · intro hm
        rcases (marked_spentInTx_iff hSp hFresh hTsnd hAσ hR ht hu).mp hm with ⟨i, hi, hk⟩
        exact ⟨i, hi, keyMatches_iff.mpr hk⟩
      · rintro ⟨i, hi, hk⟩
        exact (marked_spentInTx_iff hSp hFresh hTsnd hAσ hR ht hu).mpr
          ⟨i, hi, keyMatches_iff.mp hk⟩
    rw [hWmark, sumAddr_map_markBy]
    exact sumAddr_marked_eq_inSum hUk (hRes t htts) hLk a
  refine ⟨?_, ?_, ?_, ?_⟩
  · show (restoreSpentInputs (deleteTxUtxos (subtractOutputs s t.id) t.id) t.id).blocks =
      s.blocks
    rw [hstep3, foldUnspend_blocks]
    show (subtractOutputs s t.id).blocks = _
    exact hs1B
  · show (restoreSpentInputs (deleteTxUtxos (subtractOutputs s t.id) t.id)
        t.id).transactions.filter (fun r => !(r.id == t.id)) = _
    rw [h3T, List.filter_append, List.filter_map]
    congr 1
    refine List.filter_eq_self.mpr ?_
    intro r hr
    have hrid : r.id ∈ db.transactions.map TxRow.id := List.mem_map_of_mem _ hr
    have hne : r.id ≠ t.id := fun hc => hfreshT (hc ▸ hrid)
    simp [hne]
  · exact h3U
  · intro a
    have hfin : getAddressBalance (rollbackTransaction s t.id) a =
        getAddressBalance (restoreSpentInputs (deleteTxUtxos (subtractOutputs s t.id) t.id)
          t.id) a := rfl
    rw [hfin, hstep3, foldUnspend_bal, hsumW]
    have h2b : getAddressBalance (deleteTxUtxos (subtractOutputs s t.id) t.id) a =
        getAddressBalance s a - outSumTo t a := by
      show getAddressBalance (subtractOutputs s t.id) a = _
      exact hs1bal a
    rw [h2b]

theorem sumInt_perm {l l2 : List Int} (h : l.Perm l2) : sumInt l = sumInt l2 := by
  induction h with
  | nil => rfl
  | cons x h ih => rw [sumInt_cons, sumInt_cons, ih]
  | swap x y l => rw [sumInt_cons, sumInt_cons, sumInt_cons, sumInt_cons]; ring
  | trans h1 h2 ih1 ih2 => rw [ih1, ih2]

theorem perm_cons_filter_ne {R : List Transaction} {t : Transaction}
    (hRnd : (R.map Transaction.id).Nodup) (ht : t ∈ R) :
    R.Perm (t :: R.filter (fun q => !(q.id == t.id))) := by
  have hRd : R.Nodup := hRnd.of_map
  have h2 : R.erase t = R.filter (fun q => !(q.id == t.id)) := by
    rw [hRd.erase_eq_filter]
    refine List.filter_congr ?_
    intro q hq
    show (q != t) = !(q.id == t.id)
    refine Bool.eq_iff_iff.mpr ?_
    rw [bne_iff_ne, Bool.not_eq_true', beq_eq_false_iff_ne]
    constructor
    · intro hne hc
      exact hne (List.inj_on_of_nodup_map hRnd hq ht hc)
    · intro hne hc
      exact hne (congrArg Transaction.id hc)
  rw [← h2]
  exact List.perm_cons_erase ht

theorem deltaOf_erase {db : DB} {R : List Transaction} {t : Transaction}
    (hRnd : (R.map Transaction.id).Nodup) (ht : t ∈ R) (a : String) :
    deltaOf db R a = (outSumTo t a - inSumFrom db t a) +
      deltaOf db (R.filter (fun q => !(q.id == t.id))) a := by
  unfold deltaOf
  rw [sumInt_perm ((perm_cons_filter_ne hRnd ht).map _), List.map_cons, sumInt_cons]

theorem rollbackTxList_mid {db : DB} {b : Block} {ts : List Transaction}
    (hUk : (db.utxos.map utxoKey).Nodup)
    (hUtx : ∀ u ∈ db.utxos, u.txId ∈ db.transactions.map TxRow.id)
    (hSp : ∀ u ∈ db.utxos, ∀ x, u.spentInTx = some x → x ∈ db.transactions.map TxRow.id)
    (hFlag : ∀ u ∈ db.utxos, u.isSpent = false → u.spentInTx = none)
    (hFresh : ∀ q ∈ ts, q.id ∉ db.transactions.map TxRow.id)
    (hTsnd : (ts.map Transaction.id).Nodup)
    (hRes : ∀ q ∈ ts, ∀ i ∈ q.inputs, ∃ u, db.utxos.find? (spendPred i) = some u)
    (hAσ : (assocKeys (refsOf ts)).Nodup) :
    ∀ (L : List String) (R : List Transaction) (s : DB),
      R.Sublist ts →
      L.Perm (R.map Transaction.id) →
      s.transactions = db.transactions ++ R.map (txRowOf b) →
      s.utxos = db.utxos.map (markBy (refsOf R)) ++ newRowsOf R b.height →
      (rollbackTxList s L).blocks = s.blocks ∧
      (rollbackTxList s L).transactions = db.transactions ∧
      (rollbackTxList s L).utxos = db.utxos ∧
      ∀ a, getAddressBalance (rollbackTxList s L) a = getAddressBalance s a - deltaOf db R a
  | [], R, s, hR, hperm, hsT, hsU => by
      have hRnil : R = [] := List.map_eq_nil_iff.mp hperm.symm.eq_nil
      subst hRnil
      refine ⟨rfl, ?_, ?_, ?_⟩
      · show s.transactions = db.transactions
        rw [hsT, List.map_nil, List.append_nil]
      · show s.utxos = db.utxos
        rw [hsU]
        show db.utxos.map (markBy []) ++ [] = db.utxos
        rw [List.append_nil]
        refine (List.map_congr_left ?_).trans (List.map_id _)
        intro u hu
        rfl
      · intro a
        show getAddressBalance s a = getAddressBalance s a - deltaOf db [] a
        show getAddressBalance s a = getAddressBalance s a - 0
        ring
  | tid :: rest, R, s, hR, hperm, hsT, hsU => by
      have hRnd : (R.map Transaction.id).Nodup := hTsnd.sublist (hR.map _)
      have hmem : tid ∈ R.map Transaction.id := hperm.subset (List.mem_cons_self tid rest)
      rcases List.mem_map.mp hmem with ⟨t, ht, rfl⟩
      have hmid := rollbackTransaction_mid (b := b) hUk hUtx hSp hFlag hFresh hTsnd hRes hAσ
        hR ht hsT hsU
      have hRfil : (R.filter (fun q => !(q.id == t.id))).Sublist ts :=
        (List.filter_sublist R).trans hR
      have hrest : rest.Perm ((R.filter (fun q => !(q.id == t.id))).map Transaction.id) := by
        have h1 := (List.cons_perm_iff_perm_erase.mp hperm).2
        have h2 : (R.map Transaction.id).erase t.id =
            (R.filter (fun q => !(q.id == t.id))).map Transaction.id := by
          rw [hRnd.erase_eq_filter, List.filter_map]
          refine congrArg (List.map Transaction.id) (List.filter_congr ?_)
          intro q hq
          rfl
        rw [← h2]
        exact h1
      have hih := rollbackTxList_mid hUk hUtx hSp hFlag hFresh hTsnd hRes hAσ rest
        (R.filter (fun q => !(q.id == t.id))) (rollbackTransaction s t.id)
        hRfil hrest hmid.2.1 hmid.2.2.1
      refine ⟨?_, hih.2.1, hih.2.2.1, ?_⟩
      · show (rollbackTxList (rollbackTransaction s t.id) rest).blocks = s.blocks
        rw [hih.1, hmid.1]
      · intro a
        show getAddressBalance (rollbackTxList (rollbackTransaction s t.id) rest) a = _
        rw [hih.2.2.2 a, hmid.2.2.2 a, deltaOf_erase hRnd ht a]
        ring

theorem undoTxIds_perm {db s : DB} {b : Block} {R : List Transaction}
    (hTB : ∀ r ∈ db.transactions, r.blockId ≠ b.id)
    (hsT : s.transactions = db.transactions ++ R.map (txRowOf b)) :
    (undoTxIds s b.id).Perm (R.map Transaction.id) := by
  have h1 : db.transactions.filter (fun r => r.blockId == b.id) = [] := by
    rw [List.filter_eq_nil_iff]
    intro r hr
    simp [hTB r hr]
  have h2 : (R.map (txRowOf b)).filter (fun r => r.blockId == b.id) = R.map (txRowOf b) := by
    refine List.filter_eq_self.mpr ?_
    intro r hr
    rcases List.mem_map.mp hr with ⟨t, ht2, rfl⟩
    simp [txRowOf]
  have heq : (s.transactions.filter (fun r => r.blockId == b.id)).map (fun r => r.id) =
      R.map Transaction.id := by
    rw [hsT, List.filter_append, h1, List.nil_append, h2, List.map_map]
    exact List.map_congr_left (fun t _ => rfl)
  unfold undoTxIds
  rw [heq]
  exact sortAsc_perm _

theorem rollbackBlock_char {db s : DB} {b : Block}
    (hUk : (db.utxos.map utxoKey).Nodup)
    (hUtx : ∀ u ∈ db.utxos, u.txId ∈ db.transactions.map TxRow.id)
    (hSp : ∀ u ∈ db.utxos, ∀ x, u.spentInTx = some x → x ∈ db.transactions.map TxRow.id)
    (hFlag : ∀ u ∈ db.utxos, u.isSpent = false → u.spentInTx = none)
    (hFresh : ∀ q ∈ b.transactions, q.id ∉ db.transactions.map TxRow.id)
    (hTsnd : (b.transactions.map Transaction.id).Nodup)
    (hRes : ∀ q ∈ b.transactions, ∀ i ∈ q.inputs, ∃ u, db.utxos.find? (spendPred i) = some u)
    (hAσ : (assocKeys (refsOf b.transactions)).Nodup)
    (hTB : ∀ r ∈ db.transactions, r.blockId ≠ b.id)
    (hsT : s.transactions = db.transactions ++ b.transactions.map (txRowOf b))
    (hsU : s.utxos = db.utxos.map (markBy (refsOf b.transactions)) ++
      newRowsOf b.transactions b.height) :
    (rollbackBlock s b.id).blocks = s.blocks ∧
    (rollbackBlock s b.id).transactions = db.transactions ∧
    (rollbackBlock s b.id).utxos = db.utxos ∧
    ∀ a, getAddressBalance (rollbackBlock s b.id) a =
      getAddressBalance s a - deltaOf db b.transactions a := by
  exact rollbackTxList_mid hUk hUtx hSp hFlag hFresh hTsnd hRes hAσ
    (undoTxIds s b.id) b.transactions s (List.Sublist.refl _)
    (undoTxIds_perm hTB hsT) hsT hsU

theorem rollbackBlockList_cons (d : DB) (blk : BlockRow) (rest : List BlockRow) :
    rollbackBlockList d (blk :: rest) = rollbackBlockList (rollbackBlock d blk.id) rest := rfl

theorem wf_utxoTxIds {db : DB} (wf : Wf db) :
    ∀ u ∈ db.utxos, u.txId ∈ db.transactions.map TxRow.id := by
  intro u hu
  rcases wf.utxoTxLink u hu with ⟨t, ht, h1, _⟩
  rw [h1]
  exact List.mem_map_of_mem _ ht

theorem wf_spenderIds {db : DB} (wf : Wf db) :
    ∀ u ∈ db.utxos, ∀ x, u.spentInTx = some x → x ∈ db.transactions.map TxRow.id := by
  intro u hu x hx
  rcases wf.spenderLink u hu x hx with ⟨t, ht, h1, _⟩
  rw [h1]
  exact List.mem_map_of_mem _ ht

theorem rollback_absorb {db db' : DB} {b : Block} {k : Int} (wf : Wf db)
    (hok : submitBlock db b = .ok db') (hk : k ≤ currentMaxHeight db) :
    SimEq (rollbackToHeight db' k) (rollbackToHeight db k) := by
  obtain ⟨hval, hproc⟩ := submitBlock_ok_parts hok
  have hUtx := wf_utxoTxIds wf
  have hSp := wf_spenderIds wf
  have hFlag : ∀ u ∈ db.utxos, u.isSpent = false → u.spentInTx = none :=
    fun u hu => (wf.spentFlag u hu).mpr
  obtain ⟨hb3, ht3, hu3, hbal3, hσ3, hfr3, hnd3, hkey3, hbid, hbh, hres3⟩ :=
    processBlock_char wf.utxoKeysNodup hUtx hval hproc
  have hheight : b.height = currentMaxHeight db + 1 := (validateBlock_ok_parts hval).1
  have hkb : k < b.height := by omega
  have hTB : ∀ r ∈ db.transactions, r.blockId ≠ b.id := by
    intro r hr hc
    rcases wf.txBlockLink r hr with ⟨br, hbr, h1, _⟩
    rw [hc] at h1
    rw [h1] at hbid
    exact hbid (List.mem_map_of_mem _ hbr)
  have habs := rollbackBlock_char wf.utxoKeysNodup hUtx hSp hFlag hfr3 hnd3 hres3 hσ3
    hTB ht3 hu3
  have hlt : ∀ r ∈ db.blocks, r.height < b.height := by
    intro r hr
    have := height_le_currentMaxHeight db r hr
    omega
  have hfilb : db'.blocks.filter (fun r => decide (k < r.height)) =
      db.blocks.filter (fun r => decide (k < r.height)) ++
        [({ id := b.id, height := b.height } : BlockRow)] := by
    rw [hb3, List.filter_append]
    congr 1
    rw [List.filter_cons_of_pos (by simp [hkb])]
    rfl
  have hbtr : blocksToRemove db' k =
      ({ id := b.id, height := b.height } : BlockRow) :: blocksToRemove db k := by
    unfold blocksToRemove
    rw [hfilb, sortBlocksDesc_append_max ?hl2]
    case hl2 =>
      intro y hy
      exact hlt y (List.mem_of_mem_filter hy)
  have hcore : CoreSim (rollbackBlock db' b.id) db := by
    refine ⟨habs.2.1, habs.2.2.1, ?_⟩
    intro a
    rw [habs.2.2.2 a, hbal3 a]
    ring
  have hcore2 : CoreSim
      (rollbackBlockList (rollbackBlock db' b.id) (blocksToRemove db k))
      (rollbackBlockList db (blocksToRemove db k)) := rollbackBlockList_coreSim hcore
  have hrw : rollbackBlockList db' (blocksToRemove db' k) =
      rollbackBlockList (rollbackBlock db' b.id) (blocksToRemove db k) := by
    rw [hbtr, rollbackBlockList_cons]
  refine ⟨?_, ?_, ?_, ?_⟩
  · show (rollbackBlockList db' (blocksToRemove db' k)).blocks.filter
        (fun r => !decide (k < r.height)) =
      (rollbackBlockList db (blocksToRemove db k)).blocks.filter
        (fun r => !decide (k < r.height))
    rw [rollbackBlockList_blocks, rollbackBlockList_blocks, hb3, List.filter_append,
      List.filter_cons_of_neg (by simp [hkb])]
    rw [show List.filter (fun r => !decide (k < r.height)) ([] : List BlockRow) = []
      from rfl, List.append_nil]
  · show (rollbackBlockList db' (blocksToRemove db' k)).transactions =
      (rollbackBlockList db (blocksToRemove db k)).transactions
    rw [hrw]
    exact hcore2.transactions
  · show (rollbackBlockList db' (blocksToRemove db' k)).utxos =
      (rollbackBlockList db (blocksToRemove db k)).utxos
    rw [hrw]
    exact hcore2.utxos
  · intro a
    show getAddressBalance (rollbackBlockList db' (blocksToRemove db' k)) a =
      getAddressBalance (rollbackBlockList db (blocksToRemove db k)) a
    rw [hrw]
    exact hcore2.balances a

theorem mkOutputRows_blockHeight {tid : String} {idx : Int} {outs : List Output} {h : Int} :
    ∀ r ∈ mkOutputRows tid idx outs h, r.blockHeight = h := by
  induction outs generalizing idx with
  | nil => intro r hr; cases hr
  | cons o rest ih =>
      intro r hr
      unfold mkOutputRows at hr
      rcases List.mem_cons.mp hr with rfl | hr2
      · rfl
      · exact ih r hr2

theorem newRowsOf_blockHeight {ts : List Transaction} {h : Int} :
    ∀ r ∈ newRowsOf ts h, r.blockHeight = h := by
  intro r hr
  unfold newRowsOf at hr
  rcases List.mem_flatMap.mp hr with ⟨t, h2, hrm⟩
  exact mkOutputRows_blockHeight r hrm

theorem sumAddr_append (l1 l2 : List UTXORow) (a : String) :
    sumAddr (l1 ++ l2) a = sumAddr l1 a + sumAddr l2 a := by
  unfold sumAddr
  rw [List.filter_append, List.map_append, sumInt_append]

theorem inSumU_append (rows : List UTXORow) (L1 L2 : List Input) (a : String) :
    inSumU rows (L1 ++ L2) a = inSumU rows L1 a + inSumU rows L2 a := by
  unfold inSumU
  rw [List.filterMap_append, List.filterMap_append, sumInt_append]

theorem inSumU_nil2 (rows : List UTXORow) (a : String) : inSumU rows [] a = 0 := rfl

theorem fst_refs_single (t : Transaction) :
    (t.inputs.map (fun i => (i, t.id))).map Prod.fst = t.inputs := by
  rw [List.map_map]
  exact (List.map_congr_left (fun i _ => rfl)).trans (List.map_id _)

theorem deltaOf_split (db : DB) (ts : List Transaction) (h : Int) (a : String) :
    deltaOf db ts a = sumAddr (newRowsOf ts h) a -
      inSumU db.utxos ((refsOf ts).map Prod.fst) a := by
  induction ts with
  | nil =>
      show (0 : Int) = sumAddr [] a - inSumU db.utxos [] a
      rw [sumAddr_nil, inSumU_nil2]
      ring
  | cons t rest ih =>
      have h1 : deltaOf db (t :: rest) a =
          (outSumTo t a - inSumFrom db t a) + deltaOf db rest a := by
        unfold deltaOf
        rw [List.map_cons, sumInt_cons]
      have h2 : newRowsOf (t :: rest) h = mkOutputRows t.id 0 t.outputs h ++ newRowsOf rest h := by
        unfold newRowsOf
        rw [List.flatMap_cons]
      have h3 : (refsOf (t :: rest)).map Prod.fst = t.inputs ++ (refsOf rest).map Prod.fst := by
        unfold refsOf
        rw [List.flatMap_cons, List.map_append, fst_refs_single]
      rw [h1, ih, h2, h3, sumAddr_append, sumAddr_mkOutputRows, inSumU_append]
      have h4 : inSumFrom db t a = inSumU db.utxos t.inputs a := rfl
      have h5 : outSumTo t a = outSumList t.outputs a := rfl
      rw [h4, h5]
      ring

theorem sumUnspent_eq_sumAddr (db : DB) (a : String) :
    sumUnspent db a = sumAddr (db.utxos.filter (fun u => !u.isSpent)) a := by
  unfold sumUnspent sumAddr
  rw [List.filter_filter]

theorem currentMaxHeight_nonneg {db : DB} (hpos : ∀ r ∈ db.blocks, 1 ≤ r.height) :
    0 ≤ currentMaxHeight db := by
  rcases currentMaxHeight_mem_or_zero db with h0 | ⟨r, hr, he⟩
  · omega
  · have := hpos r hr
    omega

theorem currentMaxHeight_of_blocks {d : DB} {l : List BlockRow} {x : BlockRow}
    (hb : d.blocks = l ++ [x]) (hle : ∀ r ∈ l, r.height ≤ x.height) :
    currentMaxHeight d = x.height := by
  unfold currentMaxHeight
  rw [hb, List.map_append]
  cases hl : l.map (fun r => r.height) with
  | nil =>
      show List.foldl max x.height [] = x.height
      rfl
  | cons hh tt =>
      show (tt ++ [x.height]).foldl max hh = x.height
      rw [List.foldl_append]
      show max (tt.foldl max hh) x.height = x.height
      refine max_eq_right ?_
      have hmem : tt.foldl max hh ∈ hh :: tt := foldl_max_mem tt hh
      rw [← hl] at hmem
      rcases List.mem_map.mp hmem with ⟨r, hr, hrh⟩
      rw [← hrh]
      exact hle r hr

theorem sumUnspent_mid {db : DB} {ts : List Transaction} {h : Int}
    (hUk : (db.utxos.map utxoKey).Nodup)
    (hres : ∀ q ∈ ts, ∀ i ∈ q.inputs, ∃ u, db.utxos.find? (spendPred i) = some u)
    (hσ : (assocKeys (refsOf ts)).Nodup) (a : String) :
    sumAddr ((db.utxos.map (markBy (refsOf ts)) ++ newRowsOf ts h).filter
      (fun u => !u.isSpent)) a =
      sumAddr (db.utxos.filter (fun u => !u.isSpent)) a + deltaOf db ts a := by
  have hLkeys : ((refsOf ts).map Prod.fst).map inputKey = assocKeys (refsOf ts) := by
    rw [List.map_map]
    rfl
  have hLk : (((refsOf ts).map Prod.fst).map inputKey).Nodup := by
    rw [hLkeys]
    exact hσ
  have hresL : ∀ i ∈ (refsOf ts).map Prod.fst, ∃ u,
      db.utxos.find? (spendPred i) = some u := by
    intro i hi
    rcases List.mem_map.mp hi with ⟨p, hp, rfl⟩
    rcases mem_refsOf.mp hp with ⟨q, hq, j, hj, rfl⟩
    exact hres q hq j hj
  have hmarkedUnspent : ∀ u ∈ db.utxos,
      (refsOf ts).any (fun p => keyMatches p.1 u) = true → u.isSpent = false := by
    intro u hu hany
    rcases List.any_eq_true.mp hany with ⟨p, hp, hk⟩
    rcases mem_refsOf.mp hp with ⟨q, hq, j, hj, rfl⟩
    obtain ⟨v, hv⟩ := hres q hq j hj
    have hvp : spendPred j v = true := List.find?_some hv
    rw [spendPred, Bool.and_eq_true] at hvp
    have huv : u = v := by
      refine List.inj_on_of_nodup_map hUk hu (List.mem_of_find?_eq_some hv) ?_
      rw [keyMatches_iff.mp hk, keyMatches_iff.mp hvp.1]
    rw [huv]
    cases hvs : v.isSpent
    · rfl
    · rw [hvs] at hvp
      cases hvp.2
  have hnewsU : (newRowsOf ts h).filter (fun u => !u.isSpent) = newRowsOf ts h := by
    refine List.filter_eq_self.mpr ?_
    intro r hr
    rw [(newRowsOf_spent_none r hr).2]
    rfl
  have hstep3 : (db.utxos.map (markBy (refsOf ts))).filter (fun u => !u.isSpent) =
      (db.utxos.filter (fun u =>
        !u.isSpent && !((refsOf ts).any (fun p => keyMatches p.1 u)))).map
        (markBy (refsOf ts)) := by
    rw [List.filter_map]
    refine congrArg (List.map (markBy (refsOf ts))) (List.filter_congr ?_)
    intro u hu
    show (!(markBy (refsOf ts) u).isSpent) =
      (!u.isSpent && !((refsOf ts).any (fun p => keyMatches p.1 u)))
    cases hf : (refsOf ts).find? (fun p => keyMatches p.1 u) with
    | none =>
        have hmu : markBy (refsOf ts) u = u := by
          unfold markBy
          rw [hf]
        have hany : (refsOf ts).any (fun p => keyMatches p.1 u) = false := by
          rw [List.any_eq_false]
          intro p hp
          exact List.find?_eq_none.mp hf p hp
        rw [hmu, hany]
        cases u.isSpent <;> rfl
    | some p =>
        have hmu : markBy (refsOf ts) u = markSpent p.2 u := by
          unfold markBy
          rw [hf]
        have hany : (refsOf ts).any (fun p => keyMatches p.1 u) = true := by
          rw [List.any_eq_true]
          refine ⟨p, List.mem_of_find?_eq_some hf, ?_⟩
          have h2 := List.find?_some hf
          exact h2
        rw [hmu, hany]
        show (!(true : Bool)) = (!u.isSpent && !true)
        cases u.isSpent <;> rfl
  have hstep5 : (db.utxos.filter (fun u =>
      !u.isSpent && !((refsOf ts).any (fun p => keyMatches p.1 u)))).map
      (markBy (refsOf ts)) =
      db.utxos.filter (fun u =>
        !u.isSpent && !((refsOf ts).any (fun p => keyMatches p.1 u))) := by
    refine (List.map_congr_left ?_).trans (List.map_id _)
    intro u hu
    have hpred := (List.mem_filter.mp hu).2
    rw [Bool.and_eq_true] at hpred
    have hany : (refsOf ts).any (fun p => keyMatches p.1 u) = false := by
      cases ha : (refsOf ts).any (fun p => keyMatches p.1 u)
      · rfl
      · rw [ha] at hpred
        cases hpred.2
    refine markBy_eq_self_of_not_mem ?_
    intro hmem
    rcases List.mem_map.mp hmem with ⟨p, hp, hpk⟩
    rw [List.any_eq_false] at hany
    exact hany p hp (keyMatches_iff.mpr hpk.symm)
  have hpart : sumAddr (db.utxos.filter (fun u => !u.isSpent)) a =
      sumAddr (db.utxos.filter (fun u =>
        !u.isSpent && ((refsOf ts).any (fun p => keyMatches p.1 u)))) a +
      sumAddr (db.utxos.filter (fun u =>
        !u.isSpent && !((refsOf ts).any (fun p => keyMatches p.1 u)))) a := by
    have hdisj : ∀ u ∈ db.utxos,
        ¬((!u.isSpent && ((refsOf ts).any (fun p => keyMatches p.1 u))) = true ∧
          (!u.isSpent && !((refsOf ts).any (fun p => keyMatches p.1 u))) = true) := by
      intro u hu hc
      rcases hc with ⟨h1, h2⟩
      rw [Bool.and_eq_true] at h1 h2
      rw [h1.2] at h2
      cases h2.2
    have hcov : db.utxos.filter (fun u =>
        (!u.isSpent && ((refsOf ts).any (fun p => keyMatches p.1 u))) ||
        (!u.isSpent && !((refsOf ts).any (fun p => keyMatches p.1 u)))) =
        db.utxos.filter (fun u => !u.isSpent) := by
      refine List.filter_congr ?_
      intro u hu
      cases hs : u.isSpent <;> cases ha : (refsOf ts).any (fun p => keyMatches p.1 u) <;> rfl
    rw [← hcov]
    exact sumAddr_filter_disjoint hdisj a
  have hmarkfil : db.utxos.filter (fun u =>
      !u.isSpent && ((refsOf ts).any (fun p => keyMatches p.1 u))) =
      db.utxos.filter (fun u =>
        ((refsOf ts).map Prod.fst).any (fun i => keyMatches i u)) := by
    refine List.filter_congr ?_
    intro u hu
    have hany2 : ((refsOf ts).map Prod.fst).any (fun i => keyMatches i u) =
        (refsOf ts).any (fun p => keyMatches p.1 u) := by
      refine Bool.eq_iff_iff.mpr ?_
      rw [List.any_eq_true, List.any_eq_true]
      constructor
      · rintro ⟨i, hi, hk⟩
        rcases List.mem_map.mp hi with ⟨p, hp, rfl⟩
        exact ⟨p, hp, hk⟩
      · rintro ⟨p, hp, hk⟩
        exact ⟨p.1, List.mem_map_of_mem _ hp, hk⟩
    rw [hany2]
    cases ha : (refsOf ts).any (fun p => keyMatches p.1 u)
    · cases u.isSpent <;> rfl
    · rw [hmarkedUnspent u hu ha]
      rfl
  have hin := sumAddr_marked_eq_inSum hUk hresL hLk a
  rw [List.filter_append, sumAddr_append, hnewsU, hstep3, hstep5, hpart, hmarkfil, hin,
    deltaOf_split db ts h a]
  ring

theorem wf_submitBlock {db db' : DB} {b : Block} (wf : Wf db)
    (hok : submitBlock db b = .ok db') : Wf db' := by
  obtain ⟨hval, hproc⟩ := submitBlock_ok_parts hok
  have hUtx := wf_utxoTxIds wf
  obtain ⟨hb3, ht3, hu3, hbal3, hσ3, hfr3, hnd3, hkey3, hbid, hbh, hres3⟩ :=
    processBlock_char wf.utxoKeysNodup hUtx hval hproc
  have hheight : b.height = currentMaxHeight db + 1 := (validateBlock_ok_parts hval).1
  have hcm0 : 0 ≤ currentMaxHeight db := currentMaxHeight_nonneg wf.heightsPos
  have hbgt : ∀ r ∈ db.blocks, r.height < b.height := by
    intro r hr
    have := height_le_currentMaxHeight db r hr
    omega
  refine ⟨?_, ?_, ?_, ?_, ?_, hkey3, ?_, ?_, ?_, ?_⟩
  · rw [hb3, List.map_append]
    exact nodup_append_singleton hbid wf.blockIdsNodup
  · rw [hb3, List.map_append]
    exact nodup_append_singleton hbh wf.heightsNodup
  · intro r hr
    rw [hb3] at hr
    rcases List.mem_append.mp hr with hl | hrr
    · exact wf.heightsPos r hl
    · rcases List.mem_singleton.mp hrr with rfl
      show 1 ≤ b.height
      omega
  · rw [ht3, List.map_append, List.map_map]
    have he : b.transactions.map (TxRow.id ∘ txRowOf b) = b.transactions.map Transaction.id :=
      List.map_congr_left (fun t _ => rfl)
    rw [he]
    refine wf.txIdsNodup.append hnd3 ?_
    intro x hx1 hx2
    rcases List.mem_map.mp hx2 with ⟨t, ht, rfl⟩
    exact hfr3 t ht hx1
  · intro t ht
    rw [ht3] at ht
    rw [hb3]
    rcases List.mem_append.mp ht with hl | hrr
    · rcases wf.txBlockLink t hl with ⟨r, hr, h1, h2⟩
      exact ⟨r, List.mem_append_left _ hr, h1, h2⟩
    · rcases List.mem_map.mp hrr with ⟨q, hq, rfl⟩
      exact ⟨{ id := b.id, height := b.height },
        List.mem_append_right _ (List.mem_singleton.mpr rfl), rfl, rfl⟩
  · intro u hu
    rw [hu3] at hu
    rw [ht3]
    rcases List.mem_append.mp hu with hl | hrr
    · rcases List.mem_map.mp hl with ⟨v, hv, rfl⟩
      rcases wf.utxoTxLink v hv with ⟨t0, ht0, h1, h2⟩
      refine ⟨t0, List.mem_append_left _ ht0, ?_, ?_⟩
      · rw [markBy_txId]
        exact h1
      · rw [markBy_blockHeight]
        exact h2
    · rcases List.mem_flatMap.mp hrr with ⟨q, hq, hum⟩
      refine ⟨txRowOf b q, List.mem_append_right _ (List.mem_map_of_mem _ hq), ?_, ?_⟩
      · exact mkOutputRows_txId u hum
      · exact mkOutputRows_blockHeight u hum
  · intro u hu
    rw [hu3] at hu
    rcases List.mem_append.mp hu with hl | hrr
    · rcases List.mem_map.mp hl with ⟨v, hv, rfl⟩
      cases hf : (refsOf b.transactions).find? (fun p => keyMatches p.1 v) with
      | none =>
          have hmu : markBy (refsOf b.transactions) v = v := by
            unfold markBy
            rw [hf]
          rw [hmu]
          exact wf.spentFlag v hv
      | some p =>
          have hmu : markBy (refsOf b.transactions) v = markSpent p.2 v := by
            unfold markBy
            rw [hf]
          rw [hmu]
          simp [markSpent]
    · have h1 := (newRowsOf_spent_none u hrr).1
      have h2 := (newRowsOf_spent_none u hrr).2
      rw [h1, h2]
      simp
  · intro u hu s hs
    rw [hu3] at hu
    rw [ht3]
    rcases List.mem_append.mp hu with hl | hrr
    · rcases List.mem_map.mp hl with ⟨v, hv, rfl⟩
      cases hf : (refsOf b.transactions).find? (fun p => keyMatches p.1 v) with
      | none =>
          have hmu : markBy (refsOf b.transactions) v = v := by
            unfold markBy
            rw [hf]
          rw [hmu] at hs ⊢
          rcases wf.spenderLink v hv s hs with ⟨t0, ht0, h1, h2⟩
          exact ⟨t0, List.mem_append_left _ ht0, h1, h2⟩
      | some p =>
          have hmu : markBy (refsOf b.transactions) v = markSpent p.2 v := by
            unfold markBy
            rw [hf]
          rw [hmu] at hs ⊢
          have hsp : s = p.2 := by
            have h2 : some p.2 = some s := hs
            exact (Option.some.inj h2).symm
          rcases mem_refsOf.mp (List.mem_of_find?_eq_some hf) with ⟨q, hq, j, hj, rfl⟩
          refine ⟨txRowOf b q, List.mem_append_right _ (List.mem_map_of_mem _ hq), hsp, ?_⟩
          show (markSpent (j, q.id).2 v).blockHeight < b.height
          rcases wf.utxoTxLink v hv with ⟨t0, ht0, _, hvh⟩
          rcases wf.txBlockLink t0 ht0 with ⟨br, hbr, _, hth⟩
          have hlt := hbgt br hbr
          show v.blockHeight < b.height
          omega
    · have h1 := (newRowsOf_spent_none u hrr).1
      rw [h1] at hs
      cases hs
  · intro a
    have h1 := sumUnspent_mid (h := b.height) wf.utxoKeysNodup hres3 hσ3 a
    rw [hbal3 a, wf.balCorrect a, sumUnspent_eq_sumAddr db a,
      sumUnspent_eq_sumAddr db' a, hu3, h1]

theorem currentMaxHeight_submit {db db' : DB} {b : Block} (wf : Wf db)
    (hok : submitBlock db b = .ok db') :
    currentMaxHeight db' = currentMaxHeight db + 1 := by
  obtain ⟨hval, hproc⟩ := submitBlock_ok_parts hok
  have hUtx := wf_utxoTxIds wf
  obtain ⟨hb3, -, -, -, -, -, -, -, -, -, -⟩ :=
    processBlock_char wf.utxoKeysNodup hUtx hval hproc
  have hheight : b.height = currentMaxHeight db + 1 := (validateBlock_ok_parts hval).1
  have hle : ∀ r ∈ db.blocks, r.height ≤ ({ id := b.id, height := b.height } : BlockRow).height := by
    intro r hr
    have := height_le_currentMaxHeight db r hr
    show r.height ≤ b.height
    omega
  have h := currentMaxHeight_of_blocks hb3 hle
  exact h.trans hheight

theorem wf_emptyDB : Wf emptyDB := by
  refine ⟨List.nodup_nil, List.nodup_nil, ?_, List.nodup_nil, ?_, List.nodup_nil, ?_, ?_, ?_, ?_⟩
  · intro r hr
    cases hr
  · intro t ht
    cases ht
  · intro u hu
    cases hu
  · intro u hu
    cases hu
  · intro u hu
    cases hu
  · intro a
    rfl

theorem rollbackToHeight_noop {db : DB} {k : Int} (h : ∀ r ∈ db.blocks, r.height ≤ k) :
    rollbackToHeight db k = db := by
  have h1 : db.blocks.filter (fun r => decide (k < r.height)) = [] := by
    rw [List.filter_eq_nil_iff]
    intro r hr
    have := h r hr
    simp
    omega
  have h2 : blocksToRemove db k = [] := by
    unfold blocksToRemove
    rw [h1]
    rfl
  show { rollbackBlockList db (blocksToRemove db k) with
      blocks := (rollbackBlockList db (blocksToRemove db k)).blocks.filter
        (fun r => !decide (k < r.height)) } = db
  rw [h2]
  show { db with blocks := db.blocks.filter (fun r => !decide (k < r.height)) } = db
  have h3 : db.blocks.filter (fun r => !decide (k < r.height)) = db.blocks := by
    refine List.filter_eq_self.mpr ?_
    intro r hr
    have := h r hr
    simp
    omega
  rw [h3]

theorem rollbackToHeight_curMax (db : DB) :
    rollbackToHeight db (currentMaxHeight db) = db :=
  rollbackToHeight_noop (height_le_currentMaxHeight db)

theorem applyChain_append (d : DB) (l1 l2 : List Block) :
    applyChain d (l1 ++ l2) = andThen (applyChain d l1) (fun y => applyChain y l2) := by
  induction l1 generalizing d with
  | nil => rfl
  | cons b rest ih =>
      show andThen (submitBlock d b) (fun d1 => applyChain d1 (rest ++ l2)) =
        andThen (andThen (submitBlock d b) (fun d1 => applyChain d1 rest))
          (fun y => applyChain y l2)
      cases hs : submitBlock d b with
      | error e => rfl
      | ok d1 =>
          show applyChain d1 (rest ++ l2) = andThen (applyChain d1 rest) (fun y => applyChain y l2)
          exact ih d1

theorem wf_applyChain {l : List Block} : ∀ {d d2 : DB}, Wf d → applyChain d l = .ok d2 →
    Wf d2 ∧ currentMaxHeight d2 = currentMaxHeight d + (l.length : Int) := by
  induction l with
  | nil =>
      intro d d2 wf h
      cases h
      refine ⟨wf, ?_⟩
      show currentMaxHeight d = currentMaxHeight d + ((0 : Nat) : Int)
      omega
  | cons b rest ih =>
      intro d d2 wf h
      rcases andThen_ok.mp h with ⟨d1, hs, hrest⟩
      have wf1 := wf_submitBlock wf hs
      have hcm := currentMaxHeight_submit wf hs
      rcases ih wf1 hrest with ⟨wf2, hcm2⟩
      refine ⟨wf2, ?_⟩
      rw [hcm2, hcm]
      show _ = currentMaxHeight d + ((rest.length + 1 : Nat) : Int)
      push_cast
      ring

theorem rollback_applyChain {l : List Block} : ∀ {d dn : DB} {k : Int}, Wf d →
    applyChain d l = .ok dn → k ≤ currentMaxHeight d →
    SimEq (rollbackToHeight dn k) (rollbackToHeight d k) := by
  induction l with
  | nil =>
      intro d dn k wf h hk
      cases h
      exact simEq_refl _
  | cons b rest ih =>
      intro d dn k wf h hk
      rcases andThen_ok.mp h with ⟨d1, hs, hrest⟩
      have wf1 := wf_submitBlock wf hs
      have hcm := currentMaxHeight_submit wf hs
      have hk1 : k ≤ currentMaxHeight d1 := by omega
      exact simEq_trans (ih wf1 hrest hk1) (rollback_absorb wf hs hk)

theorem processBlocks_of_applyChain {l : List Block} : ∀ {d dn : DB},
    applyChain d l = .ok dn → processBlocks d l = .ok dn := by
  induction l with
  | nil =>
      intro d dn h
      exact h
  | cons b rest ih =>
      intro d dn h
      rcases andThen_ok.mp h with ⟨d1, hs, hrest⟩
      have hp : processBlock d b = .ok d1 := (submitBlock_ok_parts hs).2
      show andThen (processBlock d b) (fun d2 => processBlocks d2 rest) = .ok dn
      rw [hp]
      show processBlocks d1 rest = .ok dn
      exact ih hrest

theorem processBlocks_simEq {l : List Block} : ∀ {d e : DB}, SimEq d e →
    RelExcept SimEq (processBlocks d l) (processBlocks e l) := by
  induction l with
  | nil =>
      intro d e h
      exact h
  | cons b rest ih =>
      intro d e h
      show RelExcept SimEq (andThen (processBlock d b) (fun d1 => processBlocks d1 rest))
        (andThen (processBlock e b) (fun e1 => processBlocks e1 rest))
      have hp := processBlock_simEq h b
      cases hd : processBlock d b <;> cases he : processBlock e b <;> rw [hd, he] at hp
      · show RelExcept SimEq (Except.error _) (Except.error _)
        exact hp
      · cases hp
      · cases hp
      · show RelExcept SimEq (processBlocks _ rest) (processBlocks _ rest)
        exact ih hp

theorem validateRollbackHeight_ok_iff (db : DB) (k : Int) :
    validateRollbackHeight db k = .ok () ↔ 0 ≤ k ∧ k ≤ currentMaxHeight db := by
  unfold validateRollbackHeight
  by_cases h1 : k < 0
  · simp [h1]
  · rw [if_neg h1]
    by_cases h2 : k > currentMaxHeight db
    · simp [h2]
    · simp [h2]
      omega

theorem reachable_chain {db : DB} (h : Reachable db) :
    ∃ bs d, applyChain emptyDB bs = .ok d ∧ SimEq db d := by
  induction h with
  | empty => exact ⟨[], emptyDB, rfl, simEq_refl _⟩
  | submit hr hok ih =>
      rename_i db0 db' b
      rcases ih with ⟨bs, d, hchain, hsim⟩
      have hrel := submitBlock_simEq hsim b
      cases hd : submitBlock d b with
      | error e =>
          rw [hok, hd] at hrel
          cases hrel
      | ok d1 =>
          rw [hok, hd] at hrel
          refine ⟨bs ++ [b], d1, ?_, hrel⟩
          rw [applyChain_append, andThen_ok]
          refine ⟨d, hchain, ?_⟩
          show andThen (submitBlock d b) (fun y => applyChain y []) = .ok d1
          rw [hd]
          rfl
  | rollback hr hval ih =>
      rename_i db0 k
      rcases ih with ⟨bs, d, hchain, hsim⟩
      rcases (validateRollbackHeight_ok_iff db0 k).mp hval with ⟨hk0, hkm⟩
      have hwfd : Wf d := (wf_applyChain wf_emptyDB hchain).1
      have hcmd : currentMaxHeight d = (bs.length : Int) := by
        have := (wf_applyChain wf_emptyDB hchain).2
        rw [this]
        show (0 : Int) + _ = _
        ring
      have hcme : currentMaxHeight db0 = currentMaxHeight d := currentMaxHeight_congr hsim.blocks
      have hkm2 : k ≤ (bs.length : Int) := by omega
      have hsplit : bs = bs.take k.toNat ++ bs.drop k.toNat := (List.take_append_drop _ bs).symm
      have hchain2 : applyChain emptyDB (bs.take k.toNat ++ bs.drop k.toNat) = .ok d := by
        rw [← hsplit]
        exact hchain
      rw [applyChain_append, andThen_ok] at hchain2
      rcases hchain2 with ⟨dk, hpre, hsuf⟩
      have hwfk : Wf dk := (wf_applyChain wf_emptyDB hpre).1
      have hlen : ((bs.take k.toNat).length : Int) = k := by
        rw [List.length_take]
        have hle : k.toNat ≤ bs.length := by omega
        rw [min_eq_left hle]
        exact Int.toNat_of_nonneg hk0
      have hcmk : currentMaxHeight dk = k := by
        have := (wf_applyChain wf_emptyDB hpre).2
        rw [this]
        show (0 : Int) + _ = _
        rw [hlen]
        ring
      have hstep : SimEq (rollbackToHeight d k) dk := by
        have h1 := rollback_applyChain hwfk hsuf (k := k) (by omega)
        have h2 : rollbackToHeight dk k = dk := by
          rw [← hcmk]
          exact rollbackToHeight_curMax dk
        rw [h2] at h1
        exact h1
      exact ⟨bs.take k.toNat, dk, hpre,
        simEq_trans (rollbackToHeight_simEq hsim k) hstep⟩

/-! ## The kind of every validation-path error -/

theorem getInputValue_err_kind {db : DB} {i : Input} {e : Err}
    (h : getInputValue db i = .error e) : ∃ m, e = .validationError m := by
  unfold getInputValue at h
  cases hr : resolveInput db i with
  | none =>
      rw [hr] at h
      exact ⟨_, (Except.error.inj h).symm⟩
  | some u =>
      rw [hr] at h
      cases h

theorem getInputValues_err_kind {inputs : List Input} : ∀ {db : DB} {e : Err},
    getInputValues db inputs = .error e → ∃ m, e = .validationError m := by
  induction inputs with
  | nil =>
      intro db e h
      cases h
  | cons i rest ih =>
      intro db e h
      unfold getInputValues at h
      cases hg : getInputValue db i with
      | error e2 =>
          rw [hg] at h
          rcases getInputValue_err_kind hg with ⟨m, rfl⟩
          exact ⟨m, (Except.error.inj h).symm⟩
      | ok v =>
          rw [hg] at h
          cases hr : getInputValues db rest with
          | error e3 =>
              rw [hr] at h
              rcases ih hr with ⟨m, rfl⟩
              exact ⟨m, (Except.error.inj h).symm⟩
          | ok vs =>
              rw [hr] at h
              cases h

theorem validateTransaction_err_kind {db : DB} {t : Transaction} {e : Err}
    (h : validateTransaction db t = .error e) : ∃ m, e = .validationError m := by
  cases hg : getInputValues db t.inputs with
  | error e2 =>
      have h2 : validateTransaction db t = .error e2 := by
        unfold validateTransaction
        rw [hg]
      rw [h2] at h
      rcases getInputValues_err_kind hg with ⟨m, rfl⟩
      exact ⟨m, (Except.error.inj h).symm⟩
  | ok vs =>
      by_cases hne : t.inputs = []
      · rw [validateTransaction_empty db t hne] at h
        cases h
      · rw [validateTransaction_char hg hne] at h
        split at h
        · cases h
        · exact ⟨_, (Except.error.inj h).symm⟩

theorem validateTransactions_err_kind {ts : List Transaction} : ∀ {db : DB} {e : Err},
    validateTransactions db ts = .error e → ∃ m, e = .validationError m := by
  induction ts with
  | nil =>
      intro db e h
      cases h
  | cons t rest ih =>
      intro db e h
      unfold validateTransactions at h
      cases hv : validateTransaction db t with
      | error e2 =>
          rw [hv] at h
          rcases validateTransaction_err_kind hv with ⟨m, rfl⟩
          exact ⟨m, (Except.error.inj h).symm⟩
      | ok u =>
          rw [hv] at h
          exact ih h

theorem validateBlock_err_kind {db : DB} {b : Block} {e : Err}
    (h : validateBlock db b = .error e) : ∃ m, e = .validationError m := by
  unfold validateBlock at h
  cases h1 : validateBlockHeight db b.height with
  | error e2 =>
      rw [h1] at h
      have he : e2 = e := Except.error.inj h
      subst he
      by_cases hh : b.height = currentMaxHeight db + 1
      · rw [(validateBlockHeight_ok_iff db b.height).mpr hh] at h1
        cases h1
      · rcases validateBlockHeight_err db b.height hh with ⟨m, hm⟩
        rw [hm] at h1
        exact ⟨m, (Except.error.inj h1.symm)⟩
  | ok u =>
      rw [h1] at h
      cases u
      cases h2 : validateBlockId b with
      | error e3 =>
          rw [h2] at h
          have he : e3 = e := Except.error.inj h
          subst he
          by_cases hid : b.id = expectedBlockId b.height b.transactions
          · rw [(validateBlockId_ok_iff b).mpr hid] at h2
            cases h2
          · rcases validateBlockId_err b hid with ⟨m, hm⟩
            rw [hm] at h2
            exact ⟨m, (Except.error.inj h2.symm)⟩
      | ok u2 =>
          rw [h2] at h
          cases u2
          exact validateTransactions_err_kind h

/-! ## The claims -/

/-- C1: for every valid sequence of blocks applied from the empty store and
every split point k, rolling back to height k and re-applying the removed
blocks through processBlock reproduces exactly the pre-rollback UTXO set and
balances. -/
theorem c1_inverse_law {l1 l2 : List Block} {dbn : DB}
    (happ : applyChain emptyDB (l1 ++ l2) = .ok dbn) :
    ∃ d, processBlocks (rollbackToHeight dbn (l1.length : Int)) l2 = .ok d ∧
      d.utxos = dbn.utxos ∧ ∀ a, getAddressBalance d a = getAddressBalance dbn a := by
  have h2 := happ
  rw [applyChain_append, andThen_ok] at h2
  rcases h2 with ⟨dk, hpre, hsuf0⟩
  have hsuf : applyChain dk l2 = .ok dbn := hsuf0
  have hwfk := (wf_applyChain wf_emptyDB hpre).1
  have hcmk : currentMaxHeight dk = (l1.length : Int) := by
    have h3 := (wf_applyChain wf_emptyDB hpre).2
    rw [h3]
    show (0 : Int) + _ = _
    ring
  have hsimk : SimEq (rollbackToHeight dbn (l1.length : Int)) dk := by
    have h1 := rollback_applyChain hwfk hsuf (k := (l1.length : Int)) (le_of_eq hcmk.symm)
    have h4 : rollbackToHeight dk (l1.length : Int) = dk := by
      rw [← hcmk]
      exact rollbackToHeight_curMax dk
    rw [h4] at h1
    exact h1
  have hpb : processBlocks dk l2 = .ok dbn := processBlocks_of_applyChain hsuf
  have hrel := processBlocks_simEq hsimk (l := l2)
  rw [hpb] at hrel
  cases hres : processBlocks (rollbackToHeight dbn (l1.length : Int)) l2 with
  | error e =>
      rw [hres] at hrel
      cases hrel
  | ok d =>
      rw [hres] at hrel
      have hsim2 : SimEq d dbn := hrel
      exact ⟨d, rfl, hsim2.utxos, hsim2.balances⟩

theorem c1_witness : (applyChain emptyDB ([chainBlock1] ++ [chainBlock2]) = .ok demoChainDB) ∧
    ∃ d, processBlocks (rollbackToHeight demoChainDB
      ((([chainBlock1] : List Block).length : Int))) [chainBlock2] = .ok d ∧
      d.utxos = demoChainDB.utxos ∧
      ∀ a, getAddressBalance d a = getAddressBalance demoChainDB a :=
  ⟨by decide, c1_inverse_law (by decide)⟩

/-- C2: rollbackToHeight removes blocks in strictly descending height order,
but within a block it undoes the transactions in ascending lexicographic
order of their ids (ORDER BY id), not in reverse application order. -/
theorem c2_rollback_order (db : DB) (k : Int) (bid : String) :
    (blocksToRemove db k).Sorted (fun x y => y.height ≤ x.height) ∧
    undoTxIds db bid = sortAsc (appOrderTxIds db bid) ∧
    (undoTxIds db bid).Sorted (fun x y => strLe x y = true) :=
  ⟨sortBlocksDesc_sorted _, rfl, sortAsc_sorted _⟩

theorem c2_counterexample :
    undoTxIds dbAB blockAB.id = ["a", "b"] ∧
    appOrderTxIds dbAB blockAB.id = ["a", "b"] ∧
    (appOrderTxIds dbAB blockAB.id).reverse = ["b", "a"] ∧
    undoTxIds dbAB blockAB.id ≠ (appOrderTxIds dbAB blockAB.id).reverse := by decide

/-- C3: in every state the service can reach, every address's stored balance
equals the sum of the values of the unspent UTXO rows it owns. -/
theorem c3_balance_invariant {db : DB} (h : Reachable db) :
    ∀ a, getAddressBalance db a = sumUnspent db a := by
  rcases reachable_chain h with ⟨bs, d, hchain, hsim⟩
  have hwf := (wf_applyChain wf_emptyDB hchain).1
  intro a
  rw [hsim.balances a, hwf.balCorrect a]
  unfold sumUnspent
  rw [hsim.utxos]

theorem c3_witness : Reachable demoChainDB ∧
    (∀ a, getAddressBalance demoChainDB a = sumUnspent demoChainDB a) := by
  have h1 : submitBlock emptyDB chainBlock1 = .ok demoChain1DB := by decide
  have h2 : submitBlock demoChain1DB chainBlock2 = .ok demoChainDB := by decide
  have hr : Reachable demoChainDB := .submit (.submit .empty h1) h2
  exact ⟨hr, c3_balance_invariant hr⟩

/-- C4: from every reachable state, rolling back to height 0 leaves no block,
transaction or UTXO rows, and every address reads balance 0. -/
theorem c4_rollback_to_zero {db : DB} (h : Reachable db) :
    (rollbackToHeight db 0).blocks = [] ∧
    (rollbackToHeight db 0).transactions = [] ∧
    (rollbackToHeight db 0).utxos = [] ∧
    ∀ a, getAddressBalance (rollbackToHeight db 0) a = 0 := by
  rcases reachable_chain h with ⟨bs, d, hchain, hsim⟩
  have h1 := rollback_applyChain (l := bs) wf_emptyDB hchain (k := 0) (by
    show (0 : Int) ≤ currentMaxHeight emptyDB
    show (0 : Int) ≤ 0
    omega)
  have h2 : rollbackToHeight emptyDB 0 = emptyDB := by decide
  rw [h2] at h1
  have htot : SimEq (rollbackToHeight db 0) emptyDB :=
    simEq_trans (rollbackToHeight_simEq hsim 0) h1
  exact ⟨htot.blocks, htot.transactions, htot.utxos, fun a => htot.balances a⟩

theorem c4_witness : Reachable demoChainDB ∧
    ((rollbackToHeight demoChainDB 0).blocks = [] ∧
      (rollbackToHeight demoChainDB 0).transactions = [] ∧
      (rollbackToHeight demoChainDB 0).utxos = [] ∧
      ∀ a, getAddressBalance (rollbackToHeight demoChainDB 0) a = 0) := by
  have h1 : submitBlock emptyDB chainBlock1 = .ok demoChain1DB := by decide
  have h2 : submitBlock demoChain1DB chainBlock2 = .ok demoChainDB := by decide
  have hr : Reachable demoChainDB := .submit (.submit .empty h1) h2
  exact ⟨hr, c4_rollback_to_zero hr⟩

/-- C5: an input of a submitted block that references a transaction id
belonging to the same block (and not already stored) is rejected by
validation as a ValidationError, regardless of whether the referenced
transaction comes before or after the spender in the block. -/
theorem c5_intra_block_rejected {db : DB} {b : Block} {t : Transaction} {i : Input}
    (hUtx : ∀ u ∈ db.utxos, u.txId ∈ db.transactions.map TxRow.id)
    (ht : t ∈ b.transactions) (hi : i ∈ t.inputs)
    (href : i.txId ∈ b.transactions.map Transaction.id)
    (hfresh : i.txId ∉ db.transactions.map TxRow.id) :
    ∃ m, submitBlock db b = .error (.validationError m) := by
  cases hv : validateBlock db b with
  | error e =>
      rcases validateBlock_err_kind hv with ⟨m, rfl⟩
      refine ⟨m, ?_⟩
      unfold submitBlock
      rw [hv]
  | ok uu =>
      exfalso
      cases uu
      have hts := (validateBlock_ok_parts hv).2.2
      have hres := validateTransaction_ok_resolves (hts t ht) i hi
      rw [Option.isSome_iff_exists] at hres
      rcases hres with ⟨v, hv2⟩
      unfold resolveInput at hv2
      have hvp : spendPred i v = true := List.find?_some hv2
      rw [spendPred, Bool.and_eq_true] at hvp
      have hvm : v ∈ db.utxos := List.mem_of_find?_eq_some hv2
      have hvt : v.txId = i.txId := by
        have hk := keyMatches_iff.mp hvp.1
        exact congrArg Prod.fst hk
      exact hfresh (hvt ▸ hUtx v hvm)

theorem c5_witness : (txBackSpend ∈ blockBack.transactions) ∧
    ∃ m, submitBlock emptyDB blockBack = .error (.validationError m) :=
  ⟨by decide, @c5_intra_block_rejected emptyDB blockBack txBackSpend ⟨"ta", 0⟩
    (fun u hu => absurd hu (List.not_mem_nil u)) (by decide) (by decide)
    (by decide) (by decide)⟩

theorem c5_counterexample :
    submitBlock emptyDB blockBack =
      .error (.validationError "Referenced input ta:0 not found or already spent") ∧
    submitBlock emptyDB blockFwd =
      .error (.validationError "Referenced input ta:0 not found or already spent") := by decide

/-- C6: an input referencing an already-spent UTXO of an earlier block makes
the submission fail as a ValidationError (InputNotFound), while the
second reference inside one block slips past validation and aborts
processing with a plain (generic) error instead. -/
theorem c6_double_spend {db : DB} {b : Block} {t : Transaction} {i : Input} {u : UTXORow}
    (hUk : (db.utxos.map utxoKey).Nodup)
    (ht : t ∈ b.transactions) (hi : i ∈ t.inputs)
    (hu : u ∈ db.utxos) (hk : keyMatches i u = true) (hs : u.isSpent = true) :
    (∃ m, submitBlock db b = .error (.validationError m)) ∧
    submitBlock dbM1 blockDSsame =
      .error (.genericError "UTXO tx1:0 not found or already spent") := by
  refine ⟨?_, by decide⟩
  cases hv : validateBlock db b with
  | error e =>
      rcases validateBlock_err_kind hv with ⟨m, rfl⟩
      refine ⟨m, ?_⟩
      unfold submitBlock
      rw [hv]
  | ok uu =>
      exfalso
      cases uu
      have hts := (validateBlock_ok_parts hv).2.2
      have hres := validateTransaction_ok_resolves (hts t ht) i hi
      rw [Option.isSome_iff_exists] at hres
      rcases hres with ⟨v, hv2⟩
      unfold resolveInput at hv2
      have hvp : spendPred i v = true := List.find?_some hv2
      rw [spendPred, Bool.and_eq_true] at hvp
      have hvm : v ∈ db.utxos := List.mem_of_find?_eq_some hv2
      have huv : u = v := by
        refine List.inj_on_of_nodup_map hUk hu hvm ?_
        rw [keyMatches_iff.mp hk, keyMatches_iff.mp hvp.1]
      have h5 := hvp.2
      rw [← huv, hs] at h5
      simp at h5

theorem c6_witness : ((⟨"tx1", 0, "A", 10, true, some "tx2", 1⟩ : UTXORow) ∈ dbM2.utxos) ∧
    ((∃ m, submitBlock dbM2 blockDSlater = .error (.validationError m)) ∧
      submitBlock dbM1 blockDSsame =
        .error (.genericError "UTXO tx1:0 not found or already spent")) :=
  ⟨by decide, @c6_double_spend dbM2 blockDSlater txSpendLater ⟨"tx1", 0⟩
    ⟨"tx1", 0, "A", 10, true, some "tx2", 1⟩ (by decide) (by decide) (by decide)
    (by decide) (by decide) (by decide)⟩

theorem c6_counterexample :
    submitBlock dbM1 blockDSsame =
      .error (.genericError "UTXO tx1:0 not found or already spent") ∧
    ∀ m, submitBlock dbM1 blockDSsame ≠ .error (.validationError m) := by
  refine ⟨by decide, ?_⟩
  intro m hc
  rw [show submitBlock dbM1 blockDSsame =
    .error (.genericError "UTXO tx1:0 not found or already spent") from by decide] at hc
  cases hc

/-- C7: a transaction with no inputs always passes the conservation check; a
transaction with inputs passes exactly when the resolved input values sum to
the output value sum; a block containing a failing transaction is rejected by
the submission path with a ValidationError. -/
theorem c7_conservation {db : DB} {t : Transaction} :
    (t.inputs = [] → validateTransaction db t = .ok ()) ∧
    (∀ vs, getInputValues db t.inputs = .ok vs → t.inputs ≠ [] →
      (validateTransaction db t = .ok () ↔
        sumInt vs = sumInt (t.outputs.map (fun o => o.value)))) ∧
    (∀ (b : Block), t ∈ b.transactions → validateTransaction db t ≠ .ok () →
      ∃ m, submitBlock db b = .error (.validationError m)) := by
  refine ⟨validateTransaction_empty db t, ?_, ?_⟩
  · intro vs hg hne
    rw [validateTransaction_char hg hne]
    by_cases hsum : sumInt vs = sumInt (t.outputs.map (fun o => o.value))
    · rw [if_pos hsum]
      exact iff_of_true rfl hsum
    · rw [if_neg hsum]
      refine iff_of_false ?_ hsum
      intro hc
      cases hc
  · intro b ht hbad
    cases hv : validateBlock db b with
    | error e =>
        rcases validateBlock_err_kind hv with ⟨m, rfl⟩
        refine ⟨m, ?_⟩
        unfold submitBlock
        rw [hv]
    | ok uu =>
        exfalso
        cases uu
        exact hbad ((validateBlock_ok_parts hv).2.2 t ht)

theorem c7_witness : (getInputValues dbM1 txMismatch.inputs = .ok [10]) ∧
    (validateTransaction dbM1 txMismatch = .ok () ↔
      sumInt [10] = sumInt (txMismatch.outputs.map (fun o => o.value))) :=
  ⟨by decide, (@c7_conservation dbM1 txMismatch).2.1 [10] (by decide) (by decide)⟩

/-- C8: a submitted block is accepted only at height currentMaxHeight + 1
(height 1 on an empty store); any other height is rejected by the height
check as a ValidationError and the submission fails with that same error. -/
theorem c8_height {db : DB} {b : Block} :
    (validateBlockHeight db b.height = .ok () ↔ b.height = currentMaxHeight db + 1) ∧
    currentMaxHeight emptyDB = 0 ∧
    (b.height ≠ currentMaxHeight db + 1 →
      ∃ m, submitBlock db b = .error (.validationError m) ∧
        validateBlockHeight db b.height = .error (.validationError m)) := by
  refine ⟨validateBlockHeight_ok_iff db b.height, rfl, ?_⟩
  intro hne
  rcases validateBlockHeight_err db b.height hne with ⟨m, hm⟩
  refine ⟨m, ?_, hm⟩
  have hv : validateBlock db b = .error (.validationError m) := by
    unfold validateBlock
    rw [hm]
  unfold submitBlock
  rw [hv]

theorem c8_witness : (blockDSlater.height ≠ currentMaxHeight emptyDB + 1) ∧
    (∃ m, submitBlock emptyDB blockDSlater = .error (.validationError m) ∧
      validateBlockHeight emptyDB blockDSlater.height = .error (.validationError m)) :=
  ⟨by decide, (@c8_height emptyDB blockDSlater).2.2 (by decide)⟩

/-- C9: the expected block id is the SHA-256 hex digest of the decimal height
concatenated with the transaction ids in ascending lexicographic order with
no separator; it is invariant under permutations of the transaction array,
and a mismatch with the supplied id is a ValidationError. -/
theorem c9_block_id {b : Block} :
    (validateBlockId b = .ok () ↔ b.id = expectedBlockId b.height b.transactions) ∧
    (∀ l, b.transactions.Perm l →
      expectedBlockId b.height b.transactions = expectedBlockId b.height l) ∧
    expectedBlockId b.height b.transactions =
      sha256hex (toString b.height ++
        String.join (sortAsc (b.transactions.map (fun t => t.id)))) ∧
    (b.id ≠ expectedBlockId b.height b.transactions →
      ∃ m, validateBlockId b = .error (.validationError m)) := by
  refine ⟨validateBlockId_ok_iff b, ?_, rfl, validateBlockId_err b⟩
  intro l hperm
  show sha256hex (toString b.height ++
      String.join (sortAsc (b.transactions.map (fun t => t.id)))) =
    sha256hex (toString b.height ++ String.join (sortAsc (l.map (fun t => t.id))))
  rw [sortAsc_eq_of_perm (hperm.map _)]

theorem c9_witness : (blockAB.transactions.Perm [txB, txA]) ∧
    expectedBlockId blockAB.height blockAB.transactions =
      expectedBlockId blockAB.height [txB, txA] :=
  ⟨by decide, (@c9_block_id blockAB).2.1 [txB, txA] (by decide)⟩

/-- C10: no operation rejects negative output values: a mint block whose
output value is -5 passes validation, is applied, and leaves the owning
address with a negative stored balance. -/
theorem c10_negative_outputs :
    validateBlock emptyDB blockNeg = .ok () ∧
    submitBlock emptyDB blockNeg = .ok dbNeg ∧
    dbNeg.utxos = [⟨"tn", 0, "addrN", -5, false, none, 1⟩] ∧
    getAddressBalance dbNeg "addrN" = -5 ∧
    getAddressBalance dbNeg "addrN" < 0 := by decide
